import Mathlib

/-!
# The implicit-list allocator of `mm-implicit.c`

A shallow embedding of the allocator (`mm_init`, `mm_malloc`, `mm_free`,
`mm_realloc`, `mm_checkheap` and their helpers) over a byte-addressed memory,
followed by the properties of the specification that concern it.

Conventions of the embedding:

* pointers and `size_t` values are natural numbers below `WORD = 2 ^ 64`;
  arithmetic that the C code performs on them is reduced modulo `WORD`;
* the heap is the byte range `[lo, lo + size)`; an access to a byte outside
  that range ends the run with `Err.fault`;
* loops are bounded by a step count derived from the heap size; a loop that
  would need more steps ends the run with `Err.timeout`;
* a failing `assert` ends the run with `Err.assertion`;
* the file-level flag `debug` is `false`, so the calls `mm_checkheap(true)`
  guarded by it are not executed.
-/

namespace MM

/-! ## Machine model -/

/-- Number of values of a `size_t` (and of a pointer). -/
def WORD : Nat := 18446744073709551616

/-- The constant `ALIGNMENT` of `memlib.h`. -/
def ALIGNMENT : Nat := 16

/-- The null pointer. -/
def NULL : Nat := 0

/-- Modelled from the spec: the declaration of `header_t` (in `mm-common.h`) is
not among the sources. The spec gives a header the two fields `size` and
`allocated` and a size that is a multiple of the alignment unit (`mm_init`
asserts `hdr_size == align(hdr_size)`). The layout taken here is the one a
64-bit little-endian C compiler gives `struct { size_t size; bool allocated; }`:
`size` in the first eight bytes, least significant byte first, `allocated` in
the ninth byte, and `sizeof(header_t)` equal to 16. -/
def hdr_size : Nat := 16

/-- Ways in which a run can end without a result. -/
inductive Err where
  | fault
  | timeout
  | assertion
  deriving DecidableEq, Repr

/-- State of the backing store and of the memory it manages.
Modelled from the spec: `memlib.c` is not among the sources. The heap occupies
the addresses from `lo` up to `lo + size`; the store grants growth as long as
the heap stays within `limit` bytes; `mem_heap_hi` reports
`lo + size - hi_off`, so `hi_off = 0` makes it the first address past the heap
and `hi_off = 1` the address of the last heap byte. -/
structure Heap where
  lo : Nat
  size : Nat
  limit : Nat
  hi_off : Nat
  mem : Nat → Nat

/-- Little-endian 64-bit value stored in the eight bytes from `p`. -/
def rd64 (m : Nat → Nat) (p : Nat) : Nat :=
  m p % 256 + m (p + 1) % 256 * 256 + m (p + 2) % 256 * 65536
    + m (p + 3) % 256 * 16777216 + m (p + 4) % 256 * 4294967296
    + m (p + 5) % 256 * 1099511627776 + m (p + 6) % 256 * 281474976710656
    + m (p + 7) % 256 * 72057594037927936

/-- Memory after storing the 64-bit value `v` in the eight bytes from `p`. -/
def wr64 (m : Nat → Nat) (p v : Nat) : Nat → Nat :=
  fun a => if p ≤ a ∧ a < p + 8 then v / 256 ^ (a - p) % 256 else m a

/-- Memory after storing the byte `b` at `p`. -/
def wr8 (m : Nat → Nat) (p b : Nat) : Nat → Nat :=
  fun a => if a = p then b % 256 else m a

/-- The bytes `[p, p + len)` lie inside the heap. -/
def in_heap (st : Heap) (p len : Nat) : Prop :=
  st.lo ≤ p ∧ p + len ≤ st.lo + st.size

instance (st : Heap) (p len : Nat) : Decidable (in_heap st p len) := by
  unfold in_heap; infer_instance

/-- Read of `p->size`. -/
def load_size (st : Heap) (p : Nat) : Except Err Nat :=
  if in_heap st p 8 then .ok (rd64 st.mem p) else .error .fault

/-- Read of `p->allocated`. -/
def load_allocated (st : Heap) (p : Nat) : Except Err Bool :=
  if in_heap st (p + 8) 1 then .ok (st.mem (p + 8) % 256 != 0) else .error .fault

/-- Write of `p->size = v`. -/
def store_size (st : Heap) (p v : Nat) : Except Err Heap :=
  if in_heap st p 8 then .ok { st with mem := wr64 st.mem p v } else .error .fault

/-- Write of `p->allocated = b`. -/
def store_allocated (st : Heap) (p : Nat) (b : Bool) : Except Err Heap :=
  if in_heap st (p + 8) 1 then
    .ok { st with mem := wr8 st.mem (p + 8) (if b then 1 else 0) }
  else .error .fault

/-- Conversion of a `size_t` to the `int` parameter of `mem_sbrk`. -/
def to_int (n : Nat) : Int :=
  if n % 4294967296 < 2147483648 then (n % 4294967296 : Nat)
  else (n % 4294967296 : Nat) - 4294967296

/-- Value returned by `mem_sbrk` when the store refuses: `(void *)-1`. -/
def SBRK_FAILED : Nat := 18446744073709551615

/-- Modelled from the spec: `memlib.c` is not among the sources. `grow(n)`
extends the heap by `n` bytes and returns the start of the added region, or
fails (leaving the heap as it is) when the request is negative or exceeds what
the store can grant. -/
def mem_sbrk (st : Heap) (incr : Int) : Heap × Nat :=
  if 0 ≤ incr ∧ st.size + incr.toNat ≤ st.limit then
    ({ st with size := st.size + incr.toNat }, st.lo + st.size)
  else (st, SBRK_FAILED)

/-- Modelled from the spec: lowest address of the heap. -/
def mem_heap_lo (st : Heap) : Nat := st.lo

/-- Modelled from the spec: high address of the heap (see `Heap`). -/
def mem_heap_hi (st : Heap) : Nat := st.lo + st.size - st.hi_off

/-- Modelled from the spec: current size of the heap in bytes. -/
def mem_heapsize (st : Heap) : Nat := st.size

/-- Modelled from the spec: `align(n)` rounds `n` up to the alignment unit of 16
bytes (as a `size_t`). -/
def align (sz : Nat) : Nat := (sz + 15) / 16 * 16 % WORD

/-- Modelled from the spec: the library routine `memcpy`, copying `n` bytes from
`src` to `dst`; both ranges have to lie inside the heap. -/
def memcpy (st : Heap) (dst src n : Nat) : Except Err Heap :=
  if n = 0 then .ok st
  else if in_heap st dst n ∧ in_heap st src n then
    .ok { st with mem := fun a =>
      if dst ≤ a ∧ a < dst + n then st.mem (src + (a - dst)) else st.mem a }
  else .error .fault

/-! ## The allocator -/

/-- The statistics returned by `mm_checkheap`. -/
structure heap_info_t where
  num_allocated_chunks : Nat
  num_free_chunks : Nat
  allocated_size : Nat
  free_size : Nat
  deriving DecidableEq, Repr

/-- Source: `init_chunk`. -/
def init_chunk (st : Heap) (p csz : Nat) (allocated : Bool) : Except Err Heap := do
  let st1 ← store_size st p csz
  store_allocated st1 p allocated

/-- The scan of `next_chunk` for a null argument: `p` is the header looked at,
`c` the counter of the loop. -/
def next_chunk_scan (st : Heap) : Nat → Nat → Nat → Except Err Nat
  | 0, _, _ => .error .timeout
  | k + 1, p, c =>
    if c < mem_heapsize st then do
      let sz ← load_size st p
      if sz ≠ 0 then pure p
      else
        let p1 := (p + hdr_size) % WORD
        let c1 := (c + 2) % WORD
        if p1 ≥ mem_heap_hi st then pure NULL
        else next_chunk_scan st k p1 c1
    else pure NULL

/-- Source: `next_chunk`. -/
def next_chunk (st : Heap) (h : Nat) : Except Err Nat :=
  if h = NULL then next_chunk_scan st (st.size + 1) (mem_heap_lo st) 0
  else do
    let hsz ← load_size st h
    let p := (h + hsz) % WORD
    if p ≥ mem_heap_hi st then pure NULL
    else do
      let psz ← load_size st p
      if psz ≠ 0 then pure p else pure NULL

/-- Source: `mm_init`; the result is the returned `int`. -/
def mm_init (st : Heap) : Except Err (Heap × Int) :=
  if hdr_size = align hdr_size then
    let r := mem_sbrk st 0
    if mem_heapsize r.1 = 0 then .ok (r.1, 0) else .ok (r.1, -1)
  else .error .assertion

/-- The loop of `first_fit`. -/
def first_fit_loop (st : Heap) (csz : Nat) : Nat → Nat → Except Err Nat
  | 0, _ => .error .timeout
  | k + 1, p =>
    if p = NULL then pure NULL
    else do
      let al ← load_allocated st p
      if al then do
        let q ← next_chunk st p
        first_fit_loop st csz k q
      else do
        let sz ← load_size st p
        if sz ≥ csz then pure p
        else do
          let q ← next_chunk st p
          first_fit_loop st csz k q

/-- Source: `first_fit`. -/
def first_fit (st : Heap) (csz : Nat) : Except Err Nat :=
  if mem_heapsize st = 0 then pure NULL
  else do
    let p ← next_chunk st NULL
    first_fit_loop st csz (st.size + 1) p

/-- Source: `split`. -/
def split (st : Heap) (original csz : Nat) : Except Err Heap :=
  if original = NULL then pure st
  else do
    let osz ← load_size st original
    if osz ≤ csz then pure st
    else do
      let csz2 := osz - csz
      let st1 ← store_size st original csz
      let p := (original + csz) % WORD
      let al ← load_allocated st1 original
      init_chunk st1 p csz2 al

/-- Source: `ask_os_for_chunk`. -/
def ask_os_for_chunk (st : Heap) (csz : Nat) : Except Err (Heap × Nat) := do
  let r := mem_sbrk st (to_int csz)
  let st1 ← init_chunk r.1 r.2 csz false
  pure (st1, r.2)

/-- Source: `mm_malloc`; the result is the returned pointer. -/
def mm_malloc (st : Heap) (size : Nat) : Except Err (Heap × Nat) := do
  let size := align size
  let csz := (hdr_size + align size) % WORD
  let p ← first_fit st csz
  let r ← if p ≠ NULL then (do let st1 ← split st p csz; pure (st1, p))
          else ask_os_for_chunk st csz
  let st2 ← init_chunk r.1 r.2 csz true
  pure (st2, (r.2 + hdr_size) % WORD)

/-- Source: `payload2header`. -/
def payload2header (p : Nat) : Nat := (p + WORD - hdr_size) % WORD

/-- The loop of `coalesce`: `p` is the chunk looked at, `csz` the bytes
collected so far. -/
def coalesce_loop : Nat → Heap → Nat → Nat → Except Err (Heap × Nat)
  | 0, _, _, _ => .error .timeout
  | k + 1, st, p, csz =>
    if p = NULL then pure (st, csz)
    else do
      let temp_p ← next_chunk st p
      let al ← load_allocated st p
      if al then pure (st, csz)
      else do
        let sz ← load_size st p
        let st1 ← store_size st p 0
        coalesce_loop k st1 temp_p ((csz + sz) % WORD)

/-- Source: `coalesce`. -/
def coalesce (st : Heap) (h : Nat) : Except Err Heap := do
  let p ← next_chunk st h
  let r ← coalesce_loop (st.size + 1) st p 0
  let hsz ← load_size r.1 h
  store_size r.1 h ((hsz + r.2) % WORD)

/-- Source: `mm_free`. -/
def mm_free (st : Heap) (p : Nat) : Except Err Heap := do
  let h := payload2header p
  let hsz ← load_size st h
  if hsz = 0 then pure st
  else do
    let st1 ← store_allocated st h false
    coalesce st1 h

/-- Source: `mm_realloc`; the result is the returned pointer. -/
def mm_realloc (st : Heap) (ptr size : Nat) : Except Err (Heap × Nat) := do
  let r ← if ptr = NULL then mm_malloc st size else pure (st, ptr)
  let st := r.1
  let ptr := r.2
  let h := payload2header ptr
  let hsz ← load_size st h
  let p_csz := (hsz + WORD - hdr_size) % WORD
  let al ← load_allocated st h
  if !al then pure (st, ptr)
  else if size = 0 then do
    let st1 ← mm_free st ptr
    pure (st1, ptr)
  else if (size + hdr_size) % WORD < p_csz ∧ size > 0 then do
    let st1 ← split st h ((size + hdr_size) % WORD)
    let p2 := (h + size + hdr_size + hdr_size) % WORD
    let st2 ← mm_free st1 p2
    pure (st2, ptr)
  else if size > p_csz then do
    let st1 ← mm_free st ptr
    let r2 ← mm_malloc st1 size
    let st3 ← memcpy r2.1 r2.2 ptr size
    pure (st3, r2.2)
  else pure (st, ptr)

/-- The loop of `mm_checkheap`. -/
def checkheap_loop (st : Heap) : Nat → Nat → heap_info_t → Except Err heap_info_t
  | 0, _, _ => .error .timeout
  | k + 1, p, info =>
    if p = NULL then pure info
    else do
      let al ← load_allocated st p
      let sz ← load_size st p
      let info1 : heap_info_t :=
        if al then
          { info with
            num_allocated_chunks := (info.num_allocated_chunks + 1) % WORD
            allocated_size := (info.allocated_size + sz) % WORD }
        else
          { info with
            num_free_chunks := (info.num_free_chunks + 1) % WORD
            free_size := (info.free_size + sz) % WORD }
      if mem_heapsize st = (info1.allocated_size + info1.free_size) % WORD then pure info1
      else do
        let q ← next_chunk st p
        checkheap_loop st k q info1

/-- Source: `mm_checkheap` (the report printed when `verbose` is set is not
modelled). -/
def mm_checkheap (st : Heap) : Except Err heap_info_t := do
  let p ← next_chunk st NULL
  let info ← checkheap_loop st (st.size + 1) p ⟨0, 0, 0, 0⟩
  if mem_heapsize st = (info.allocated_size + info.free_size) % WORD then pure info
  else .error .assertion

/-! ## Scenarios -/

/-- An empty heap at address 4096 whose store grants up to 1 MiB; `off` is the
`hi_off` of the store. -/
def empty_heap (off : Nat) : Heap :=
  { lo := 4096, size := 0, limit := 1048576, hi_off := off, mem := fun _ => 0 }

/-- An empty heap whose store grants nothing. -/
def exhausted_heap : Heap :=
  { lo := 4096, size := 0, limit := 0, hi_off := 1, mem := fun _ => 0 }

/-- An empty heap over memory that still holds old data: every byte is 255. -/
def stale_heap : Heap :=
  { lo := 4096, size := 0, limit := 1048576, hi_off := 1, mem := fun _ => 255 }

/-- A call of the allocator's interface. -/
inductive Call where
  | malloc (n : Nat)
  | free (p : Nat)
  | realloc (p n : Nat)

/-- Runs one call; the second component is the returned pointer (null for
`mm_free`, which returns nothing). -/
def step (st : Heap) : Call → Except Err (Heap × Nat)
  | .malloc n => mm_malloc st n
  | .free p => do let st1 ← mm_free st p; pure (st1, NULL)
  | .realloc p n => mm_realloc st p n

/-- Runs a sequence of calls and collects the returned pointers. -/
def run (st : Heap) : List Call → Except Err (Heap × List Nat)
  | [] => pure (st, [])
  | c :: cs => do
    let r ← step st c
    let rs ← run r.1 cs
    pure (rs.1, r.2 :: rs.2)

/-- Runs `mm_init` on an empty heap and then a sequence of calls. -/
def session (off : Nat) (calls : List Call) : Except Err (Heap × List Nat) := do
  let r ← mm_init (empty_heap off)
  run r.1 calls

/-- Runs `mm_init` on the empty heap over stale memory and then a sequence of
calls. -/
def stale_session (calls : List Call) : Except Err (Heap × List Nat) := do
  let r ← mm_init stale_heap
  run r.1 calls

/-- The `n` bytes stored from address `p` on. -/
def bytes_at (st : Heap) (p n : Nat) : List Nat :=
  (List.range n).map (fun i => st.mem (p + i) % 256)

/-- The state a run ended in (the empty heap if it ended without one). -/
def state_of {α : Type} (r : Except Err (Heap × α)) : Heap :=
  match r with
  | .ok x => x.1
  | .error _ => empty_heap 1

/-! ## Well-formed heaps -/

/-- A chunk as seen by a traversal: the address of its header and the two
fields stored there. -/
structure Chunk where
  addr : Nat
  size : Nat
  allocated : Bool
  deriving DecidableEq, Repr

/-- The header stored at `c.addr` holds the fields of `c`. -/
def hdr_at (m : Nat → Nat) (c : Chunk) : Prop :=
  rd64 m c.addr = c.size ∧ (m (c.addr + 8) % 256 != 0) = c.allocated

instance (m : Nat → Nat) (c : Chunk) : Decidable (hdr_at m c) := by
  unfold hdr_at; infer_instance

/-- The chunks `cs`, in this order, tile the byte range `[a, b)`: each starts
where the previous one ends, and each size is a multiple of 16 that is at least
the header size. -/
def Seg (m : Nat → Nat) : Nat → List Chunk → Nat → Prop
  | a, [], b => a = b
  | a, c :: cs, b =>
    c.addr = a ∧ hdr_at m c ∧ 16 ≤ c.size ∧ c.size % 16 = 0 ∧ Seg m (a + c.size) cs b

instance Seg.dec (m : Nat → Nat) : ∀ (cs : List Chunk) (a b : Nat), Decidable (Seg m a cs b)
  | [], a, b => by unfold Seg; infer_instance
  | c :: cs, a, b => by
    have := Seg.dec m cs (a + c.size) b
    unfold Seg; infer_instance

/-- The backing store is in a sound state: the heap starts at an aligned
non-null address, fits in the address space together with all the growth the
store may still grant, and `mem_heap_hi` is the end of the heap or its last
byte. -/
def store_ok (st : Heap) : Prop :=
  0 < st.lo ∧ st.lo % 16 = 0 ∧ st.lo + st.limit < WORD ∧ st.size ≤ st.limit ∧
    st.hi_off ≤ 1

instance (st : Heap) : Decidable (store_ok st) := by
  unfold store_ok; infer_instance

/-- The heap is well formed and `cs` are its live chunks from the lowest
address upwards: the store is sound and the heap is tiled by `cs`. -/
def WF (st : Heap) (cs : List Chunk) : Prop :=
  store_ok st ∧ Seg st.mem st.lo cs (st.lo + st.size)

instance (st : Heap) (cs : List Chunk) : Decidable (WF st cs) := by
  unfold WF; infer_instance

/-- Memory after writing both fields of the header at `p`. -/
def put_hdr (m : Nat → Nat) (p sz : Nat) (al : Bool) : Nat → Nat :=
  wr8 (wr64 m p sz) (p + 8) (if al then 1 else 0)

/-- Sum of the sizes of a list of chunks. -/
def total (cs : List Chunk) : Nat := (cs.map Chunk.size).sum

/-- A free chunk of at least `csz` bytes. -/
def fits (csz : Nat) (c : Chunk) : Bool := !c.allocated && decide (csz ≤ c.size)

/-- Address of the first chunk of a list, null when there is none. -/
def head_addr : List Chunk → Nat
  | [] => NULL
  | c :: _ => c.addr

/-- The two states describe the same backing store: only memory may differ. -/
def same_store (st st2 : Heap) : Prop :=
  st2.lo = st.lo ∧ st2.size = st.size ∧ st2.limit = st.limit ∧ st2.hi_off = st.hi_off

/-- The chunk size `mm_malloc` computes for a request of `n` bytes. -/
def chunk_size (n : Nat) : Nat := (hdr_size + align n) % WORD

/-- The chunk is free. -/
def is_free (c : Chunk) : Bool := !c.allocated

/-- The loop `for (p = next_chunk(NULL); p; p = next_chunk(p))` that `first_fit`,
`coalesce` and `mm_checkheap` share, recording every chunk it reaches. -/
def walk_loop (st : Heap) : Nat → Nat → Except Err (List Chunk)
  | 0, _ => .error .timeout
  | k + 1, p =>
    if p = NULL then pure []
    else do
      let sz ← load_size st p
      let al ← load_allocated st p
      let q ← next_chunk st p
      let rest ← walk_loop st k q
      pure (⟨p, sz, al⟩ :: rest)

/-- The live chunks: those reached by walking from the start of the heap. -/
def live_chunks (st : Heap) : Except Err (List Chunk) := do
  let p ← next_chunk st NULL
  walk_loop st (st.size + 1) p

/-- One chunk added to the statistics. -/
def tally (info : heap_info_t) (c : Chunk) : heap_info_t :=
  if c.allocated then
    { info with
      num_allocated_chunks := info.num_allocated_chunks + 1
      allocated_size := info.allocated_size + c.size }
  else
    { info with
      num_free_chunks := info.num_free_chunks + 1
      free_size := info.free_size + c.size }

/-- Statistics of a list of chunks. -/
def census (cs : List Chunk) : heap_info_t := cs.foldl tally ⟨0, 0, 0, 0⟩

/-- No chunk of the list is free together with the chunk right after it. -/
def no_adjacent_free : List Chunk → Prop
  | [] => True
  | [_] => True
  | x :: y :: rest =>
    ¬ (is_free x = true ∧ is_free y = true) ∧ no_adjacent_free (y :: rest)

instance no_adjacent_free.dec : ∀ cs : List Chunk, Decidable (no_adjacent_free cs)
  | [] => isTrue trivial
  | [_] => isTrue trivial
  | x :: y :: rest => by
    have := no_adjacent_free.dec (y :: rest)
    unfold no_adjacent_free; infer_instance

/-- The chunks `cs`, in this order, tile the byte range `[a, b)`, with sizes of
at least the header size that need not be multiples of 16. -/
def Tile (m : Nat → Nat) : Nat → List Chunk → Nat → Prop
  | a, [], b => a = b
  | a, c :: cs, b => c.addr = a ∧ hdr_at m c ∧ 16 ≤ c.size ∧ Tile m (a + c.size) cs b

/-- The run ended with a result or a fault, not because its step bound was
used up: the loops of the run came to an end. -/
def halts {α : Type} (r : Except Err α) : Prop := r ≠ .error .timeout

/-- For no address in the heap does the address plus the size read there wrap
around the address space. -/
def no_wrap (st : Heap) : Prop :=
  ∀ i, i < st.size → st.lo + i + rd64 st.mem (st.lo + i) < WORD

instance (st : Heap) : Decidable (no_wrap st) := by
  unfold no_wrap; infer_instance

/-- Address of an optional chunk, null when there is none. -/
def addr_of : Option Chunk → Nat
  | none => NULL
  | some c => c.addr

/-! ## Sequences of calls on valid references -/

/-- Splits a list of chunks at the chunk whose payload starts at `p`: the chunks
before it, the chunk itself, the chunks after it. -/
def locate (p : Nat) : List Chunk → Option (List Chunk × Chunk × List Chunk)
  | [] => none
  | c :: cs =>
    if c.addr + hdr_size = p then some ([], c, cs)
    else
      match locate p cs with
      | some r => some (c :: r.1, r.2.1, r.2.2)
      | none => none

/-- The last chunk of `pre`, if there is one, is allocated: a chunk that comes
right after `pre` has no free chunk immediately before it. -/
def pred_allocated (pre : List Chunk) : Prop :=
  ∀ c, pre.getLast? = some c → c.allocated = true

instance (pre : List Chunk) : Decidable (pred_allocated pre) := by
  unfold pred_allocated; infer_instance

/-- The pointer was located at a live chunk, and `P` holds of the chunks before
that chunk and of the chunk. -/
def on_chunk (o : Option (List Chunk × Chunk × List Chunk))
    (P : List Chunk → Chunk → Prop) : Prop :=
  match o with
  | some r => P r.1 r.2.1
  | none => False

instance (o : Option (List Chunk × Chunk × List Chunk)) (P : List Chunk → Chunk → Prop)
    [∀ pre a, Decidable (P pre a)] : Decidable (on_chunk o P) :=
  match o with
  | some r => by show Decidable (P r.1 r.2.1); infer_instance
  | none => by show Decidable False; infer_instance

/-- The chunk size of a request of `n` bytes, `hdr_size + align(n)` computed
without wrapping, is below `2 ^ 31`: it is in the range of the `int` parameter
of `mem_sbrk`. -/
def in_int_range (n : Nat) : Prop := hdr_size + (n + 15) / 16 * 16 < 2147483648

instance (n : Nat) : Decidable (in_int_range n) := by
  unfold in_int_range; infer_instance

/-- The call is one the invariant on adjacent free chunks is stated for, in a
heap whose live chunks are `cs`.

* `mm_malloc(n)`: the chunk size of `n` is in the range of `int`.
* `mm_free(p)`: `p` is the payload of a live chunk, and the live chunk right
  before that chunk is not free.
* `mm_realloc(p, n)`: the chunk size of `n` is in the range of `int`, and `p` is
  null or the payload of a live chunk `a`; where `mm_realloc` frees `a` (`n = 0`,
  or `n` above the payload size of `a`) the live chunk right before `a` is not
  free, and where it shrinks `a` in place `n` is a multiple of 16. -/
def admissible (cs : List Chunk) : Call → Prop
  | .malloc n => in_int_range n
  | .free p => on_chunk (locate p cs) (fun pre _ => pred_allocated pre)
  | .realloc p n =>
    in_int_range n ∧
      (p = NULL ∨ on_chunk (locate p cs) (fun pre a =>
        (a.allocated = true → (n = 0 ∨ a.size - hdr_size < n) → pred_allocated pre) ∧
        (a.allocated = true → 0 < n → n + hdr_size < a.size - hdr_size → n % 16 = 0)))

instance (cs : List Chunk) : (c : Call) → Decidable (admissible cs c)
  | .malloc _ => by unfold admissible; infer_instance
  | .free _ => by unfold admissible; infer_instance
  | .realloc _ _ => by unfold admissible; infer_instance

/-- The run produced a value, and `P` holds of it. -/
def ok_and {α : Type} (r : Except Err α) (P : α → Prop) : Prop :=
  match r with
  | .ok x => P x
  | .error _ => False

instance {α : Type} (r : Except Err α) (P : α → Prop) [∀ x, Decidable (P x)] :
    Decidable (ok_and r P) :=
  match r with
  | .ok x => by show Decidable (P x); infer_instance
  | .error _ => by show Decidable False; infer_instance

/-- If the run produced a value, `P` holds of it. -/
def ok_imp {α : Type} (r : Except Err α) (P : α → Prop) : Prop :=
  match r with
  | .ok x => P x
  | .error _ => True

instance {α : Type} (r : Except Err α) (P : α → Prop) [∀ x, Decidable (P x)] :
    Decidable (ok_imp r P) :=
  match r with
  | .ok x => by show Decidable (P x); infer_instance
  | .error _ => by show Decidable True; infer_instance

/-- Every call of the sequence is admissible in the heap it is made in: the
first in `st`, each later one in the heap the calls before it have left. -/
def admissible_run : Heap → List Call → Prop
  | _, [] => True
  | st, c :: rest =>
    ok_and (live_chunks st) (fun cs => admissible cs c) ∧
      ok_imp (step st c) (fun r => admissible_run r.1 rest)

instance admissible_run.dec : ∀ (calls : List Call) (st : Heap),
    Decidable (admissible_run st calls)
  | [], _ => isTrue trivial
  | c :: rest, st => by
    have := admissible_run.dec rest
    unfold admissible_run; infer_instance

end MM

open MM

deriving instance DecidableEq for Except

set_option maxRecDepth 100000

/-! ## Bytes and headers -/

theorem rd64_wr64_same (m : Nat → Nat) (p v : Nat) : rd64 (wr64 m p v) p = v % WORD := by
  have e1 : p + 1 - p = 1 := by omega
  have e2 : p + 2 - p = 2 := by omega
  have e3 : p + 3 - p = 3 := by omega
  have e4 : p + 4 - p = 4 := by omega
  have e5 : p + 5 - p = 5 := by omega
  have e6 : p + 6 - p = 6 := by omega
  have e7 : p + 7 - p = 7 := by omega
  simp only [rd64, wr64, WORD, e1, e2, e3, e4, e5, e6, e7, Nat.sub_self]
  norm_num
  omega

theorem wr64_other (m : Nat → Nat) (p v a : Nat) (h : a < p ∨ p + 8 ≤ a) :
    wr64 m p v a = m a := by
  unfold wr64
  rw [if_neg]
  omega

theorem wr8_other (m : Nat → Nat) (p b a : Nat) (h : a ≠ p) : wr8 m p b a = m a := by
  unfold wr8
  rw [if_neg h]

theorem rd64_congr (m m2 : Nat → Nat) (p : Nat) (h : ∀ x, p ≤ x → x < p + 8 → m2 x = m x) :
    rd64 m2 p = rd64 m p := by
  unfold rd64
  rw [h p (by omega) (by omega), h (p + 1) (by omega) (by omega), h (p + 2) (by omega) (by omega),
    h (p + 3) (by omega) (by omega), h (p + 4) (by omega) (by omega),
    h (p + 5) (by omega) (by omega), h (p + 6) (by omega) (by omega),
    h (p + 7) (by omega) (by omega)]

theorem rd64_lt (m : Nat → Nat) (p : Nat) : rd64 m p < WORD := by
  unfold rd64 WORD
  omega

theorem bind_ok {α β : Type} (x : α) (f : α → Except Err β) :
    (Except.ok x >>= f) = f x := rfl

theorem bind_error {α β : Type} (e : Err) (f : α → Except Err β) :
    ((Except.error e : Except Err α) >>= f) = Except.error e := rfl

theorem pure_ok {α : Type} (x : α) : (pure x : Except Err α) = Except.ok x := rfl

theorem load_size_ok (st : Heap) (p : Nat) (h : in_heap st p 8) :
    load_size st p = .ok (rd64 st.mem p) := by
  simp [load_size, h]

theorem load_allocated_ok (st : Heap) (p : Nat) (h : in_heap st (p + 8) 1) :
    load_allocated st p = .ok (st.mem (p + 8) % 256 != 0) := by
  simp [load_allocated, h]

theorem store_size_ok (st : Heap) (p v : Nat) (h : in_heap st p 8) :
    store_size st p v = .ok { st with mem := wr64 st.mem p v } := by
  simp [store_size, h]

theorem store_allocated_ok (st : Heap) (p : Nat) (b : Bool) (h : in_heap st (p + 8) 1) :
    store_allocated st p b = .ok { st with mem := wr8 st.mem (p + 8) (if b then 1 else 0) } := by
  simp [store_allocated, h]

theorem init_chunk_ok (st : Heap) (p csz : Nat) (al : Bool) (h : in_heap st p 9) :
    init_chunk st p csz al = .ok { st with mem := put_hdr st.mem p csz al } := by
  have h1 : in_heap st p 8 := by unfold in_heap at *; omega
  have h2 : in_heap { st with mem := wr64 st.mem p csz } (p + 8) 1 := by
    unfold in_heap at *; simp only; omega
  simp only [init_chunk, store_size_ok st p csz h1, bind_ok, store_allocated_ok _ p al h2, put_hdr]

theorem put_hdr_other (m : Nat → Nat) (p sz : Nat) (al : Bool) (x : Nat)
    (h : x < p ∨ p + 9 ≤ x) : put_hdr m p sz al x = m x := by
  unfold put_hdr
  rw [wr8_other _ _ _ _ (by omega), wr64_other _ _ _ _ (by omega)]

theorem hdr_at_put_hdr (m : Nat → Nat) (p sz : Nat) (al : Bool) (hsz : sz < WORD) :
    hdr_at (put_hdr m p sz al) ⟨p, sz, al⟩ := by
  unfold hdr_at put_hdr
  constructor
  · simp only
    rw [rd64_congr (wr64 m p sz) _ p (fun x _ h2 => wr8_other _ _ _ _ (by omega)),
      rd64_wr64_same, Nat.mod_eq_of_lt hsz]
  · cases al <;> simp [wr8]

theorem hdr_at_congr (m m2 : Nat → Nat) (c : Chunk) (h : hdr_at m c)
    (hm : ∀ x, c.addr ≤ x → x < c.addr + 9 → m2 x = m x) : hdr_at m2 c := by
  unfold hdr_at at *
  rw [rd64_congr m m2 c.addr (fun x h1 h2 => hm x h1 (by omega)),
    hm (c.addr + 8) (by omega) (by omega)]
  exact h

/-! ## Tilings -/

theorem seg_end (m : Nat → Nat) : ∀ (cs : List Chunk) (a b : Nat),
    Seg m a cs b → b = a + total cs
  | [], a, b, h => by simpa [Seg, total] using h.symm
  | c :: cs, a, b, h => by
    have ih := seg_end m cs (a + c.size) b h.2.2.2.2
    simp only [total, List.map_cons, List.sum_cons] at *
    omega

theorem seg_length (m : Nat → Nat) : ∀ (cs : List Chunk) (a b : Nat),
    Seg m a cs b → a + 16 * cs.length ≤ b
  | [], a, b, h => by simp [Seg] at h; simp [h]
  | c :: cs, a, b, h => by
    have ih := seg_length m cs (a + c.size) b h.2.2.2.2
    have := h.2.2.1
    simp only [List.length_cons]
    omega

theorem seg_frame (m m2 : Nat → Nat) : ∀ (cs : List Chunk) (a b : Nat),
    Seg m a cs b → (∀ x, a ≤ x → x < b → m2 x = m x) → Seg m2 a cs b
  | [], a, b, h, _ => by simpa [Seg] using h
  | c :: cs, a, b, h, hm => by
    obtain ⟨h1, h2, h3, h4, h5⟩ := h
    have hle := seg_length m cs (a + c.size) b h5
    refine ⟨h1, hdr_at_congr m m2 c h2 (fun x hx1 hx2 => hm x (by omega) (by omega)), h3, h4,
      seg_frame m m2 cs (a + c.size) b h5 (fun x hx1 hx2 => hm x (by omega) hx2)⟩

theorem seg_append (m : Nat → Nat) : ∀ (xs ys : List Chunk) (a b : Nat),
    Seg m a (xs ++ ys) b ↔ Seg m a xs (a + total xs) ∧ Seg m (a + total xs) ys b
  | [], ys, a, b => by simp [Seg, total]
  | c :: xs, ys, a, b => by
    have ih := seg_append m xs ys (a + c.size) b
    have e : a + c.size + total xs = a + total (c :: xs) := by
      simp only [total, List.map_cons, List.sum_cons]; omega
    rw [e] at ih
    show (c.addr = a ∧ hdr_at m c ∧ 16 ≤ c.size ∧ c.size % 16 = 0 ∧
      Seg m (a + c.size) (xs ++ ys) b) ↔
      (c.addr = a ∧ hdr_at m c ∧ 16 ≤ c.size ∧ c.size % 16 = 0 ∧
        Seg m (a + c.size) xs (a + total (c :: xs))) ∧ Seg m (a + total (c :: xs)) ys b
    rw [ih]
    tauto

theorem seg_aligned (m : Nat → Nat) : ∀ (cs : List Chunk) (a b : Nat),
    Seg m a cs b → a % 16 = 0 → b % 16 = 0
  | [], a, b, h, ha => by simp [Seg] at h; omega
  | c :: cs, a, b, h, ha =>
    seg_aligned m cs (a + c.size) b h.2.2.2.2 (by have := h.2.2.2.1; omega)

/-! ## Traversal of a well-formed heap -/

theorem next_chunk_seg (st : Heap) (c : Chunk) (cs : List Chunk) (hs : store_ok st)
    (hlo : st.lo ≤ c.addr) (h : Seg st.mem c.addr (c :: cs) (st.lo + st.size)) :
    next_chunk st c.addr = .ok (head_addr cs) := by
  obtain ⟨h0, h1, h2, h3, h4⟩ := hs
  obtain ⟨-, hh, hc16, -, htl⟩ := h
  have hlen := seg_length _ _ _ _ htl
  have hin : in_heap st c.addr 8 := by unfold in_heap; omega
  have hne : c.addr ≠ NULL := by unfold NULL; omega
  unfold WORD at h2
  have hp : (c.addr + c.size) % WORD = c.addr + c.size := by
    unfold WORD; omega
  unfold next_chunk
  rw [if_neg hne, load_size_ok st _ hin, bind_ok, hh.1, hp]
  cases cs with
  | nil =>
    simp only [Seg] at htl
    simp [mem_heap_hi, head_addr, pure_ok]
    omega
  | cons d ds =>
    obtain ⟨hd1, hd2, hd3, -, hd5⟩ := htl
    have hlen2 := seg_length _ _ _ _ hd5
    have hin2 : in_heap st (c.addr + c.size) 8 := by unfold in_heap; omega
    have hlt : ¬ (c.addr + c.size ≥ mem_heap_hi st) := by unfold mem_heap_hi; omega
    rw [if_neg hlt, load_size_ok st _ hin2, bind_ok, ← hd1, hd2.1]
    have : d.size ≠ 0 := by omega
    simp [this, head_addr, pure_ok]

theorem seg_zero_size (m : Nat → Nat) (cs : List Chunk) (a : Nat) (h : Seg m a cs a) :
    cs = [] := by
  have := seg_length m cs a a h
  cases cs with
  | nil => rfl
  | cons c cs => simp at this

theorem next_chunk_null (st : Heap) (cs : List Chunk) (h : WF st cs) :
    next_chunk st NULL = .ok (head_addr cs) := by
  obtain ⟨hs, hseg⟩ := h
  unfold next_chunk
  rw [if_pos rfl]
  cases cs with
  | nil =>
    simp only [Seg] at hseg
    have : ¬ (0 < mem_heapsize st) := by unfold mem_heapsize; omega
    simp [next_chunk_scan, this, head_addr, pure_ok]
  | cons c cs =>
    obtain ⟨hc1, hc2, hc3, -, hc5⟩ := hseg
    have hlen := seg_length _ _ _ _ hc5
    have hpos : 0 < mem_heapsize st := by unfold mem_heapsize; omega
    have hin : in_heap st (mem_heap_lo st) 8 := by unfold in_heap mem_heap_lo; omega
    have hsz : rd64 st.mem (mem_heap_lo st) ≠ 0 := by
      unfold mem_heap_lo; rw [← hc1, hc2.1]; omega
    simp [next_chunk_scan, hpos, load_size_ok st _ hin, bind_ok, hsz, head_addr, pure_ok]
    exact hc1.symm

theorem head_addr_cons (c : Chunk) (cs : List Chunk) : head_addr (c :: cs) = c.addr := rfl

theorem first_fit_loop_seg (st : Heap) (csz : Nat) (hs : store_ok st) :
    ∀ (cs : List Chunk) (a fuel : Nat), Seg st.mem a cs (st.lo + st.size) → st.lo ≤ a →
      cs.length < fuel →
      first_fit_loop st csz fuel (head_addr cs) = .ok (addr_of (cs.find? (fits csz)))
  | [], a, fuel, _, _, hf => by
    obtain ⟨k, rfl⟩ : ∃ k, fuel = k + 1 := ⟨fuel - 1, by simp at hf; omega⟩
    simp [first_fit_loop, head_addr, addr_of, pure_ok]
  | c :: cs, a, fuel, h, hlo, hf => by
    obtain ⟨k, rfl⟩ : ∃ k, fuel = k + 1 := ⟨fuel - 1, by simp at hf; omega⟩
    have hca : c.addr = a := h.1
    have hnext := next_chunk_seg st c cs hs (by omega) (by rw [hca]; exact h)
    obtain ⟨-, hh, hc16, -, htl⟩ := h
    have hlen := seg_length _ _ _ _ htl
    have ih := first_fit_loop_seg st csz hs cs (a + c.size) k htl (by omega)
      (by simp at hf; omega)
    have hne : c.addr ≠ NULL := by unfold NULL; have := hs.1; omega
    have hin1 : in_heap st (c.addr + 8) 1 := by unfold in_heap; omega
    have hin2 : in_heap st c.addr 8 := by unfold in_heap; omega
    simp only [first_fit_loop, head_addr_cons, if_neg hne, load_allocated_ok st _ hin1, bind_ok,
      hh.2, load_size_ok st _ hin2, hh.1, hnext, ih, List.find?_cons, fits]
    cases hal : c.allocated
    · by_cases hfit : csz ≤ c.size
      · simp [hfit, addr_of, pure_ok]
      · simp [hfit]
    · simp

theorem first_fit_wf (st : Heap) (csz : Nat) (cs : List Chunk) (h : WF st cs) :
    first_fit st csz = .ok (addr_of (cs.find? (fits csz))) := by
  unfold first_fit
  by_cases hz : mem_heapsize st = 0
  · have : cs = [] := by
      unfold mem_heapsize at hz
      have h2 := h.2
      rw [hz] at h2
      exact seg_zero_size _ _ _ h2
    subst this
    simp [hz, addr_of, pure_ok]
  · rw [if_neg hz, next_chunk_null st cs h, bind_ok]
    have hlen := seg_length _ _ _ _ h.2
    exact first_fit_loop_seg st csz h.1 cs st.lo (st.size + 1) h.2 (le_refl _) (by omega)

/-! ## Allocation in a well-formed heap -/

theorem align_align (n : Nat) : align (align n) = align n := by
  unfold align WORD; omega

theorem chunk_size_mod (n : Nat) : chunk_size n % 16 = 0 := by
  unfold chunk_size align hdr_size WORD; omega

theorem chunk_size_lt (n : Nat) : chunk_size n < WORD := by
  unfold chunk_size; exact Nat.mod_lt _ (by unfold WORD; omega)

theorem find_split (q : Chunk → Bool) : ∀ (cs : List Chunk) (c : Chunk),
    cs.find? q = some c →
      ∃ pre post, cs = pre ++ c :: post ∧ q c = true ∧ ∀ d ∈ pre, q d = false
  | [], c, h => by simp at h
  | d :: cs, c, h => by
    rw [List.find?_cons] at h
    cases hq : q d
    · rw [hq] at h
      obtain ⟨pre, post, h1, h2, h3⟩ := find_split q cs c h
      refine ⟨d :: pre, post, by simp [h1], h2, ?_⟩
      intro e he
      rcases List.mem_cons.1 he with rfl | he
      · exact hq
      · exact h3 e he
    · rw [hq] at h
      cases h
      exact ⟨[], cs, rfl, hq, by simp⟩

theorem seg_append_mid (m : Nat → Nat) (xs ys : List Chunk) (a b : Nat) :
    Seg m a (xs ++ ys) b ↔ ∃ mid, Seg m a xs mid ∧ Seg m mid ys b := by
  rw [seg_append]
  constructor
  · intro h; exact ⟨_, h⟩
  · rintro ⟨mid, h1, h2⟩
    have := seg_end m xs a mid h1
    subst this
    exact ⟨h1, h2⟩

theorem seg_le (m : Nat → Nat) (cs : List Chunk) (a b : Nat) (h : Seg m a cs b) : a ≤ b := by
  have := seg_length m cs a b h; omega

theorem wf_split (st : Heap) (pre post : List Chunk) (c : Chunk)
    (h : WF st (pre ++ c :: post)) :
    Seg st.mem st.lo pre c.addr ∧ hdr_at st.mem c ∧ 16 ≤ c.size ∧ c.size % 16 = 0 ∧
      Seg st.mem (c.addr + c.size) post (st.lo + st.size) ∧ st.lo ≤ c.addr ∧
      c.addr + c.size ≤ st.lo + st.size ∧ c.addr % 16 = 0 := by
  obtain ⟨hs, hseg⟩ := h
  obtain ⟨mid, h1, h2⟩ := (seg_append_mid _ _ _ _ _).1 hseg
  obtain ⟨e, hh, h16, hm, htl⟩ := h2
  subst e
  exact ⟨h1, hh, h16, hm, htl, seg_le _ _ _ _ h1, seg_le _ _ _ _ htl,
    seg_aligned _ _ _ _ h1 hs.2.1⟩

theorem mm_malloc_fit (st : Heap) (n : Nat) (pre post : List Chunk) (c : Chunk)
    (h : WF st (pre ++ c :: post)) (hfit : fits (chunk_size n) c = true)
    (hpre : ∀ d ∈ pre, fits (chunk_size n) d = false) :
    ∃ st2, mm_malloc st n = .ok (st2, c.addr + hdr_size) ∧ same_store st st2 ∧
      (∀ x, x < c.addr ∨ c.addr + c.size ≤ x → st2.mem x = st.mem x) ∧
      (∀ x, x < c.addr ∨ c.addr + 9 ≤ x →
        x < c.addr + chunk_size n ∨ c.addr + chunk_size n + 9 ≤ x → st2.mem x = st.mem x) ∧
      (16 ≤ chunk_size n →
        WF st2 (pre ++ ⟨c.addr, chunk_size n, true⟩ ::
          (if c.size = chunk_size n then post
           else ⟨c.addr + chunk_size n, c.size - chunk_size n, false⟩ :: post))) := by
  have hfind : (pre ++ c :: post).find? (fits (chunk_size n)) = some c := by
    rw [List.find?_append]
    have : pre.find? (fits (chunk_size n)) = none := by
      rw [List.find?_eq_none]; intro d hd; simp [hpre d hd]
    simp [this, List.find?_cons, hfit]
  obtain ⟨hpreseg, hh, h16, hm16, hpost, hlo, hend, ha16⟩ := wf_split st pre post c h
  have hs := h.1
  obtain ⟨h0, h1, h2, h3, h4⟩ := hs
  have hcm := chunk_size_mod n
  have hclt := chunk_size_lt n
  simp only [fits, Bool.and_eq_true, Bool.not_eq_true', decide_eq_true_eq] at hfit
  obtain ⟨hfree, hle⟩ := hfit
  have hne : c.addr ≠ NULL := by unfold NULL; omega
  have hin8 : in_heap st c.addr 8 := by unfold in_heap; omega
  have hin9 : in_heap st c.addr 9 := by unfold in_heap; omega
  have hret : (c.addr + hdr_size) % WORD = c.addr + hdr_size := by
    unfold WORD hdr_size at *; omega
  unfold mm_malloc
  simp only [align_align, bind_ok]
  rw [show (hdr_size + align n) % WORD = chunk_size n from rfl, first_fit_wf st _ _ h, hfind]
  simp only [bind_ok, addr_of, ne_eq, hne, not_false_eq_true, if_true]
  unfold split
  rw [if_neg hne, load_size_ok st _ hin8, bind_ok, hh.1]
  by_cases hwhole : c.size ≤ chunk_size n
  · have heq : c.size = chunk_size n := by omega
    rw [if_pos hwhole]
    simp only [pure_ok, bind_ok, init_chunk_ok st _ _ _ hin9, hret, if_pos heq]
    refine ⟨_, rfl, ⟨rfl, rfl, rfl, rfl⟩, ?_, ?_, ?_⟩
    · intro x hx
      exact put_hdr_other _ _ _ _ _ (by omega)
    · intro x hx _
      exact put_hdr_other _ _ _ _ _ (by omega)
    · intro hc16
      refine ⟨⟨h0, h1, h2, h3, h4⟩, ?_⟩
      rw [seg_append_mid]
      refine ⟨c.addr, seg_frame _ _ _ _ _ hpreseg
        (fun x _ hx => put_hdr_other _ _ _ _ _ (by omega)), rfl,
        hdr_at_put_hdr _ _ _ _ hclt, hc16, hcm, ?_⟩
      simp only
      rw [← heq]
      exact seg_frame _ _ _ _ _ hpost (fun x hx _ => put_hdr_other _ _ _ _ _ (by omega))
  · have hgt : chunk_size n + 16 ≤ c.size := by omega
    have hp : (c.addr + chunk_size n) % WORD = c.addr + chunk_size n := by
      unfold WORD at *; omega
    have hin1 : in_heap { st with mem := wr64 st.mem c.addr (chunk_size n) } (c.addr + 8) 1 := by
      unfold in_heap; simp only; omega
    have hin9b : in_heap { st with mem := wr64 st.mem c.addr (chunk_size n) }
        (c.addr + chunk_size n) 9 := by
      unfold in_heap; simp only; omega
    have hal : (wr64 st.mem c.addr (chunk_size n) (c.addr + 8) % 256 != 0) = false := by
      rw [wr64_other _ _ _ _ (by omega), hh.2, hfree]
    rw [if_neg hwhole]
    simp only [pure_ok, bind_ok, store_size_ok st _ _ hin8, hp, load_allocated_ok _ _ hin1, hal,
      init_chunk_ok _ _ _ _ hin9b]
    have hin9c : ∀ m2 : Nat → Nat, in_heap { st with mem := m2 } c.addr 9 := by
      intro m2; unfold in_heap; simp only; omega
    simp only [init_chunk_ok _ _ _ _ (hin9c _), bind_ok, hret]
    have hneq : c.size ≠ chunk_size n := by omega
    rw [if_neg hneq]
    refine ⟨_, rfl, ⟨rfl, rfl, rfl, rfl⟩, ?_, ?_, ?_⟩
    · intro x hx
      simp only
      rw [put_hdr_other _ _ _ _ _ (by omega), put_hdr_other _ _ _ _ _ (by omega),
        wr64_other _ _ _ _ (by omega)]
    · intro x hx hx2
      simp only
      rw [put_hdr_other _ _ _ _ _ (by omega), put_hdr_other _ _ _ _ _ (by omega),
        wr64_other _ _ _ _ (by omega)]
    · intro hc16
      refine ⟨⟨h0, h1, h2, h3, h4⟩, ?_⟩
      rw [seg_append_mid]
      refine ⟨c.addr, seg_frame _ _ _ _ _ hpreseg (fun x _ hx => ?_), rfl,
        hdr_at_put_hdr _ _ _ _ hclt, hc16, hcm, rfl, ?_, by simp only; omega,
        by simp only; omega, ?_⟩
      · simp only
        rw [put_hdr_other _ _ _ _ _ (by omega), put_hdr_other _ _ _ _ _ (by omega),
          wr64_other _ _ _ _ (by omega)]
      · apply hdr_at_congr _ _ _ (hdr_at_put_hdr (wr64 st.mem c.addr (chunk_size n))
          (c.addr + chunk_size n) (c.size - chunk_size n) false (by unfold WORD at *; omega))
        intro x hx1 hx2
        simp only at hx1 hx2 ⊢
        rw [put_hdr_other _ _ _ _ _ (by omega)]
      · simp only
        have e : c.addr + chunk_size n + (c.size - chunk_size n) = c.addr + c.size := by omega
        rw [e]
        refine seg_frame _ _ _ _ _ hpost (fun x hx _ => ?_)
        rw [put_hdr_other _ _ _ _ _ (by omega), put_hdr_other _ _ _ _ _ (by omega),
          wr64_other _ _ _ _ (by omega)]

theorem to_int_small (n : Nat) (h : n < 2147483648) : to_int n = (n : Int) := by
  unfold to_int
  have e : n % 4294967296 = n := by omega
  rw [e, if_pos h]

theorem mem_sbrk_grant (st : Heap) (k : Nat) (h : k < 2147483648) (hl : st.size + k ≤ st.limit) :
    mem_sbrk st (to_int k) = ({ st with size := st.size + k }, st.lo + st.size) := by
  unfold mem_sbrk
  rw [to_int_small k h]
  simp [hl]

theorem mm_malloc_grow (st : Heap) (n : Nat) (cs : List Chunk) (h : WF st cs)
    (hnofit : ∀ d ∈ cs, fits (chunk_size n) d = false)
    (hint : hdr_size + align n < 2147483648) (hl : st.size + chunk_size n ≤ st.limit) :
    ∃ st2, mm_malloc st n = .ok (st2, st.lo + st.size + hdr_size) ∧
      st2.lo = st.lo ∧ st2.size = st.size + chunk_size n ∧ st2.limit = st.limit ∧
      st2.hi_off = st.hi_off ∧
      (∀ x, x < st.lo + st.size ∨ st.lo + st.size + 9 ≤ x → st2.mem x = st.mem x) ∧
      WF st2 (cs ++ [⟨st.lo + st.size, chunk_size n, true⟩]) := by
  have hfind : cs.find? (fits (chunk_size n)) = none := by
    rw [List.find?_eq_none]; intro d hd; simp [hnofit d hd]
  obtain ⟨⟨h0, h1, h2, h3, h4⟩, hseg⟩ := h
  have hcm := chunk_size_mod n
  have hclt := chunk_size_lt n
  have hcs : chunk_size n = hdr_size + align n := by
    unfold chunk_size; apply Nat.mod_eq_of_lt; unfold WORD; omega
  have hc16 : 16 ≤ chunk_size n := by rw [hcs]; unfold hdr_size; omega
  have hret : (st.lo + st.size + hdr_size) % WORD = st.lo + st.size + hdr_size := by
    unfold WORD hdr_size at *; omega
  have hin9 : ∀ m2 : Nat → Nat, in_heap { st with size := st.size + chunk_size n, mem := m2 }
      (st.lo + st.size) 9 := by
    intro m2; unfold in_heap; simp only; omega
  unfold mm_malloc
  simp only [align_align, bind_ok]
  rw [show (hdr_size + align n) % WORD = chunk_size n from rfl,
    first_fit_wf st _ _ ⟨⟨h0, h1, h2, h3, h4⟩, hseg⟩, hfind]
  simp only [bind_ok, addr_of, ne_eq, not_true_eq_false, if_false, ask_os_for_chunk,
    mem_sbrk_grant st _ (by omega) hl, init_chunk_ok _ _ _ _ (hin9 _), pure_ok, hret]
  refine ⟨_, rfl, rfl, rfl, rfl, rfl, ?_, ⟨h0, h1, h2, by simp only; omega, h4⟩, ?_⟩
  · intro x hx
    simp only
    rw [put_hdr_other _ _ _ _ _ (by omega), put_hdr_other _ _ _ _ _ (by omega)]
  · simp only
    rw [seg_append_mid]
    refine ⟨st.lo + st.size, seg_frame _ _ _ _ _ hseg (fun x _ hx => ?_), rfl,
      hdr_at_put_hdr _ _ _ _ hclt, hc16, hcm, ?_⟩
    · rw [put_hdr_other _ _ _ _ _ (by omega), put_hdr_other _ _ _ _ _ (by omega)]
    · simp only [Seg]; omega

/-! ## Freeing in a well-formed heap -/

theorem seg_mem (m : Nat → Nat) : ∀ (cs : List Chunk) (a b : Nat), Seg m a cs b →
    ∀ r ∈ cs, a ≤ r.addr ∧ r.addr + r.size ≤ b ∧ 16 ≤ r.size ∧ hdr_at m r
  | [], _, _, _, r, hr => by simp at hr
  | c :: cs, a, b, h, r, hr => by
    obtain ⟨h1, h2, h3, h4, h5⟩ := h
    have hle := seg_le m cs _ _ h5
    rcases List.mem_cons.1 hr with rfl | hr
    · exact ⟨by omega, by omega, h3, h2⟩
    · have := seg_mem m cs _ _ h5 r hr
      exact ⟨by omega, this.2.1, this.2.2⟩

theorem coalesce_loop_seg : ∀ (after : List Chunk) (st : Heap) (a fuel acc : Nat),
    store_ok st → st.lo ≤ a → Seg st.mem a after (st.lo + st.size) → after.length < fuel →
    acc < WORD →
    ∃ st2, coalesce_loop fuel st (head_addr after) acc
        = .ok (st2, (acc + total (after.takeWhile is_free)) % WORD) ∧
      same_store st st2 ∧
      (∀ x, (∀ r ∈ after.takeWhile is_free, x < r.addr ∨ r.addr + 8 ≤ x) →
        st2.mem x = st.mem x) ∧
      (∀ r ∈ after.takeWhile is_free, rd64 st2.mem r.addr = 0)
  | [], st, a, fuel, acc, _, _, _, hf, hacc => by
    obtain ⟨k, rfl⟩ : ∃ k, fuel = k + 1 := ⟨fuel - 1, by simp at hf; omega⟩
    refine ⟨st, ?_, ⟨rfl, rfl, rfl, rfl⟩, fun _ _ => rfl, by simp⟩
    simp [coalesce_loop, head_addr, pure_ok, total, Nat.mod_eq_of_lt hacc]
  | c :: cs, st, a, fuel, acc, hs, hlo, h, hf, hacc => by
    obtain ⟨k, rfl⟩ : ∃ k, fuel = k + 1 := ⟨fuel - 1, by simp at hf; omega⟩
    have hca : c.addr = a := h.1
    have hnext := next_chunk_seg st c cs hs (by omega) (by rw [hca]; exact h)
    obtain ⟨-, hh, hc16, -, htl⟩ := h
    have hlen := seg_length _ _ _ _ htl
    have hne : c.addr ≠ NULL := by unfold NULL; have := hs.1; omega
    have hin1 : in_heap st (c.addr + 8) 1 := by unfold in_heap; omega
    have hin2 : in_heap st c.addr 8 := by unfold in_heap; omega
    simp only [coalesce_loop, head_addr_cons, if_neg hne, hnext, bind_ok,
      load_allocated_ok st _ hin1, hh.2]
    cases hal : c.allocated
    · have htl2 : Seg (wr64 st.mem c.addr 0) (a + c.size) cs (st.lo + st.size) :=
        seg_frame _ _ _ _ _ htl (fun x hx _ => wr64_other _ _ _ _ (by omega))
      obtain ⟨st2, hrun, hsame, hframe, hzero⟩ :=
        coalesce_loop_seg cs { st with mem := wr64 st.mem c.addr 0 } (a + c.size) k
          ((acc + c.size) % WORD) hs (by simp only; omega) htl2 (by simp at hf; omega)
          (Nat.mod_lt _ (by unfold WORD; omega))
      have htw : (c :: cs).takeWhile is_free = c :: cs.takeWhile is_free := by
        simp [List.takeWhile_cons, is_free, hal]
      have hsub : ∀ r ∈ cs.takeWhile is_free, a + c.size ≤ r.addr := fun r hr =>
        (seg_mem _ _ _ _ htl r (List.takeWhile_subset is_free hr)).1
      refine ⟨st2, ?_, hsame, ?_, ?_⟩
      · simp only [Bool.false_eq_true, if_false, load_size_ok st _ hin2, bind_ok,
          store_size_ok st _ _ hin2, hh.1, hrun, htw]
        congr 2
        simp only [total, List.map_cons, List.sum_cons]
        unfold WORD; omega
      · intro x hx
        rw [htw] at hx
        rw [hframe x (fun r hr => hx r (List.mem_cons_of_mem _ hr))]
        exact wr64_other _ _ _ _ (by have := hx c (List.mem_cons_self _ _); omega)
      · intro r hr
        rw [htw] at hr
        rcases List.mem_cons.1 hr with rfl | hr
        · rw [rd64_congr (wr64 st.mem r.addr 0) st2.mem r.addr, rd64_wr64_same]
          · rfl
          · intro x hx1 hx2
            exact hframe x (fun r2 hr2 => by have := hsub r2 hr2; omega)
        · exact hzero r hr
    · refine ⟨st, ?_, ⟨rfl, rfl, rfl, rfl⟩, fun _ _ => rfl, ?_⟩
      · simp [pure_ok, List.takeWhile_cons, is_free, hal, total, Nat.mod_eq_of_lt hacc]
      · simp [List.takeWhile_cons, is_free, hal]

theorem store_ok_same (st st2 : Heap) (h : store_ok st) (hs : same_store st st2) :
    store_ok st2 := by
  unfold store_ok at *
  obtain ⟨e1, e2, e3, e4⟩ := hs
  rw [e1, e2, e3, e4]
  exact h

theorem coalesce_wf (st : Heap) (pre after : List Chunk) (a : Chunk)
    (h : WF st (pre ++ a :: after)) :
    ∃ st3, coalesce st a.addr = .ok st3 ∧ same_store st st3 ∧
      WF st3 (pre ++ ⟨a.addr, a.size + total (after.takeWhile is_free), a.allocated⟩ ::
        after.dropWhile is_free) ∧
      (∀ r ∈ after.takeWhile is_free, rd64 st3.mem r.addr = 0) ∧
      (∀ x, x < a.addr ∨ a.addr + 8 ≤ x →
        (∀ r ∈ after.takeWhile is_free, x < r.addr ∨ r.addr + 8 ≤ x) → st3.mem x = st.mem x) ∧
      (∀ x, a.addr ≤ x → x < a.addr + 8 → st3.mem x < 256) := by
  obtain ⟨hpreseg, hh, h16, hm16, hpost, hlo, hend, ha16⟩ := wf_split st pre after a h
  have hs := h.1
  have hnext := next_chunk_seg st a after hs hlo ⟨rfl, hh, h16, hm16, hpost⟩
  have hlen := seg_length _ _ _ _ hpost
  obtain ⟨st2, hrun, hsame, hframe, hzero⟩ :=
    coalesce_loop_seg after st (a.addr + a.size) (st.size + 1) 0 hs (by omega) hpost
      (by omega) (by unfold WORD; omega)
  have hsplit : Seg st.mem (a.addr + a.size) (after.takeWhile is_free ++ after.dropWhile is_free)
      (st.lo + st.size) := by
    rw [List.takeWhile_append_dropWhile]; exact hpost
  obtain ⟨hrunseg, hrestseg⟩ := (seg_append _ _ _ _ _).1 hsplit
  have hrestle := seg_le _ _ _ _ hrestseg
  have hsub : ∀ r ∈ after.takeWhile is_free,
      a.addr + a.size ≤ r.addr ∧ r.addr + 16 ≤ a.addr + a.size + total (after.takeWhile is_free) :=
    fun r hr => by have := seg_mem _ _ _ _ hrunseg r hr; omega
  obtain ⟨e1, e2, e3, e4⟩ := hsame
  have hlim := hs.2.2.1
  have hszl := hs.2.2.2.1
  have hin : in_heap st2 a.addr 8 := by unfold in_heap; rw [e1, e2]; omega
  have hrd : rd64 st2.mem a.addr = a.size := by
    rw [rd64_congr st.mem st2.mem a.addr, hh.1]
    intro x hx1 hx2
    exact hframe x (fun r hr => by have := hsub r hr; omega)
  have hval : (a.size + (0 + total (after.takeWhile is_free)) % WORD) % WORD
      = a.size + total (after.takeWhile is_free) := by
    unfold WORD at *; omega
  unfold coalesce
  simp only [hnext, bind_ok, hrun, load_size_ok st2 _ hin, hrd, store_size_ok st2 _ _ hin, hval]
  refine ⟨_, rfl, ⟨e1, e2, e3, e4⟩, ⟨store_ok_same st _ hs ⟨e1, e2, e3, e4⟩, ?_⟩, ?_, ?_, ?_⟩
  · simp only [e1, e2]
    rw [seg_append_mid]
    refine ⟨a.addr, seg_frame _ _ _ _ _ hpreseg (fun x _ hx => ?_), rfl, ⟨?_, ?_⟩,
      by simp only; omega, by
        simp only
        have := seg_aligned _ _ _ _ hrunseg (by omega)
        omega, ?_⟩
    · rw [wr64_other _ _ _ _ (by omega)]
      exact hframe x (fun r hr => by have := hsub r hr; omega)
    · simp only
      rw [rd64_wr64_same]
      exact Nat.mod_eq_of_lt (by unfold WORD at *; omega)
    · simp only
      rw [wr64_other _ _ _ _ (by omega),
        hframe _ (fun r hr => by have := hsub r hr; omega)]
      exact hh.2
    · simp only
      rw [← Nat.add_assoc]
      refine seg_frame _ _ _ _ _ hrestseg (fun x hx1 hx2 => ?_)
      rw [wr64_other _ _ _ _ (by omega)]
      exact hframe x (fun r hr => by have := hsub r hr; omega)
  · intro r hr
    simp only
    rw [rd64_congr st2.mem _ r.addr (fun x hx1 hx2 => wr64_other _ _ _ _
      (by have := hsub r hr; omega))]
    exact hzero r hr
  · intro x hx hx2
    simp only
    rw [wr64_other _ _ _ _ (by omega)]
    exact hframe x hx2
  · intro x hx1 hx2
    simp only [wr64]
    rw [if_pos ⟨hx1, hx2⟩]
    exact Nat.mod_lt _ (by omega)

theorem payload2header_add (a : Nat) (h : a + hdr_size < WORD) :
    payload2header (a + hdr_size) = a := by
  unfold payload2header WORD hdr_size at *; omega

theorem mm_free_wf (st : Heap) (pre after : List Chunk) (a : Chunk)
    (h : WF st (pre ++ a :: after)) :
    ∃ st3, mm_free st (a.addr + hdr_size) = .ok st3 ∧ same_store st st3 ∧
      WF st3 (pre ++ ⟨a.addr, a.size + total (after.takeWhile is_free), false⟩ ::
        after.dropWhile is_free) ∧
      (∀ r ∈ after.takeWhile is_free, rd64 st3.mem r.addr = 0) ∧
      (∀ x, x < a.addr ∨ a.addr + 9 ≤ x →
        (∀ r ∈ after.takeWhile is_free, x < r.addr ∨ r.addr + 8 ≤ x) → st3.mem x = st.mem x) ∧
      (∀ x, a.addr ≤ x → x < a.addr + 9 → st3.mem x < 256) := by
  obtain ⟨hpreseg, hh, h16, hm16, hpost, hlo, hend, ha16⟩ := wf_split st pre after a h
  have hs := h.1
  have hlim := hs.2.2.1
  have hszl := hs.2.2.2.1
  have hin : in_heap st a.addr 8 := by unfold in_heap; omega
  have hin1 : in_heap st (a.addr + 8) 1 := by unfold in_heap; omega
  have hnz : ¬ (a.size = 0) := by omega
  have hwf1 : WF { st with mem := wr8 st.mem (a.addr + 8) 0 }
      (pre ++ ⟨a.addr, a.size, false⟩ :: after) := by
    refine ⟨hs, ?_⟩
    simp only
    rw [seg_append_mid]
    refine ⟨a.addr, seg_frame _ _ _ _ _ hpreseg (fun x _ hx => wr8_other _ _ _ _ (by omega)),
      rfl, ⟨?_, ?_⟩, h16, hm16, ?_⟩
    · simp only
      rw [rd64_congr st.mem _ a.addr (fun x _ hx => wr8_other _ _ _ _ (by omega))]
      exact hh.1
    · simp [wr8]
    · show Seg _ (a.addr + a.size) after _
      exact seg_frame _ _ _ _ _ hpost (fun x hx _ => wr8_other _ _ _ _ (by omega))
  obtain ⟨st3, hco, hsame, hwf3, hzero, hframe, hnorm⟩ := coalesce_wf _ pre after _ hwf1
  unfold mm_free
  simp only [payload2header_add a.addr (by unfold WORD hdr_size at *; omega),
    load_size_ok st _ hin, bind_ok, hh.1, if_neg hnz, store_allocated_ok st _ _ hin1,
    Bool.false_eq_true, if_false]
  refine ⟨st3, hco, hsame, hwf3, hzero, ?_, ?_⟩
  · intro x hx hx2
    rw [hframe x (by simp only; omega) hx2]
    exact wr8_other _ _ _ _ (by omega)
  · intro x hx1 hx2
    by_cases hx8 : x < a.addr + 8
    · exact hnorm x hx1 hx8
    · have hx : x = a.addr + 8 := by omega
      subst hx
      rw [hframe (a.addr + 8) (by simp only; omega) (fun r hr => by
        have := (seg_mem _ _ _ _ hpost r (List.takeWhile_subset is_free hr)).1
        omega)]
      simp [wr8]

/-! ## The checker and the traversal on a well-formed heap -/

theorem walk_loop_seg (st : Heap) (hs : store_ok st) :
    ∀ (cs : List Chunk) (a fuel : Nat), Seg st.mem a cs (st.lo + st.size) → st.lo ≤ a →
      cs.length < fuel → walk_loop st fuel (head_addr cs) = .ok cs
  | [], a, fuel, _, _, hf => by
    obtain ⟨k, rfl⟩ : ∃ k, fuel = k + 1 := ⟨fuel - 1, by simp at hf; omega⟩
    simp [walk_loop, head_addr, pure_ok]
  | c :: cs, a, fuel, h, hlo, hf => by
    obtain ⟨k, rfl⟩ : ∃ k, fuel = k + 1 := ⟨fuel - 1, by simp at hf; omega⟩
    have hca : c.addr = a := h.1
    have hnext := next_chunk_seg st c cs hs (by omega) (by rw [hca]; exact h)
    obtain ⟨-, hh, hc16, -, htl⟩ := h
    have hlen := seg_length _ _ _ _ htl
    have ih := walk_loop_seg st hs cs (a + c.size) k htl (by omega) (by simp at hf; omega)
    have hne : c.addr ≠ NULL := by unfold NULL; have := hs.1; omega
    have hin1 : in_heap st (c.addr + 8) 1 := by unfold in_heap; omega
    have hin2 : in_heap st c.addr 8 := by unfold in_heap; omega
    simp only [walk_loop, head_addr_cons, if_neg hne, load_allocated_ok st _ hin1, bind_ok,
      hh.2, load_size_ok st _ hin2, hh.1, hnext, ih, pure_ok]

theorem live_chunks_wf (st : Heap) (cs : List Chunk) (h : WF st cs) :
    live_chunks st = .ok cs := by
  unfold live_chunks
  rw [next_chunk_null st cs h, bind_ok]
  have hlen := seg_length _ _ _ _ h.2
  exact walk_loop_seg st h.1 cs st.lo (st.size + 1) h.2 (le_refl _) (by omega)

theorem tally_sum (info : heap_info_t) (c : Chunk) :
    (tally info c).allocated_size + (tally info c).free_size
      = info.allocated_size + info.free_size + c.size ∧
    (tally info c).num_allocated_chunks + (tally info c).num_free_chunks
      = info.num_allocated_chunks + info.num_free_chunks + 1 := by
  unfold tally
  cases c.allocated <;> simp <;> omega

theorem checkheap_loop_seg (st : Heap) (hs : store_ok st) :
    ∀ (cs : List Chunk) (a fuel : Nat) (info : heap_info_t),
      Seg st.mem a cs (st.lo + st.size) → st.lo ≤ a → cs.length < fuel →
      info.allocated_size + info.free_size + st.lo = a →
      16 * (info.num_allocated_chunks + info.num_free_chunks) + st.lo ≤ a →
      checkheap_loop st fuel (head_addr cs) info = .ok (cs.foldl tally info)
  | [], a, fuel, info, _, _, hf, _, _ => by
    obtain ⟨k, rfl⟩ : ∃ k, fuel = k + 1 := ⟨fuel - 1, by simp at hf; omega⟩
    simp [checkheap_loop, head_addr, pure_ok]
  | c :: cs, a, fuel, info, h, hlo, hf, hsum, hcnt => by
    obtain ⟨k, rfl⟩ : ∃ k, fuel = k + 1 := ⟨fuel - 1, by simp at hf; omega⟩
    have hca : c.addr = a := h.1
    have hnext := next_chunk_seg st c cs hs (by omega) (by rw [hca]; exact h)
    obtain ⟨-, hh, hc16, -, htl⟩ := h
    have hlen := seg_length _ _ _ _ htl
    have hne : c.addr ≠ NULL := by unfold NULL; have := hs.1; omega
    have hin1 : in_heap st (c.addr + 8) 1 := by unfold in_heap; omega
    have hin2 : in_heap st c.addr 8 := by unfold in_heap; omega
    have hlim := hs.2.2.1
    have hszl := hs.2.2.2.1
    have hts := tally_sum info c
    have hinfo1 : (if c.allocated = true then
          ({ info with
            num_allocated_chunks := (info.num_allocated_chunks + 1) % WORD
            allocated_size := (info.allocated_size + c.size) % WORD } : heap_info_t)
        else
          { info with
            num_free_chunks := (info.num_free_chunks + 1) % WORD
            free_size := (info.free_size + c.size) % WORD }) = tally info c := by
      unfold tally
      cases c.allocated
      · have e1 : (info.num_free_chunks + 1) % WORD = info.num_free_chunks + 1 := by
          unfold WORD at *; omega
        have e2 : (info.free_size + c.size) % WORD = info.free_size + c.size := by
          unfold WORD at *; omega
        simp [e1, e2]
      · have e1 : (info.num_allocated_chunks + 1) % WORD = info.num_allocated_chunks + 1 := by
          unfold WORD at *; omega
        have e2 : (info.allocated_size + c.size) % WORD = info.allocated_size + c.size := by
          unfold WORD at *; omega
        simp [e1, e2]
    have hmod : ((tally info c).allocated_size + (tally info c).free_size) % WORD
        = (tally info c).allocated_size + (tally info c).free_size := by
      unfold WORD at *; omega
    simp only [checkheap_loop, head_addr_cons, if_neg hne, load_allocated_ok st _ hin1, bind_ok,
      hh.2, load_size_ok st _ hin2, hh.1, hinfo1, hmod, hnext, mem_heapsize, List.foldl_cons]
    cases cs with
    | nil =>
      simp only [Seg] at htl
      have : st.size = (tally info c).allocated_size + (tally info c).free_size := by omega
      simp [this, pure_ok]
    | cons d ds =>
      have hd16 := htl.2.2.1
      have hlen2 := seg_length _ _ _ _ htl.2.2.2.2
      have hneq : ¬ (st.size = (tally info c).allocated_size + (tally info c).free_size) := by
        omega
      rw [if_neg hneq]
      exact checkheap_loop_seg st hs (d :: ds) (a + c.size) k (tally info c) htl (by omega)
        (by simp at hf ⊢; omega) (by omega) (by omega)

theorem foldl_tally_sum : ∀ (cs : List Chunk) (info : heap_info_t),
    (cs.foldl tally info).allocated_size + (cs.foldl tally info).free_size
      = info.allocated_size + info.free_size + total cs
  | [], info => by simp [total]
  | c :: cs, info => by
    rw [List.foldl_cons, foldl_tally_sum cs (tally info c), (tally_sum info c).1]
    simp only [total, List.map_cons, List.sum_cons]
    omega

theorem mm_checkheap_wf (st : Heap) (cs : List Chunk) (h : WF st cs) :
    mm_checkheap st = .ok (census cs) := by
  unfold mm_checkheap
  rw [next_chunk_null st cs h, bind_ok]
  have hlen := seg_length _ _ _ _ h.2
  have hend := seg_end _ _ _ _ h.2
  have hlim := h.1.2.2.1
  have hszl := h.1.2.2.2.1
  rw [checkheap_loop_seg st h.1 cs st.lo (st.size + 1) ⟨0, 0, 0, 0⟩ h.2 (le_refl _) (by omega)
    (by simp) (by simp), bind_ok]
  have hsum := foldl_tally_sum cs ⟨0, 0, 0, 0⟩
  simp only [Nat.add_zero, Nat.zero_add] at hsum
  have hmod : ((cs.foldl tally ⟨0, 0, 0, 0⟩).allocated_size
      + (cs.foldl tally ⟨0, 0, 0, 0⟩).free_size) % WORD = st.size := by
    rw [hsum]; unfold WORD at *; omega
  simp [mem_heapsize, hmod, census, pure_ok]

/-! ## Allocation in an arbitrary heap -/

theorem store_size_inv (st st2 : Heap) (p v : Nat) (h : store_size st p v = .ok st2) :
    in_heap st p 8 ∧ st2 = { st with mem := wr64 st.mem p v } := by
  unfold store_size at h
  by_cases hin : in_heap st p 8
  · rw [if_pos hin] at h
    exact ⟨hin, (Except.ok.inj h).symm⟩
  · rw [if_neg hin] at h
    cases h

theorem store_allocated_inv (st st2 : Heap) (p : Nat) (b : Bool)
    (h : store_allocated st p b = .ok st2) :
    in_heap st (p + 8) 1 ∧ st2 = { st with mem := wr8 st.mem (p + 8) (if b then 1 else 0) } := by
  unfold store_allocated at h
  by_cases hin : in_heap st (p + 8) 1
  · rw [if_pos hin] at h
    exact ⟨hin, (Except.ok.inj h).symm⟩
  · rw [if_neg hin] at h
    cases h

theorem init_chunk_inv (st st2 : Heap) (p csz : Nat) (al : Bool)
    (h : init_chunk st p csz al = .ok st2) :
    in_heap st p 9 ∧ st2 = { st with mem := put_hdr st.mem p csz al } := by
  unfold init_chunk at h
  cases h1 : store_size st p csz with
  | error e => rw [h1] at h; cases h
  | ok st1 =>
    rw [h1, bind_ok] at h
    obtain ⟨hin1, rfl⟩ := store_size_inv _ _ _ _ h1
    obtain ⟨hin2, rfl⟩ := store_allocated_inv _ _ _ _ h
    refine ⟨?_, rfl⟩
    unfold in_heap at *
    simp only at hin2
    omega

theorem split_store (st st2 : Heap) (o csz : Nat) (h : split st o csz = .ok st2) :
    same_store st st2 := by
  unfold split at h
  by_cases ho : o = NULL
  · rw [if_pos ho] at h
    cases h
    exact ⟨rfl, rfl, rfl, rfl⟩
  · rw [if_neg ho] at h
    cases h1 : load_size st o with
    | error e => rw [h1] at h; cases h
    | ok osz =>
      rw [h1, bind_ok] at h
      by_cases hle : osz ≤ csz
      · rw [if_pos hle] at h
        cases h
        exact ⟨rfl, rfl, rfl, rfl⟩
      · rw [if_neg hle] at h
        cases h2 : store_size st o csz with
        | error e => rw [h2] at h; cases h
        | ok st1 =>
          rw [h2, bind_ok] at h
          obtain ⟨-, rfl⟩ := store_size_inv _ _ _ _ h2
          cases h3 : load_allocated { st with mem := wr64 st.mem o csz } o with
          | error e => rw [h3] at h; cases h
          | ok al =>
            rw [h3, bind_ok] at h
            obtain ⟨-, rfl⟩ := init_chunk_inv _ _ _ _ _ h
            exact ⟨rfl, rfl, rfl, rfl⟩

theorem mem_sbrk_store (st : Heap) (incr : Int) (hsz : st.size ≤ st.limit) :
    (mem_sbrk st incr).1.lo = st.lo ∧ (mem_sbrk st incr).1.limit = st.limit ∧
      (mem_sbrk st incr).1.size ≤ st.limit := by
  unfold mem_sbrk
  by_cases hc : 0 ≤ incr ∧ st.size + incr.toNat ≤ st.limit
  · rw [if_pos hc]; exact ⟨rfl, rfl, hc.2⟩
  · rw [if_neg hc]; exact ⟨rfl, rfl, hsz⟩

theorem mm_malloc_inv (st st2 : Heap) (n p : Nat) (hsz : st.size ≤ st.limit)
    (h : mm_malloc st n = .ok (st2, p)) :
    ∃ st1 q, init_chunk st1 q (chunk_size n) true = .ok st2 ∧ p = (q + hdr_size) % WORD ∧
      st1.lo = st.lo ∧ st1.limit = st.limit ∧ st1.size ≤ st.limit := by
  unfold mm_malloc at h
  simp only [align_align, bind_ok] at h
  rw [show (hdr_size + align n) % WORD = chunk_size n from rfl] at h
  cases hff : first_fit st (chunk_size n) with
  | error e => rw [hff] at h; cases h
  | ok q =>
    rw [hff, bind_ok] at h
    by_cases hq : q ≠ NULL
    · rw [if_pos hq] at h
      cases hsp : split st q (chunk_size n) with
      | error e => rw [hsp] at h; cases h
      | ok st1 =>
        rw [hsp] at h
        simp only [bind_ok, pure_ok] at h
        obtain ⟨e1, e2, e3, e4⟩ := split_store _ _ _ _ hsp
        cases hic : init_chunk st1 q (chunk_size n) true with
        | error e => rw [hic] at h; cases h
        | ok st3 =>
          rw [hic, bind_ok] at h
          cases h
          exact ⟨st1, q, hic, rfl, e1, e3, by omega⟩
    · rw [if_neg hq] at h
      unfold ask_os_for_chunk at h
      obtain ⟨e1, e2, e3⟩ := mem_sbrk_store st (to_int (chunk_size n)) hsz
      cases hic0 : init_chunk (mem_sbrk st (to_int (chunk_size n))).1
          (mem_sbrk st (to_int (chunk_size n))).2 (chunk_size n) false with
      | error e => simp only [hic0, bind_error, bind_ok] at h; cases h
      | ok st1 =>
        simp only [hic0, bind_ok, pure_ok] at h
        obtain ⟨-, rfl⟩ := init_chunk_inv _ _ _ _ _ hic0
        cases hic : init_chunk { (mem_sbrk st (to_int (chunk_size n))).1 with
            mem := put_hdr (mem_sbrk st (to_int (chunk_size n))).1.mem
              (mem_sbrk st (to_int (chunk_size n))).2 (chunk_size n) false }
            (mem_sbrk st (to_int (chunk_size n))).2 (chunk_size n) true with
        | error e => rw [hic] at h; cases h
        | ok st3 =>
          rw [hic, bind_ok] at h
          cases h
          exact ⟨_, _, hic, rfl, e1, e2, e3⟩

/-! ## Scenario steps from an empty well-formed heap -/

theorem wf_nil_size (st : Heap) (h : WF st []) : st.size = 0 := by
  have := h.2
  simp only [Seg] at this
  omega

theorem first_fit_lowest (st : Heap) (cs : List Chunk) (csz : Nat) (d : Chunk) (h : WF st cs)
    (hd : d ∈ cs) (hfit : fits csz d = true) :
    ∃ pre c post, cs = pre ++ c :: post ∧ fits csz c = true ∧
      (∀ e ∈ pre, fits csz e = false) ∧
      (∀ e ∈ cs, fits csz e = true → c.addr ≤ e.addr) := by
  cases hf : cs.find? (fits csz) with
  | none =>
    rw [List.find?_eq_none] at hf
    exact absurd hfit (hf d hd)
  | some c =>
    obtain ⟨pre, post, hcs, hc, hpre⟩ := find_split _ _ _ hf
    refine ⟨pre, c, post, hcs, hc, hpre, ?_⟩
    intro e he hefit
    subst hcs
    obtain ⟨-, -, h16, -, hpost, -, -, -⟩ := wf_split st pre post c h
    rcases List.mem_append.1 he with he | he
    · rw [hpre e he] at hefit; cases hefit
    · rcases List.mem_cons.1 he with rfl | he
      · exact le_refl _
      · have := (seg_mem _ _ _ _ hpost e he).1
        omega

/-! ## What `mm_free` leaves behind -/

theorem head_dropWhile_allocated : ∀ (l : List Chunk) (d : Chunk),
    (l.dropWhile is_free).head? = some d → d.allocated = true
  | [], d, h => by simp at h
  | c :: l, d, h => by
    cases hc : c.allocated
    · have : is_free c = true := by simp [is_free, hc]
      rw [List.dropWhile_cons, if_pos this] at h
      exact head_dropWhile_allocated l d h
    · have : ¬ (is_free c = true) := by simp [is_free, hc]
      rw [List.dropWhile_cons, if_neg this] at h
      simp only [List.head?_cons, Option.some.injEq] at h
      rw [← h]; exact hc

theorem no_adjacent_free_iff_chain : ∀ cs : List Chunk,
    no_adjacent_free cs ↔ cs.Chain' (fun x y => ¬ (is_free x = true ∧ is_free y = true))
  | [] => by simp [no_adjacent_free]
  | [_] => by simp [no_adjacent_free]
  | x :: y :: rest => by
    rw [List.chain'_cons, ← no_adjacent_free_iff_chain (y :: rest)]
    simp only [no_adjacent_free]

theorem merged_not_reached (st : Heap) (pre after : List Chunk) (a : Chunk)
    (h : WF st (pre ++ a :: after)) (r : Chunk) (hr : r ∈ after.takeWhile is_free) :
    r.addr + 16 ≤ st.lo + st.size ∧ st.lo ≤ r.addr ∧
      ∀ c ∈ pre ++ ⟨a.addr, a.size + total (after.takeWhile is_free), false⟩ ::
        after.dropWhile is_free, c.addr ≠ r.addr := by
  obtain ⟨hpreseg, hh, h16, hm16, hpost, hlo, hend, ha16⟩ := wf_split st pre after a h
  have hsplit : Seg st.mem (a.addr + a.size) (after.takeWhile is_free ++ after.dropWhile is_free)
      (st.lo + st.size) := by
    rw [List.takeWhile_append_dropWhile]; exact hpost
  obtain ⟨hrunseg, hrestseg⟩ := (seg_append _ _ _ _ _).1 hsplit
  have hrestle := seg_le _ _ _ _ hrestseg
  have hrm := seg_mem _ _ _ _ hrunseg r hr
  refine ⟨by omega, by omega, ?_⟩
  intro c hc
  rcases List.mem_append.1 hc with hc | hc
  · have := seg_mem _ _ _ _ hpreseg c hc
    omega
  · rcases List.mem_cons.1 hc with rfl | hc
    · simp only; omega
    · have := seg_mem _ _ _ _ hrestseg c hc
      omega

/-! ## Growth requests beyond the range of `int` -/

/-- A request of 4294967296 bytes on an empty heap: `mem_sbrk` receives the
chunk size 4294967312 as the `int` 16, so the heap grows by 16 bytes while the
header of the new chunk records 4294967312 bytes, and the assertion of
`mm_checkheap` fails. -/
theorem checkheap_fails_after_truncated_growth :
    to_int (chunk_size 4294967296) = 16 ∧
      (session 1 [.malloc 4294967296]).map (fun r => (mem_heapsize r.1, r.2))
        = .ok (16, [4112]) ∧
      (session 1 [.malloc 4294967296] >>= fun r => load_size r.1 4096) = .ok 4294967312 ∧
      (session 1 [.malloc 4294967296] >>= fun r => mm_checkheap r.1) = .error .assertion := by
  decide

/-! ## The census as counts and sums -/

theorem foldl_tally_eq : ∀ (cs : List Chunk) (info : heap_info_t),
    cs.foldl tally info =
      ⟨info.num_allocated_chunks + (cs.filter (fun c => c.allocated)).length,
        info.num_free_chunks + (cs.filter is_free).length,
        info.allocated_size + total (cs.filter (fun c => c.allocated)),
        info.free_size + total (cs.filter is_free)⟩
  | [], info => by simp [total]
  | c :: cs, info => by
    rw [List.foldl_cons, foldl_tally_eq cs (tally info c)]
    cases hc : c.allocated
    · simp [tally, hc, is_free, total, List.filter_cons]
      omega
    · simp [tally, hc, is_free, total, List.filter_cons]
      omega

theorem census_eq (cs : List Chunk) :
    census cs =
      ⟨(cs.filter (fun c => c.allocated)).length, (cs.filter is_free).length,
        total (cs.filter (fun c => c.allocated)), total (cs.filter is_free)⟩ := by
  unfold census
  rw [foldl_tally_eq]
  simp

/-! ## Freeing twice -/

theorem rd64_byte (m : Nat → Nat) (p : Nat) (h : ∀ x, p ≤ x → x < p + 8 → m x < 256)
    (i : Nat) (hi : i < 8) : m (p + i) = rd64 m p / 256 ^ i % 256 := by
  have a0 := h p (by omega) (by omega)
  have a1 := h (p + 1) (by omega) (by omega)
  have a2 := h (p + 2) (by omega) (by omega)
  have a3 := h (p + 3) (by omega) (by omega)
  have a4 := h (p + 4) (by omega) (by omega)
  have a5 := h (p + 5) (by omega) (by omega)
  have a6 := h (p + 6) (by omega) (by omega)
  have a7 := h (p + 7) (by omega) (by omega)
  clear h
  unfold rd64
  interval_cases i
  · norm_num; omega
  · norm_num; omega
  · norm_num; omega
  · norm_num; omega
  · norm_num; omega
  · norm_num; omega
  · norm_num; omega
  · norm_num; omega

theorem rd64_inj (m m2 : Nat → Nat) (p : Nat) (h1 : ∀ x, p ≤ x → x < p + 8 → m x < 256)
    (h2 : ∀ x, p ≤ x → x < p + 8 → m2 x < 256) (h : rd64 m p = rd64 m2 p) :
    ∀ x, p ≤ x → x < p + 8 → m x = m2 x := by
  intro x hx1 hx2
  obtain ⟨i, hi, rfl⟩ : ∃ i, i < 8 ∧ x = p + i := ⟨x - p, by omega, by omega⟩
  rw [rd64_byte m p h1 i hi, rd64_byte m2 p h2 i hi, h]

theorem takeWhile_dropWhile_free (l : List Chunk) :
    (l.dropWhile is_free).takeWhile is_free = [] := by
  cases hd : (l.dropWhile is_free) with
  | nil => rfl
  | cons c cs =>
    have hc := head_dropWhile_allocated l c (by rw [hd]; rfl)
    simp [List.takeWhile_cons, is_free, hc]

theorem dropWhile_dropWhile_free (l : List Chunk) :
    (l.dropWhile is_free).dropWhile is_free = l.dropWhile is_free := by
  cases hd : (l.dropWhile is_free) with
  | nil => rfl
  | cons c cs =>
    have hc := head_dropWhile_allocated l c (by rw [hd]; rfl)
    simp [List.dropWhile_cons, is_free, hc]

theorem heap_eq (st st2 : Heap) (hs : same_store st st2) (hm : ∀ x, st2.mem x = st.mem x) :
    st2 = st := by
  obtain ⟨e1, e2, e3, e4⟩ := hs
  cases st
  cases st2
  simp only at e1 e2 e3 e4 hm
  subst e1 e2 e3 e4
  have : ‹Nat → Nat› = _ := funext hm
  simp [this]

theorem mm_free_twice (st : Heap) (pre after : List Chunk) (a : Chunk)
    (h : WF st (pre ++ a :: after)) :
    ∃ st1, mm_free st (a.addr + hdr_size) = .ok st1 ∧
      mm_free st1 (a.addr + hdr_size) = .ok st1 ∧
      WF st1 (pre ++ ⟨a.addr, a.size + total (after.takeWhile is_free), false⟩ ::
        after.dropWhile is_free) ∧ same_store st st1 := by
  obtain ⟨st1, hfr1, hsame1, hwf1, -, -, hnorm1⟩ := mm_free_wf st pre after a h
  obtain ⟨st2, hfr2, hsame2, hwf2, -, hframe2, hnorm2⟩ :=
    mm_free_wf st1 pre (after.dropWhile is_free)
      ⟨a.addr, a.size + total (after.takeWhile is_free), false⟩ hwf1
  rw [takeWhile_dropWhile_free, dropWhile_dropWhile_free] at hwf2
  have e0 : total ([] : List Chunk) = 0 := rfl
  simp only [e0, Nat.add_zero] at hwf2 hframe2 hnorm2
  obtain ⟨-, hh1, -⟩ := wf_split _ _ _ _ hwf1
  obtain ⟨-, hh2, -⟩ := wf_split _ _ _ _ hwf2
  simp only [hdr_at] at hh1 hh2
  have heq : st2 = st1 := by
    apply heap_eq st1 st2 hsame2
    intro x
    by_cases hx : x < a.addr ∨ a.addr + 9 ≤ x
    · refine hframe2 x hx (fun r hr => ?_)
      rw [takeWhile_dropWhile_free] at hr
      simp at hr
    · by_cases hx8 : x < a.addr + 8
      · exact rd64_inj st2.mem st1.mem a.addr
          (fun y hy1 hy2 => hnorm2 y hy1 (by omega))
          (fun y hy1 hy2 => hnorm1 y hy1 (by omega))
          (by rw [hh2.1, hh1.1]) x (by omega) hx8
      · have hxe : x = a.addr + 8 := by omega
        subst hxe
        have n1 := hnorm1 (a.addr + 8) (by omega) (by omega)
        have n2 := hnorm2 (a.addr + 8) (by omega) (by omega)
        have f1 := hh1.2
        have f2 := hh2.2
        simp only [bne_eq_false_iff_eq] at f1 f2
        omega
  rw [heq] at hfr2
  exact ⟨st1, hfr1, hfr2, hwf1, hsame1⟩

/-! ## Termination of the traversals -/

theorem halts_ok {α : Type} (x : α) : halts (Except.ok x : Except Err α) := by
  unfold halts; simp

theorem halts_pure {α : Type} (x : α) : halts (pure x : Except Err α) := halts_ok x

theorem halts_fault {α : Type} : halts (Except.error Err.fault : Except Err α) := by
  unfold halts; simp

theorem halts_bind {α β : Type} (x : Except Err α) (f : α → Except Err β) (hx : halts x)
    (hf : ∀ v, x = .ok v → halts (f v)) : halts (x >>= f) := by
  cases x with
  | error e =>
    unfold halts at *
    rw [bind_error]
    intro hc
    exact hx (by cases hc; rfl)
  | ok v => exact hf v rfl

theorem load_size_halts (st : Heap) (p : Nat) : halts (load_size st p) := by
  unfold load_size; split_ifs
  · exact halts_ok _
  · exact halts_fault

theorem load_allocated_halts (st : Heap) (p : Nat) : halts (load_allocated st p) := by
  unfold load_allocated; split_ifs
  · exact halts_ok _
  · exact halts_fault

theorem store_size_halts (st : Heap) (p v : Nat) : halts (store_size st p v) := by
  unfold store_size; split_ifs
  · exact halts_ok _
  · exact halts_fault

theorem load_size_inv (st : Heap) (p v : Nat) (h : load_size st p = .ok v) :
    in_heap st p 8 ∧ v = rd64 st.mem p := by
  unfold load_size at h
  by_cases hin : in_heap st p 8
  · rw [if_pos hin] at h
    exact ⟨hin, (Except.ok.inj h).symm⟩
  · rw [if_neg hin] at h
    cases h

theorem next_chunk_scan_halts (st : Heap) (hsz : st.size + 2 ≤ WORD) :
    ∀ (fuel p c : Nat), 1 ≤ fuel → st.size + 2 ≤ c + 2 * fuel →
      halts (next_chunk_scan st fuel p c)
  | 0, p, c, h1, h => by omega
  | k + 1, p, c, h1, h => by
    unfold next_chunk_scan
    by_cases hc : c < mem_heapsize st
    · rw [if_pos hc]
      refine halts_bind _ _ (load_size_halts st p) (fun sz _ => ?_)
      by_cases hz : sz ≠ 0
      · rw [if_pos hz]; exact halts_pure _
      · rw [if_neg hz]
        simp only
        split_ifs
        · exact halts_pure _
        · have : (c + 2) % WORD = c + 2 := by
            apply Nat.mod_eq_of_lt; unfold mem_heapsize at hc; omega
          unfold mem_heapsize at hc
          apply next_chunk_scan_halts st hsz k
          · omega
          · rw [this]; omega
    · rw [if_neg hc]; exact halts_pure _

theorem next_chunk_scan_result (st : Heap) :
    ∀ (fuel p c q : Nat), p < mem_heap_hi st → next_chunk_scan st fuel p c = .ok q → q ≠ NULL →
      in_heap st q 8 ∧ rd64 st.mem q ≠ 0 ∧ q < mem_heap_hi st
  | 0, p, c, q, _, h, _ => by simp [next_chunk_scan] at h
  | k + 1, p, c, q, hp, h, hq => by
    unfold next_chunk_scan at h
    by_cases hc : c < mem_heapsize st
    · rw [if_pos hc] at h
      cases hl : load_size st p with
      | error e => rw [hl] at h; cases h
      | ok sz =>
        rw [hl, bind_ok] at h
        obtain ⟨hin, rfl⟩ := load_size_inv _ _ _ hl
        by_cases hz : rd64 st.mem p ≠ 0
        · rw [if_pos hz] at h
          cases h
          exact ⟨hin, hz, hp⟩
        · rw [if_neg hz] at h
          simp only at h
          by_cases hhi : (p + hdr_size) % WORD ≥ mem_heap_hi st
          · rw [if_pos hhi] at h
            cases h
            exact absurd rfl hq
          · rw [if_neg hhi] at h
            exact next_chunk_scan_result st k _ _ q (by omega) h hq
    · rw [if_neg hc] at h
      cases h
      exact absurd rfl hq

theorem next_chunk_halts (st : Heap) (hs : store_ok st) (h : Nat) : halts (next_chunk st h) := by
  unfold next_chunk
  by_cases hn : h = NULL
  · rw [if_pos hn]
    apply next_chunk_scan_halts st
      (by have := hs.2.2.1; have := hs.2.2.2.1; have := hs.1; unfold WORD at *; omega)
    · omega
    · omega
  · rw [if_neg hn]
    refine halts_bind _ _ (load_size_halts st h) (fun hsz _ => ?_)
    simp only
    split_ifs
    · exact halts_pure _
    · refine halts_bind _ _ (load_size_halts st _) (fun psz _ => ?_)
      split_ifs
      · exact halts_pure _
      · exact halts_pure _

theorem next_chunk_result (st : Heap) (hs : store_ok st) (hw : no_wrap st) (h q : Nat)
    (hq : next_chunk st h = .ok q) (hne : q ≠ NULL) :
    h < q ∧ in_heap st q 8 ∧ rd64 st.mem q ≠ 0 ∧ q < mem_heap_hi st := by
  unfold next_chunk at hq
  by_cases hn : h = NULL
  · rw [if_pos hn] at hq
    by_cases hlo : mem_heap_lo st < mem_heap_hi st
    · obtain ⟨h1, h2, h3⟩ := next_chunk_scan_result st _ _ _ q hlo hq hne
      refine ⟨?_, h1, h2, h3⟩
      have := hs.1
      unfold in_heap at h1
      unfold NULL at hn
      omega
    · exfalso
      have hsz : st.size ≤ 1 := by
        unfold mem_heap_lo mem_heap_hi at hlo; have := hs.2.2.2.2; omega
      have hfault : ∀ p, ¬ in_heap st p 8 := by
        intro p hp; unfold in_heap at hp; omega
      have e1 : (st.size + 1) = (st.size) + 1 := rfl
      rw [e1] at hq
      unfold next_chunk_scan at hq
      by_cases hc : 0 < mem_heapsize st
      · rw [if_pos hc] at hq
        unfold load_size at hq
        rw [if_neg (hfault _)] at hq
        cases hq
      · rw [if_neg hc] at hq
        cases hq
        exact hne rfl
  · rw [if_neg hn] at hq
    cases hl : load_size st h with
    | error e => rw [hl] at hq; cases hq
    | ok hsz =>
      rw [hl, bind_ok] at hq
      obtain ⟨hin, rfl⟩ := load_size_inv _ _ _ hl
      have hwrap : h + rd64 st.mem h < WORD := by
        unfold in_heap at hin
        have := hw (h - st.lo) (by omega)
        have e : st.lo + (h - st.lo) = h := by omega
        rw [e] at this
        exact this
      simp only [Nat.mod_eq_of_lt hwrap] at hq
      by_cases hhi : h + rd64 st.mem h ≥ mem_heap_hi st
      · rw [if_pos hhi] at hq
        cases hq
        exact absurd rfl hne
      · rw [if_neg hhi] at hq
        cases hl2 : load_size st (h + rd64 st.mem h) with
        | error e => rw [hl2] at hq; cases hq
        | ok psz =>
          rw [hl2, bind_ok] at hq
          obtain ⟨hin2, rfl⟩ := load_size_inv _ _ _ hl2
          by_cases hz : rd64 st.mem (h + rd64 st.mem h) ≠ 0
          · rw [if_pos hz] at hq
            cases hq
            refine ⟨?_, hin2, hz, by omega⟩
            by_contra hcon
            have e0 : rd64 st.mem h = 0 := by omega
            rw [e0, Nat.add_zero] at hz
            exact hz e0
          · rw [if_neg hz] at hq
            cases hq
            exact absurd rfl hne

theorem walk_step (st : Heap) (hs : store_ok st) (hw : no_wrap st) (p k q : Nat)
    (hin : in_heap st p 8) (hlt : st.lo + st.size < p + (k + 1))
    (hq : next_chunk st p = .ok q) :
    (q = NULL → 1 ≤ k) ∧ (q ≠ NULL → in_heap st q 8 ∧ st.lo + st.size < q + k) := by
  constructor
  · intro _
    unfold in_heap at hin
    omega
  · intro hne
    obtain ⟨h1, h2, -, -⟩ := next_chunk_result st hs hw p q hq hne
    exact ⟨h2, by omega⟩

theorem walk_start (st : Heap) (hs : store_ok st) (hw : no_wrap st) (h q : Nat)
    (hq : next_chunk st h = .ok q) :
    (q = NULL → 1 ≤ st.size + 1) ∧
      (q ≠ NULL → in_heap st q 8 ∧ st.lo + st.size < q + (st.size + 1)) := by
  constructor
  · intro _; omega
  · intro hne
    obtain ⟨-, h2, -, -⟩ := next_chunk_result st hs hw h q hq hne
    refine ⟨h2, ?_⟩
    unfold in_heap at h2
    omega

theorem first_fit_loop_halts (st : Heap) (hs : store_ok st) (hw : no_wrap st) (csz : Nat) :
    ∀ (fuel p : Nat), (p = NULL → 1 ≤ fuel) →
      (p ≠ NULL → in_heap st p 8 ∧ st.lo + st.size < p + fuel) →
      halts (first_fit_loop st csz fuel p)
  | 0, p, h1, h2 => by
    by_cases hp : p = NULL
    · have := h1 hp; omega
    · obtain ⟨hin, hlt⟩ := h2 hp
      unfold in_heap at hin
      omega
  | k + 1, p, _, h2 => by
    unfold first_fit_loop
    by_cases hp : p = NULL
    · rw [if_pos hp]; exact halts_pure _
    · rw [if_neg hp]
      obtain ⟨hin, hlt⟩ := h2 hp
      have hrec : halts (next_chunk st p >>= fun q => first_fit_loop st csz k q) :=
        halts_bind _ _ (next_chunk_halts st hs p) (fun q hq => by
          obtain ⟨s1, s2⟩ := walk_step st hs hw p k q hin hlt hq
          exact first_fit_loop_halts st hs hw csz k q s1 s2)
      refine halts_bind _ _ (load_allocated_halts st p) (fun al _ => ?_)
      cases al
      · simp only [Bool.false_eq_true, if_false]
        refine halts_bind _ _ (load_size_halts st p) (fun sz _ => ?_)
        split_ifs
        · exact halts_pure _
        · exact hrec
      · simp only [if_true]
        exact hrec

theorem first_fit_halts (st : Heap) (hs : store_ok st) (hw : no_wrap st) (csz : Nat) :
    halts (first_fit st csz) := by
  unfold first_fit
  split_ifs
  · exact halts_pure _
  · refine halts_bind _ _ (next_chunk_halts st hs NULL) (fun q hq => ?_)
    obtain ⟨s1, s2⟩ := walk_start st hs hw NULL q hq
    exact first_fit_loop_halts st hs hw csz _ q s1 s2

theorem checkheap_loop_halts (st : Heap) (hs : store_ok st) (hw : no_wrap st) :
    ∀ (fuel p : Nat) (info : heap_info_t), (p = NULL → 1 ≤ fuel) →
      (p ≠ NULL → in_heap st p 8 ∧ st.lo + st.size < p + fuel) →
      halts (checkheap_loop st fuel p info)
  | 0, p, _, h1, h2 => by
    by_cases hp : p = NULL
    · have := h1 hp; omega
    · obtain ⟨hin, hlt⟩ := h2 hp
      unfold in_heap at hin
      omega
  | k + 1, p, info, _, h2 => by
    unfold checkheap_loop
    by_cases hp : p = NULL
    · rw [if_pos hp]; exact halts_pure _
    · rw [if_neg hp]
      obtain ⟨hin, hlt⟩ := h2 hp
      refine halts_bind _ _ (load_allocated_halts st p) (fun al _ => ?_)
      refine halts_bind _ _ (load_size_halts st p) (fun sz _ => ?_)
      simp only
      split_ifs
      · exact halts_pure _
      · exact halts_bind _ _ (next_chunk_halts st hs p) (fun q hq => by
          obtain ⟨s1, s2⟩ := walk_step st hs hw p k q hin hlt hq
          exact checkheap_loop_halts st hs hw k q _ s1 s2)
      · exact halts_pure _
      · exact halts_bind _ _ (next_chunk_halts st hs p) (fun q hq => by
          obtain ⟨s1, s2⟩ := walk_step st hs hw p k q hin hlt hq
          exact checkheap_loop_halts st hs hw k q _ s1 s2)

theorem mm_checkheap_halts (st : Heap) (hs : store_ok st) (hw : no_wrap st) :
    halts (mm_checkheap st) := by
  unfold mm_checkheap
  refine halts_bind _ _ (next_chunk_halts st hs NULL) (fun q hq => ?_)
  obtain ⟨s1, s2⟩ := walk_start st hs hw NULL q hq
  refine halts_bind _ _ (checkheap_loop_halts st hs hw _ q _ s1 s2) (fun info _ => ?_)
  split_ifs
  · exact halts_pure _
  · unfold halts; simp

theorem rd64_mono (m m2 : Nat → Nat) (q : Nat) (h : ∀ x, m2 x % 256 ≤ m x % 256) :
    rd64 m2 q ≤ rd64 m q := by
  have h0 := h q
  have h1 := h (q + 1)
  have h2 := h (q + 2)
  have h3 := h (q + 3)
  have h4 := h (q + 4)
  have h5 := h (q + 5)
  have h6 := h (q + 6)
  have h7 := h (q + 7)
  unfold rd64
  omega

theorem no_wrap_zero (st : Heap) (p : Nat) (hw : no_wrap st) :
    no_wrap { st with mem := wr64 st.mem p 0 } := by
  intro i hi
  have h1 := hw i hi
  have h2 : rd64 (wr64 st.mem p 0) (st.lo + i) ≤ rd64 st.mem (st.lo + i) := by
    apply rd64_mono
    intro x
    unfold wr64
    split_ifs
    · simp
    · exact le_refl _
  simp only
  omega

theorem coalesce_loop_halts : ∀ (fuel : Nat) (st : Heap) (p acc : Nat), store_ok st →
    no_wrap st → (p = NULL → 1 ≤ fuel) →
    (p ≠ NULL → in_heap st p 8 ∧ st.lo + st.size < p + fuel) →
    halts (coalesce_loop fuel st p acc)
  | 0, st, p, _, _, _, h1, h2 => by
    by_cases hp : p = NULL
    · have := h1 hp; omega
    · obtain ⟨hin, hlt⟩ := h2 hp
      unfold in_heap at hin
      omega
  | k + 1, st, p, acc, hs, hw, _, h2 => by
    unfold coalesce_loop
    by_cases hp : p = NULL
    · rw [if_pos hp]; exact halts_pure _
    · rw [if_neg hp]
      obtain ⟨hin, hlt⟩ := h2 hp
      refine halts_bind _ _ (next_chunk_halts st hs p) (fun q hq => ?_)
      obtain ⟨s1, s2⟩ := walk_step st hs hw p k q hin hlt hq
      refine halts_bind _ _ (load_allocated_halts st p) (fun al _ => ?_)
      cases al
      · simp only [Bool.false_eq_true, if_false]
        refine halts_bind _ _ (load_size_halts st p) (fun sz _ => ?_)
        rw [store_size_ok st p 0 hin, bind_ok]
        exact coalesce_loop_halts k _ q _ hs (no_wrap_zero st p hw) s1 s2
      · simp only [if_true]
        exact halts_pure _

theorem coalesce_halts (st : Heap) (hs : store_ok st) (hw : no_wrap st) (h : Nat) :
    halts (coalesce st h) := by
  unfold coalesce
  refine halts_bind _ _ (next_chunk_halts st hs h) (fun q hq => ?_)
  obtain ⟨s1, s2⟩ := walk_start st hs hw h q hq
  refine halts_bind _ _ (coalesce_loop_halts _ st q 0 hs hw s1 s2) (fun r _ => ?_)
  refine halts_bind _ _ (load_size_halts _ h) (fun hsz _ => ?_)
  exact store_size_halts _ _ _

/-! ## Heaps whose chunk sizes are not aligned -/

theorem tile_of_seg (m : Nat → Nat) : ∀ (cs : List Chunk) (a b : Nat), Seg m a cs b → Tile m a cs b
  | [], _, _, h => h
  | _ :: cs, _, _, h => ⟨h.1, h.2.1, h.2.2.1, tile_of_seg m cs _ _ h.2.2.2.2⟩

theorem tile_length (m : Nat → Nat) : ∀ (cs : List Chunk) (a b : Nat),
    Tile m a cs b → a + 16 * cs.length ≤ b
  | [], a, b, h => by simp [Tile] at h; simp [h]
  | c :: cs, a, b, h => by
    have ih := tile_length m cs (a + c.size) b h.2.2.2
    have := h.2.2.1
    simp only [List.length_cons]
    omega

theorem tile_append (m : Nat → Nat) : ∀ (xs ys : List Chunk) (a mid b : Nat),
    Tile m a xs mid → Tile m mid ys b → Tile m a (xs ++ ys) b
  | [], ys, a, mid, b, h1, h2 => by
    simp only [Tile] at h1
    subst h1
    exact h2
  | c :: xs, ys, a, mid, b, h1, h2 =>
    ⟨h1.1, h1.2.1, h1.2.2.1, tile_append m xs ys _ mid b h1.2.2.2 h2⟩

theorem next_chunk_tile (st : Heap) (c : Chunk) (cs : List Chunk) (hs : store_ok st)
    (hlo : st.lo ≤ c.addr) (h : Tile st.mem c.addr (c :: cs) (st.lo + st.size)) :
    next_chunk st c.addr = .ok (head_addr cs) := by
  obtain ⟨h0, h1, h2, h3, h4⟩ := hs
  obtain ⟨-, hh, hc16, htl⟩ := h
  have hlen := tile_length _ _ _ _ htl
  have hin : in_heap st c.addr 8 := by unfold in_heap; omega
  have hne : c.addr ≠ NULL := by unfold NULL; omega
  unfold WORD at h2
  have hp : (c.addr + c.size) % WORD = c.addr + c.size := by
    unfold WORD; omega
  unfold next_chunk
  rw [if_neg hne, load_size_ok st _ hin, bind_ok, hh.1, hp]
  cases cs with
  | nil =>
    simp only [Tile] at htl
    simp [mem_heap_hi, head_addr, pure_ok]
    omega
  | cons d ds =>
    obtain ⟨hd1, hd2, hd3, hd5⟩ := htl
    have hlen2 := tile_length _ _ _ _ hd5
    have hin2 : in_heap st (c.addr + c.size) 8 := by unfold in_heap; omega
    have hlt : ¬ (c.addr + c.size ≥ mem_heap_hi st) := by unfold mem_heap_hi; omega
    rw [if_neg hlt, load_size_ok st _ hin2, bind_ok, ← hd1, hd2.1]
    have : d.size ≠ 0 := by omega
    simp [this, head_addr, pure_ok]

theorem walk_loop_tile (st : Heap) (hs : store_ok st) :
    ∀ (cs : List Chunk) (a fuel : Nat), Tile st.mem a cs (st.lo + st.size) → st.lo ≤ a →
      cs.length < fuel → walk_loop st fuel (head_addr cs) = .ok cs
  | [], a, fuel, _, _, hf => by
    obtain ⟨k, rfl⟩ : ∃ k, fuel = k + 1 := ⟨fuel - 1, by simp at hf; omega⟩
    simp [walk_loop, head_addr, pure_ok]
  | c :: cs, a, fuel, h, hlo, hf => by
    obtain ⟨k, rfl⟩ : ∃ k, fuel = k + 1 := ⟨fuel - 1, by simp at hf; omega⟩
    have hca : c.addr = a := h.1
    have hnext := next_chunk_tile st c cs hs (by omega) (by rw [hca]; exact h)
    obtain ⟨-, hh, hc16, htl⟩ := h
    have hlen := tile_length _ _ _ _ htl
    have ih := walk_loop_tile st hs cs (a + c.size) k htl (by omega) (by simp at hf; omega)
    have hne : c.addr ≠ NULL := by unfold NULL; have := hs.1; omega
    have hin1 : in_heap st (c.addr + 8) 1 := by unfold in_heap; omega
    have hin2 : in_heap st c.addr 8 := by unfold in_heap; omega
    simp only [walk_loop, head_addr_cons, if_neg hne, load_allocated_ok st _ hin1, bind_ok,
      hh.2, load_size_ok st _ hin2, hh.1, hnext, ih, pure_ok]

theorem live_chunks_tile (st : Heap) (cs : List Chunk) (hs : store_ok st)
    (h : Tile st.mem st.lo cs (st.lo + st.size)) : live_chunks st = .ok cs := by
  have hlen := tile_length _ _ _ _ h
  have hnull : next_chunk st NULL = .ok (head_addr cs) := by
    unfold next_chunk
    rw [if_pos rfl]
    cases cs with
    | nil =>
      simp only [Tile] at h
      have : ¬ (0 < mem_heapsize st) := by unfold mem_heapsize; omega
      simp [next_chunk_scan, this, head_addr, pure_ok]
    | cons c cs =>
      obtain ⟨hc1, hc2, hc3, hc5⟩ := h
      have hlen2 := tile_length _ _ _ _ hc5
      have hpos : 0 < mem_heapsize st := by unfold mem_heapsize; omega
      have hin : in_heap st (mem_heap_lo st) 8 := by unfold in_heap mem_heap_lo; omega
      have hsz : rd64 st.mem (mem_heap_lo st) ≠ 0 := by
        unfold mem_heap_lo; rw [← hc1, hc2.1]; omega
      simp [next_chunk_scan, hpos, load_size_ok st _ hin, bind_ok, hsz, head_addr, pure_ok]
      exact hc1.symm
  unfold live_chunks
  rw [hnull, bind_ok]
  exact walk_loop_tile st hs cs st.lo (st.size + 1) h (le_refl _) (by omega)

theorem coalesce_at (st : Heap) (hs : store_ok st) (p hsz : Nat) (after : List Chunk)
    (hlo : st.lo ≤ p) (hrd : rd64 st.mem p = hsz) (h16 : 16 ≤ hsz)
    (hseg : Seg st.mem (p + hsz) after (st.lo + st.size)) :
    ∃ st3, coalesce st p = .ok st3 ∧ same_store st st3 ∧
      rd64 st3.mem p = hsz + total (after.takeWhile is_free) ∧
      Seg st3.mem (p + hsz + total (after.takeWhile is_free)) (after.dropWhile is_free)
        (st.lo + st.size) ∧
      (∀ r ∈ after.takeWhile is_free, rd64 st3.mem r.addr = 0) ∧
      (∀ x, x < p ∨ p + 8 ≤ x →
        (∀ r ∈ after.takeWhile is_free, x < r.addr ∨ r.addr + 8 ≤ x) → st3.mem x = st.mem x) := by
  have htile : Tile st.mem p
      ((⟨p, hsz, st.mem (p + 8) % 256 != 0⟩ : Chunk) :: after) (st.lo + st.size) :=
    ⟨rfl, ⟨hrd, rfl⟩, h16, tile_of_seg _ _ _ _ hseg⟩
  have hnext := next_chunk_tile st ⟨p, hsz, st.mem (p + 8) % 256 != 0⟩ after hs hlo htile
  simp only at hnext
  have hlen := seg_length _ _ _ _ hseg
  obtain ⟨st2, hrun, hsame, hframe, hzero⟩ :=
    coalesce_loop_seg after st (p + hsz) (st.size + 1) 0 hs (by omega) hseg
      (by omega) (by unfold WORD; omega)
  have hsplit : Seg st.mem (p + hsz) (after.takeWhile is_free ++ after.dropWhile is_free)
      (st.lo + st.size) := by
    rw [List.takeWhile_append_dropWhile]; exact hseg
  obtain ⟨hrunseg, hrestseg⟩ := (seg_append _ _ _ _ _).1 hsplit
  have hrestle := seg_le _ _ _ _ hrestseg
  have hsub : ∀ r ∈ after.takeWhile is_free,
      p + hsz ≤ r.addr ∧ r.addr + 16 ≤ p + hsz + total (after.takeWhile is_free) :=
    fun r hr => by have := seg_mem _ _ _ _ hrunseg r hr; omega
  obtain ⟨e1, e2, e3, e4⟩ := hsame
  have hlim := hs.2.2.1
  have hszl := hs.2.2.2.1
  have hin : in_heap st2 p 8 := by unfold in_heap; rw [e1, e2]; omega
  have hrd2 : rd64 st2.mem p = hsz := by
    rw [rd64_congr st.mem st2.mem p, hrd]
    intro x hx1 hx2
    exact hframe x (fun r hr => by have := hsub r hr; omega)
  have hval : (hsz + (0 + total (after.takeWhile is_free)) % WORD) % WORD
      = hsz + total (after.takeWhile is_free) := by
    unfold WORD at *; omega
  unfold coalesce
  simp only [hnext, bind_ok, hrun, load_size_ok st2 _ hin, hrd2, store_size_ok st2 _ _ hin, hval]
  refine ⟨_, rfl, ⟨e1, e2, e3, e4⟩, ?_, ?_, ?_, ?_⟩
  · simp only
    rw [rd64_wr64_same]
    exact Nat.mod_eq_of_lt (by unfold WORD at *; omega)
  · simp only
    refine seg_frame _ _ _ _ _ hrestseg (fun x hx1 hx2 => ?_)
    rw [wr64_other _ _ _ _ (by omega)]
    exact hframe x (fun r hr => by have := hsub r hr; omega)
  · intro r hr
    simp only
    rw [rd64_congr st2.mem _ r.addr (fun x hx1 hx2 => wr64_other _ _ _ _
      (by have := hsub r hr; omega))]
    exact hzero r hr
  · intro x hx hx2
    simp only
    rw [wr64_other _ _ _ _ (by omega)]
    exact hframe x hx2

theorem split_cut (st : Heap) (p asz cut : Nat) (hs : store_ok st) (hlo : st.lo ≤ p)
    (hend : p + asz ≤ st.lo + st.size) (hrd : rd64 st.mem p = asz)
    (hal : (st.mem (p + 8) % 256 != 0) = true) (h1 : 9 ≤ cut) (h2 : cut + 9 ≤ asz) :
    split st p cut
      = .ok { st with mem := put_hdr (wr64 st.mem p cut) (p + cut) (asz - cut) true } := by
  have hlim := hs.2.2.1
  have hszl := hs.2.2.2.1
  have hW : WORD = 18446744073709551616 := rfl
  rw [hW] at hlim
  have hne : ¬ (p = NULL) := by unfold NULL; have := hs.1; omega
  have hin8 : in_heap st p 8 := by unfold in_heap; omega
  have hnle : ¬ (asz ≤ cut) := by omega
  have hp : (p + cut) % WORD = p + cut := by rw [hW]; omega
  have hin1b : in_heap { st with mem := wr64 st.mem p cut } (p + 8) 1 := by
    unfold in_heap; simp only; omega
  have hal1 : (wr64 st.mem p cut (p + 8) % 256 != 0) = true := by
    rw [wr64_other _ _ _ _ (by omega), hal]
  have hin9 : in_heap { st with mem := wr64 st.mem p cut } (p + cut) 9 := by
    unfold in_heap; simp only; omega
  unfold split
  simp only [if_neg hne, load_size_ok st _ hin8, bind_ok, hrd, if_neg hnle,
    store_size_ok st _ _ hin8, hp, load_allocated_ok _ _ hin1b, hal1,
    init_chunk_ok _ _ _ _ hin9]

theorem mm_free_at (st : Heap) (hs : store_ok st) (p hsz : Nat) (after : List Chunk)
    (hlo : st.lo ≤ p) (hrd : rd64 st.mem p = hsz) (h16 : 16 ≤ hsz)
    (hseg : Seg st.mem (p + hsz) after (st.lo + st.size)) :
    ∃ st3, mm_free st (p + hdr_size) = .ok st3 ∧ same_store st st3 ∧
      hdr_at st3.mem ⟨p, hsz + total (after.takeWhile is_free), false⟩ ∧
      Seg st3.mem (p + hsz + total (after.takeWhile is_free)) (after.dropWhile is_free)
        (st.lo + st.size) ∧
      (∀ x, x < p ∨ p + 9 ≤ x →
        (∀ r ∈ after.takeWhile is_free, x < r.addr ∨ r.addr + 8 ≤ x) → st3.mem x = st.mem x) := by
  have hlim := hs.2.2.1
  have hszl := hs.2.2.2.1
  have hW : WORD = 18446744073709551616 := rfl
  have hH : hdr_size = 16 := rfl
  rw [hW] at hlim
  have hle := seg_le _ _ _ _ hseg
  have hin8 : in_heap st p 8 := by unfold in_heap; omega
  have hin1 : in_heap st (p + 8) 1 := by unfold in_heap; omega
  have hp2h : payload2header (p + hdr_size) = p := payload2header_add p (by rw [hH, hW]; omega)
  have hnz : ¬ (hsz = 0) := by omega
  have hrd2 : rd64 (wr8 st.mem (p + 8) 0) p = hsz := by
    rw [rd64_congr _ _ _ (fun x _ hx => wr8_other _ _ _ _ (by omega))]
    exact hrd
  have hseg2 : Seg (wr8 st.mem (p + 8) 0) (p + hsz) after (st.lo + st.size) :=
    seg_frame _ _ _ _ _ hseg (fun x hx _ => wr8_other _ _ _ _ (by omega))
  obtain ⟨st3, hco, hsame, hrd3, hrest, -, hframe⟩ :=
    coalesce_at { st with mem := wr8 st.mem (p + 8) 0 } hs p hsz after hlo hrd2 h16 hseg2
  have hsub : ∀ r ∈ after.takeWhile is_free, p + hsz ≤ r.addr := fun r hr =>
    (seg_mem _ _ _ _ hseg r (List.takeWhile_subset is_free hr)).1
  refine ⟨st3, ?_, hsame, ⟨hrd3, ?_⟩, hrest, ?_⟩
  · unfold mm_free
    simp only [hp2h, load_size_ok st _ hin8, hrd, bind_ok, if_neg hnz,
      store_allocated_ok st _ _ hin1, Bool.false_eq_true, if_false]
    exact hco
  · simp only
    rw [hframe (p + 8) (by omega) (fun r hr => by have := hsub r hr; omega)]
    simp [wr8]
  · intro x hx hx2
    rw [hframe x (by omega) hx2]
    exact wr8_other _ _ _ _ (by omega)

theorem put_cut_frame (m : Nat → Nat) (p cut rest x : Nat)
    (h1 : x < p ∨ p + 8 ≤ x) (h2 : x < p + cut ∨ p + cut + 9 ≤ x) :
    put_hdr (wr64 m p cut) (p + cut) rest true x = m x := by
  rw [put_hdr_other _ _ _ _ _ h2, wr64_other _ _ _ _ h1]

theorem mm_realloc_shrink (st : Heap) (pre after : List Chunk) (a : Chunk) (n : Nat)
    (h : WF st (pre ++ a :: after)) (hal : a.allocated = true) (hn : 0 < n)
    (hlt : n + hdr_size < a.size - hdr_size) :
    ∃ st2, mm_realloc st (a.addr + hdr_size) n = .ok (st2, a.addr + hdr_size) ∧
      same_store st st2 ∧
      Tile st2.mem st.lo
        (pre ++ ⟨a.addr, n + hdr_size, true⟩ ::
          ⟨a.addr + (n + hdr_size),
            a.size - (n + hdr_size) + total (after.takeWhile is_free), false⟩ ::
          after.dropWhile is_free) (st.lo + st.size) ∧
      (∀ x, x < a.addr ∨ a.addr + 8 ≤ x →
        x < a.addr + (n + hdr_size) ∨ a.addr + (n + hdr_size) + 9 ≤ x →
        (∀ r ∈ after.takeWhile is_free, x < r.addr ∨ r.addr + 8 ≤ x) →
        st2.mem x = st.mem x) := by
  obtain ⟨hpreseg, hh, h16, hm16, hpost, hlo, hend, ha16⟩ := wf_split st pre after a h
  have hs := h.1
  have hlim := hs.2.2.1
  have hszl := hs.2.2.2.1
  have hW : WORD = 18446744073709551616 := rfl
  have hH : hdr_size = 16 := rfl
  rw [hH] at hlt ⊢
  rw [hW] at hlim
  have hsplit := split_cut st a.addr a.size (n + 16) hs hlo hend hh.1 (by rw [hh.2, hal])
    (by omega) (by omega)
  have hat := hdr_at_put_hdr (wr64 st.mem a.addr (n + 16)) (a.addr + (n + 16))
    (a.size - (n + 16)) true (by rw [hW]; omega)
  have hfr2 := put_cut_frame st.mem a.addr (n + 16) (a.size - (n + 16))
  have hrdA : rd64 (put_hdr (wr64 st.mem a.addr (n + 16)) (a.addr + (n + 16))
      (a.size - (n + 16)) true) a.addr = n + 16 := by
    rw [rd64_congr (wr64 st.mem a.addr (n + 16)) _ a.addr
      (fun x _ hx => put_hdr_other _ _ _ _ _ (by omega)), rd64_wr64_same]
    exact Nat.mod_eq_of_lt (by rw [hW]; omega)
  generalize put_hdr (wr64 st.mem a.addr (n + 16)) (a.addr + (n + 16))
    (a.size - (n + 16)) true = m2 at hsplit hat hfr2 hrdA
  have hseg2 : Seg m2 (a.addr + (n + 16) + (a.size - (n + 16))) after (st.lo + st.size) := by
    have e : a.addr + (n + 16) + (a.size - (n + 16)) = a.addr + a.size := by omega
    rw [e]
    exact seg_frame _ _ _ _ _ hpost (fun x hx _ => hfr2 x (by omega) (by omega))
  obtain ⟨st3, hfree, hsame, hh3, hrest, hframe⟩ :=
    mm_free_at { st with mem := m2 } hs (a.addr + (n + 16)) (a.size - (n + 16)) after
      (by simp only; omega) hat.1 (by omega) hseg2
  simp only at hframe hrest hh3
  have hsub : ∀ r ∈ after.takeWhile is_free, a.addr + a.size ≤ r.addr := fun r hr =>
    (seg_mem _ _ _ _ hpost r (List.takeWhile_subset is_free hr)).1
  have hall : ∀ x, x < a.addr ∨ a.addr + 8 ≤ x →
      x < a.addr + (n + 16) ∨ a.addr + (n + 16) + 9 ≤ x →
      (∀ r ∈ after.takeWhile is_free, x < r.addr ∨ r.addr + 8 ≤ x) → st3.mem x = st.mem x := by
    intro x hx1 hx2 hx3
    rw [hframe x hx2 hx3]
    exact hfr2 x hx1 hx2
  have hrd3 : rd64 st3.mem a.addr = n + 16 := by
    rw [rd64_congr m2 st3.mem a.addr, hrdA]
    intro x hx1 hx2
    exact hframe x (by omega) (fun r hr => by have := hsub r hr; omega)
  have hal3 : (st3.mem (a.addr + 8) % 256 != 0) = true := by
    rw [hall _ (by omega) (by omega) (fun r hr => by have := hsub r hr; omega), hh.2, hal]
  refine ⟨st3, ?_, hsame, ?_, hall⟩
  · have hin8 : in_heap st a.addr 8 := by unfold in_heap; omega
    have hin1 : in_heap st (a.addr + 8) 1 := by unfold in_heap; omega
    have hne : ¬ (a.addr + 16 = NULL) := by unfold NULL; omega
    have hp2h : payload2header (a.addr + 16) = a.addr :=
      payload2header_add a.addr (by rw [hH, hW]; omega)
    have hpcsz : (a.size + WORD - 16) % WORD = a.size - 16 := by rw [hW]; omega
    have hcut : (n + 16) % WORD = n + 16 := by rw [hW]; omega
    have hcond : n + 16 < a.size - 16 ∧ n > 0 := ⟨hlt, hn⟩
    have hn0 : ¬ (n = 0) := by omega
    have hp2 : (a.addr + n + 16 + 16) % WORD = a.addr + (n + 16) + 16 := by rw [hW]; omega
    rw [hH] at hfree
    unfold mm_realloc
    rw [if_neg hne]
    simp only [pure_ok, bind_ok]
    rw [hH, hp2h, load_size_ok st _ hin8, hh.1]
    simp only [bind_ok]
    rw [load_allocated_ok st _ hin1, hh.2, hal]
    simp only [bind_ok, Bool.not_true, Bool.false_eq_true, if_false]
    rw [if_neg hn0, hcut, hpcsz, if_pos hcond, hsplit]
    simp only [bind_ok]
    rw [hp2, hfree]
    rfl
  · refine tile_append _ _ _ _ a.addr _ (tile_of_seg _ _ _ _
      (seg_frame _ _ _ _ _ hpreseg (fun x _ hx =>
        hall x (by omega) (by omega) (fun r hr => by have := hsub r hr; omega)))) ?_
    refine ⟨rfl, ⟨hrd3, hal3⟩, by simp only; omega, rfl, ?_, by simp only; omega, ?_⟩
    · exact hh3
    · simp only
      have e : a.addr + (n + 16) + (a.size - (n + 16) + total (after.takeWhile is_free))
          = a.addr + (n + 16) + (a.size - (n + 16)) + total (after.takeWhile is_free) := by
        omega
      rw [e]
      exact tile_of_seg _ _ _ _ hrest

theorem tile_end (m : Nat → Nat) : ∀ (cs : List Chunk) (a b : Nat),
    Tile m a cs b → b = a + total cs
  | [], a, b, h => by simpa [Tile, total] using h.symm
  | c :: cs, a, b, h => by
    have ih := tile_end m cs (a + c.size) b h.2.2.2
    simp only [total, List.map_cons, List.sum_cons] at *
    omega

/-! ## No adjacent free chunks along a sequence of calls -/

theorem locate_some (p : Nat) : ∀ (cs pre after : List Chunk) (a : Chunk),
    locate p cs = some (pre, a, after) → cs = pre ++ a :: after ∧ p = a.addr + hdr_size
  | [], _, _, _, h => by simp [locate] at h
  | c :: cs, pre, after, a, h => by
    unfold locate at h
    by_cases hc : c.addr + hdr_size = p
    · rw [if_pos hc] at h
      simp only [Option.some.injEq, Prod.mk.injEq] at h
      obtain ⟨rfl, rfl, rfl⟩ := h
      exact ⟨rfl, hc.symm⟩
    · rw [if_neg hc] at h
      cases hr : locate p cs with
      | none => rw [hr] at h; simp at h
      | some r =>
        rw [hr] at h
        obtain ⟨r1, r2, r3⟩ := r
        simp only [Option.some.injEq, Prod.mk.injEq] at h
        obtain ⟨rfl, rfl, rfl⟩ := h
        obtain ⟨e1, e2⟩ := locate_some p cs r1 r3 r2 hr
        exact ⟨by rw [e1]; rfl, e2⟩

theorem in_int_range_align (n : Nat) (h : in_int_range n) :
    align n = (n + 15) / 16 * 16 ∧ n ≤ align n ∧ hdr_size + align n < 2147483648 ∧
      chunk_size n = hdr_size + align n ∧ n < 2147483648 := by
  unfold in_int_range at h
  unfold chunk_size align hdr_size WORD at *
  omega

theorem naf_parts (pre after : List Chunk) (a : Chunk)
    (h : no_adjacent_free (pre ++ a :: after)) :
    no_adjacent_free pre ∧ no_adjacent_free after ∧
      (a.allocated = false → pred_allocated pre) ∧
      (a.allocated = false → ∀ d, after.head? = some d → d.allocated = true) := by
  rw [no_adjacent_free_iff_chain] at h
  rw [no_adjacent_free_iff_chain, no_adjacent_free_iff_chain]
  rw [List.chain'_append] at h
  obtain ⟨hpre, hmid, hlink⟩ := h
  rw [List.chain'_cons'] at hmid
  refine ⟨hpre, hmid.2, ?_, ?_⟩
  · intro ha c hc
    have := hlink c hc a (by simp)
    simpa [is_free, ha] using this
  · intro ha d hd
    have := hmid.1 d hd
    simpa [is_free, ha] using this

theorem naf_join (pre post : List Chunk) (x : Chunk) (hpre : no_adjacent_free pre)
    (hpost : no_adjacent_free post) (h1 : x.allocated = false → pred_allocated pre)
    (h2 : x.allocated = false → ∀ d, post.head? = some d → d.allocated = true) :
    no_adjacent_free (pre ++ x :: post) := by
  rw [no_adjacent_free_iff_chain] at *
  rw [List.chain'_append]
  refine ⟨hpre, ?_, ?_⟩
  · rw [List.chain'_cons']
    refine ⟨?_, hpost⟩
    intro y hy
    cases hx : x.allocated
    · have := h2 hx y hy
      simp [is_free, this]
    · simp [is_free, hx]
  · intro u hu v hv
    obtain rfl : x = v := by simpa using hv
    cases hx : x.allocated
    · have := h1 hx u hu
      simp [is_free, this]
    · simp [is_free, hx]

theorem naf_dropWhile (l : List Chunk) (h : no_adjacent_free l) :
    no_adjacent_free (l.dropWhile is_free) := by
  rw [no_adjacent_free_iff_chain] at *
  exact h.suffix (List.dropWhile_suffix is_free)

theorem seg_sizes (m : Nat → Nat) : ∀ (cs : List Chunk) (a b : Nat), Seg m a cs b →
    ∀ r ∈ cs, r.size % 16 = 0
  | [], _, _, _, r, hr => by simp at hr
  | c :: cs, a, b, h, r, hr => by
    obtain ⟨-, -, -, h4, h5⟩ := h
    rcases List.mem_cons.1 hr with rfl | hr
    · exact h4
    · exact seg_sizes m cs _ _ h5 r hr

theorem seg_of_tile (m : Nat → Nat) : ∀ (cs : List Chunk) (a b : Nat), Tile m a cs b →
    (∀ c ∈ cs, c.size % 16 = 0) → Seg m a cs b
  | [], _, _, h, _ => h
  | c :: cs, _, _, h, hm =>
    ⟨h.1, h.2.1, h.2.2.1, hm c (List.mem_cons_self _ _),
      seg_of_tile m cs _ _ h.2.2.2 (fun d hd => hm d (List.mem_cons_of_mem _ hd))⟩

theorem total_mod : ∀ l : List Chunk, (∀ c ∈ l, c.size % 16 = 0) → total l % 16 = 0
  | [], _ => rfl
  | c :: l, h => by
    have h1 := h c (List.mem_cons_self _ _)
    have h2 := total_mod l (fun d hd => h d (List.mem_cons_of_mem _ hd))
    simp only [total, List.map_cons, List.sum_cons] at *
    omega

theorem free_step (st : Heap) (pre after : List Chunk) (a : Chunk)
    (h : WF st (pre ++ a :: after)) (hn : no_adjacent_free (pre ++ a :: after))
    (hp : pred_allocated pre) :
    ∃ st2, mm_free st (a.addr + hdr_size) = .ok st2 ∧
      WF st2 (pre ++ ⟨a.addr, a.size + total (after.takeWhile is_free), false⟩ ::
        after.dropWhile is_free) ∧
      no_adjacent_free (pre ++ ⟨a.addr, a.size + total (after.takeWhile is_free), false⟩ ::
        after.dropWhile is_free) := by
  obtain ⟨st2, hfr, -, hwf, -, -⟩ := mm_free_wf st pre after a h
  obtain ⟨hpre, hafter, -, -⟩ := naf_parts pre after a hn
  exact ⟨st2, hfr, hwf, naf_join pre _ _ hpre (naf_dropWhile after hafter) (fun _ => hp)
    (fun _ => head_dropWhile_allocated after)⟩

theorem mm_malloc_refused (st : Heap) (n : Nat) (cs : List Chunk) (h : WF st cs)
    (hnofit : ∀ d ∈ cs, fits (chunk_size n) d = false)
    (hint : hdr_size + align n < 2147483648) (hl : ¬ st.size + chunk_size n ≤ st.limit) :
    mm_malloc st n = .error .fault := by
  have hfind : cs.find? (fits (chunk_size n)) = none := by
    rw [List.find?_eq_none]; intro d hd; simp [hnofit d hd]
  have hcs : chunk_size n = hdr_size + align n := by
    unfold chunk_size; apply Nat.mod_eq_of_lt; unfold WORD; omega
  have hsb : mem_sbrk st (to_int (chunk_size n)) = (st, SBRK_FAILED) := by
    unfold mem_sbrk
    rw [to_int_small _ (by omega), if_neg]
    simp only [Int.toNat_ofNat]
    omega
  have hout : ¬ in_heap st SBRK_FAILED 8 := by
    have := h.1.2.2.1
    have := h.1.2.2.2.1
    unfold in_heap SBRK_FAILED
    unfold WORD at *
    omega
  unfold mm_malloc
  simp only [align_align, bind_ok]
  rw [show (hdr_size + align n) % WORD = chunk_size n from rfl, first_fit_wf st _ _ h, hfind]
  simp only [bind_ok, addr_of, ne_eq, not_true_eq_false, if_false, ask_os_for_chunk, hsb,
    init_chunk, store_size, if_neg hout, bind_error]

theorem malloc_step (st : Heap) (cs : List Chunk) (n : Nat) (st2 : Heap) (p : Nat)
    (h : WF st cs) (hn : no_adjacent_free cs) (hint : hdr_size + align n < 2147483648)
    (hm : mm_malloc st n = .ok (st2, p)) :
    ∃ pre a after, WF st2 (pre ++ a :: after) ∧ no_adjacent_free (pre ++ a :: after) ∧
      p = a.addr + hdr_size ∧ a.allocated = true ∧ a.size = chunk_size n ∧
      (chunk_size n = 16 → pred_allocated pre) := by
  have hcs : chunk_size n = hdr_size + align n := by
    unfold chunk_size; apply Nat.mod_eq_of_lt; unfold WORD; omega
  have hc16 : 16 ≤ chunk_size n := by rw [hcs]; unfold hdr_size; omega
  cases hf : cs.find? (fits (chunk_size n)) with
  | none =>
    rw [List.find?_eq_none] at hf
    have hnofit : ∀ d ∈ cs, fits (chunk_size n) d = false := fun d hd => by
      simpa using hf d hd
    by_cases hl : st.size + chunk_size n ≤ st.limit
    · obtain ⟨st3, hm3, -, -, -, -, -, hwf⟩ := mm_malloc_grow st n cs h hnofit hint hl
      rw [hm3] at hm
      simp only [Except.ok.injEq, Prod.mk.injEq] at hm
      obtain ⟨rfl, rfl⟩ := hm
      refine ⟨cs, ⟨st.lo + st.size, chunk_size n, true⟩, [], hwf,
        naf_join cs [] _ hn trivial (fun hx => by simp at hx) (fun hx => by simp at hx),
        rfl, rfl, rfl, ?_⟩
      intro e c hc
      have hmem := List.mem_of_getLast?_eq_some hc
      have h16 := (seg_mem _ _ _ _ h.2 c hmem).2.2.1
      have hfc := hnofit c hmem
      rw [e] at hfc
      cases hca : c.allocated
      · simp [fits, hca] at hfc; omega
      · rfl
    · rw [mm_malloc_refused st n cs h hnofit hint hl] at hm
      cases hm
  | some c =>
    obtain ⟨pre, post, hsplit, hfit, hpre⟩ := find_split _ _ _ hf
    subst hsplit
    obtain ⟨st3, hm3, -, -, -, hwf⟩ := mm_malloc_fit st n pre post c h hfit hpre
    rw [hm3] at hm
    simp only [Except.ok.injEq, Prod.mk.injEq] at hm
    obtain ⟨rfl, rfl⟩ := hm
    have hfree : c.allocated = false := by
      cases hca : c.allocated
      · rfl
      · simp [fits, hca] at hfit
    obtain ⟨hnpre, hnpost, hp1, hp2⟩ := naf_parts pre post c hn
    refine ⟨pre, ⟨c.addr, chunk_size n, true⟩, _, hwf hc16, ?_, rfl, rfl, rfl,
      fun _ => hp1 hfree⟩
    apply naf_join pre _ _ hnpre ?_ (fun hx => by simp at hx) (fun hx => by simp at hx)
    by_cases hsz : c.size = chunk_size n
    · rw [if_pos hsz]; exact hnpost
    · rw [if_neg hsz]
      exact naf_join [] post _ trivial hnpost (fun _ c hc => by simp at hc) (fun _ => hp2 hfree)

theorem memcpy_inv (st st2 : Heap) (dst src n : Nat) (h : memcpy st dst src n = .ok st2) :
    same_store st st2 ∧ ∀ x, x < dst ∨ dst + n ≤ x → st2.mem x = st.mem x := by
  unfold memcpy at h
  by_cases hn : n = 0
  · rw [if_pos hn] at h
    simp only [Except.ok.injEq] at h
    subst h
    exact ⟨⟨rfl, rfl, rfl, rfl⟩, fun _ _ => rfl⟩
  · rw [if_neg hn] at h
    by_cases hin : in_heap st dst n ∧ in_heap st src n
    · rw [if_pos hin] at h
      simp only [Except.ok.injEq] at h
      subst h
      refine ⟨⟨rfl, rfl, rfl, rfl⟩, fun x hx => ?_⟩
      simp only
      rw [if_neg (by omega)]
    · rw [if_neg hin] at h
      cases h

theorem wf_payload_frame (st st2 : Heap) (pre after : List Chunk) (a : Chunk)
    (h : WF st (pre ++ a :: after)) (hs : same_store st st2)
    (hm : ∀ x, x < a.addr + hdr_size ∨ a.addr + a.size ≤ x → st2.mem x = st.mem x) :
    WF st2 (pre ++ a :: after) := by
  obtain ⟨hpreseg, hh, h16, hm16, hpost, hlo, hend, ha16⟩ := wf_split st pre after a h
  refine ⟨store_ok_same st st2 h.1 hs, ?_⟩
  rw [hs.1, hs.2.1, seg_append_mid]
  unfold hdr_size at hm
  refine ⟨a.addr, seg_frame _ _ _ _ _ hpreseg (fun x _ hx => hm x (by omega)), rfl,
    hdr_at_congr _ _ _ hh (fun x _ hx => hm x (by omega)), h16, hm16,
    seg_frame _ _ _ _ _ hpost (fun x hx _ => hm x (by omega))⟩

theorem mm_realloc_head (st : Heap) (pre after : List Chunk) (a : Chunk) (n : Nat)
    (h : WF st (pre ++ a :: after)) :
    mm_realloc st (a.addr + hdr_size) n =
      if (!a.allocated) = true then pure (st, a.addr + hdr_size)
      else if n = 0 then do
        let st1 ← mm_free st (a.addr + hdr_size)
        pure (st1, a.addr + hdr_size)
      else if (n + hdr_size) % WORD < a.size - hdr_size ∧ n > 0 then do
        let st1 ← split st a.addr ((n + hdr_size) % WORD)
        let st2 ← mm_free st1 ((a.addr + n + hdr_size + hdr_size) % WORD)
        pure (st2, a.addr + hdr_size)
      else if n > a.size - hdr_size then do
        let st1 ← mm_free st (a.addr + hdr_size)
        let r2 ← mm_malloc st1 n
        let st3 ← memcpy r2.1 r2.2 (a.addr + hdr_size) n
        pure (st3, r2.2)
      else pure (st, a.addr + hdr_size) := by
  obtain ⟨hpreseg, hh, h16, hm16, hpost, hlo, hend, ha16⟩ := wf_split st pre after a h
  have hs := h.1
  have hlim := hs.2.2.1
  have hszl := hs.2.2.2.1
  have hW : WORD = 18446744073709551616 := rfl
  have hH : hdr_size = 16 := rfl
  rw [hW] at hlim
  have hin8 : in_heap st a.addr 8 := by unfold in_heap; omega
  have hin1 : in_heap st (a.addr + 8) 1 := by unfold in_heap; omega
  have hne : ¬ (a.addr + hdr_size = NULL) := by unfold NULL; omega
  have hp2h : payload2header (a.addr + hdr_size) = a.addr :=
    payload2header_add a.addr (by rw [hH, hW]; omega)
  have hpcsz : (a.size + WORD - hdr_size) % WORD = a.size - hdr_size := by
    rw [hW, hH]; omega
  unfold mm_realloc
  rw [if_neg hne]
  simp only [pure_ok, bind_ok]
  rw [hp2h, load_size_ok st _ hin8, hh.1]
  simp only [bind_ok]
  rw [load_allocated_ok st _ hin1, hh.2, hpcsz]
  simp only [bind_ok, pure_ok]

theorem realloc_step (st : Heap) (pre after : List Chunk) (a : Chunk) (n : Nat) (st2 : Heap)
    (q : Nat) (h : WF st (pre ++ a :: after)) (hnaf : no_adjacent_free (pre ++ a :: after))
    (hint : in_int_range n)
    (hpred : a.allocated = true → (n = 0 ∨ a.size - hdr_size < n) → pred_allocated pre)
    (hal16 : a.allocated = true → 0 < n → n + hdr_size < a.size - hdr_size → n % 16 = 0)
    (hre : mm_realloc st (a.addr + hdr_size) n = .ok (st2, q)) :
    ∃ cs2, WF st2 cs2 ∧ no_adjacent_free cs2 := by
  obtain ⟨hal, hnle, hint2, hcs, hn31⟩ := in_int_range_align n hint
  have hW : WORD = 18446744073709551616 := rfl
  have hH : hdr_size = 16 := rfl
  cases ha : a.allocated with
  | false =>
    rw [mm_realloc_head st pre after a n h, ha] at hre
    simp only [Bool.not_false, if_true, pure_ok, Except.ok.injEq, Prod.mk.injEq] at hre
    obtain ⟨rfl, -⟩ := hre
    exact ⟨_, h, hnaf⟩
  | true =>
    by_cases hn0 : n = 0
    · obtain ⟨st3, hfr, hwf, hn3⟩ := free_step st pre after a h hnaf (hpred ha (Or.inl hn0))
      rw [mm_realloc_head st pre after a n h, ha] at hre
      simp only [Bool.not_true, Bool.false_eq_true, if_false, if_pos hn0, hfr, bind_ok,
        pure_ok, Except.ok.injEq, Prod.mk.injEq] at hre
      obtain ⟨rfl, -⟩ := hre
      exact ⟨_, hwf, hn3⟩
    · by_cases hshr : n + hdr_size < a.size - hdr_size
      · obtain ⟨st3, hre3, hsame, htile, -⟩ :=
          mm_realloc_shrink st pre after a n h ha (by omega) hshr
        rw [hre3] at hre
        simp only [Except.ok.injEq, Prod.mk.injEq] at hre
        obtain ⟨rfl, -⟩ := hre
        have hn16 := hal16 ha (by omega) hshr
        obtain ⟨hpreseg, hh, h16, hm16, hpost, hlo, hend, ha16⟩ := wf_split st pre after a h
        have hrun : total (after.takeWhile is_free) % 16 = 0 :=
          total_mod _ (fun c hc =>
            seg_sizes _ _ _ _ hpost c (List.takeWhile_subset is_free hc))
        obtain ⟨hnpre, hnafter, -, -⟩ := naf_parts pre after a hnaf
        have hseg := seg_of_tile _ _ _ _ htile (by
          intro c hc
          rcases List.mem_append.1 hc with hc | hc
          · exact seg_sizes _ _ _ _ hpreseg c hc
          · rcases List.mem_cons.1 hc with rfl | hc
            · simp only; rw [hH]; omega
            · rcases List.mem_cons.1 hc with rfl | hc
              · simp only; rw [hH] at *; omega
              · exact seg_sizes _ _ _ _ hpost c ((List.dropWhile_suffix is_free).subset hc))
        rw [← hsame.1, ← hsame.2.1] at hseg
        refine ⟨_, ⟨store_ok_same st _ h.1 hsame, hseg⟩, ?_⟩
        · apply naf_join pre _ _ hnpre ?_ (fun hx => by simp at hx) (fun hx => by simp at hx)
          exact naf_join [] _ _ trivial (naf_dropWhile after hnafter)
            (fun _ c hc => by simp at hc) (fun _ => head_dropWhile_allocated after)
      · by_cases hgrow : a.size - hdr_size < n
        · obtain ⟨st3, hfr, hwf3, hn3⟩ :=
            free_step st pre after a h hnaf (hpred ha (Or.inr hgrow))
          rw [mm_realloc_head st pre after a n h, ha] at hre
          have hc1 : ¬ ((n + hdr_size) % WORD < a.size - hdr_size ∧ n > 0) := by
            rw [hH, hW] at *; omega
          simp only [Bool.not_true, Bool.false_eq_true, if_false, if_neg hn0, if_neg hc1,
            gt_iff_lt, if_pos hgrow, hfr, bind_ok] at hre
          cases hmal : mm_malloc st3 n with
          | error e => rw [hmal, bind_error] at hre; cases hre
          | ok r =>
            obtain ⟨st4, p4⟩ := r
            rw [hmal, bind_ok] at hre
            obtain ⟨pre1, a1, after1, hwf4, hn4, hp4, -, hsz4, -⟩ :=
              malloc_step st3 _ n st4 p4 hwf3 hn3 hint2 hmal
            cases hcp : memcpy st4 p4 (a.addr + hdr_size) n with
            | error e =>
              simp only [hcp, bind_error] at hre
              cases hre
            | ok st5 =>
              simp only [hcp, bind_ok, pure_ok, Except.ok.injEq, Prod.mk.injEq] at hre
              obtain ⟨rfl, -⟩ := hre
              obtain ⟨hsame5, hfr5⟩ := memcpy_inv _ _ _ _ _ hcp
              refine ⟨_, wf_payload_frame st4 st5 pre1 after1 a1 hwf4 hsame5 ?_, hn4⟩
              intro x hx
              apply hfr5
              rw [hp4]
              rw [hsz4, hcs] at hx
              omega
        · rw [mm_realloc_head st pre after a n h, ha] at hre
          have hc1 : ¬ ((n + hdr_size) % WORD < a.size - hdr_size ∧ n > 0) := by
            rw [hH, hW] at *; omega
          simp only [Bool.not_true, Bool.false_eq_true, if_false, if_neg hn0, if_neg hc1,
            gt_iff_lt, if_neg hgrow, pure_ok, Except.ok.injEq, Prod.mk.injEq] at hre
          obtain ⟨rfl, -⟩ := hre
          exact ⟨_, h, hnaf⟩

theorem realloc_null_step (st : Heap) (cs : List Chunk) (n : Nat) (st2 : Heap) (q : Nat)
    (h : WF st cs) (hnaf : no_adjacent_free cs) (hint : in_int_range n)
    (hre : mm_realloc st NULL n = .ok (st2, q)) :
    ∃ cs2, WF st2 cs2 ∧ no_adjacent_free cs2 := by
  obtain ⟨hal, hnle, hint2, hcs, hn31⟩ := in_int_range_align n hint
  have hH : hdr_size = 16 := rfl
  cases hmal : mm_malloc st n with
  | error e =>
    unfold mm_realloc at hre
    rw [if_pos rfl, hmal, bind_error] at hre
    cases hre
  | ok r =>
    obtain ⟨st1, p1⟩ := r
    obtain ⟨pre1, a1, after1, hwf1, hn1, hp1, hal1, hsz1, hpr1⟩ :=
      malloc_step st cs n st1 p1 h hnaf hint2 hmal
    have hne : ¬ (p1 = NULL) := by rw [hp1]; unfold NULL; rw [hH]; omega
    have hsame : mm_realloc st NULL n = mm_realloc st1 p1 n := by
      unfold mm_realloc
      rw [if_pos rfl, hmal, if_neg hne]
      rfl
    rw [hsame, hp1] at hre
    refine realloc_step st1 pre1 after1 a1 n st2 q hwf1 hn1 hint ?_ ?_ hre
    · intro _ hor
      rcases hor with h0 | hgt
      · apply hpr1
        rw [hcs, hal, h0, hH]
      · rw [hsz1, hcs, hH] at hgt; omega
    · intro _ _ hlt
      rw [hsz1, hcs, hH] at hlt; omega

theorem call_step (st : Heap) (cs : List Chunk) (c : Call) (st2 : Heap) (q : Nat)
    (h : WF st cs) (hnaf : no_adjacent_free cs) (hadm : admissible cs c)
    (hst : step st c = .ok (st2, q)) : ∃ cs2, WF st2 cs2 ∧ no_adjacent_free cs2 := by
  cases c with
  | malloc n =>
    obtain ⟨pre, a, after, hwf, hn, -⟩ :=
      malloc_step st cs n st2 q h hnaf (in_int_range_align n hadm).2.2.1 hst
    exact ⟨_, hwf, hn⟩
  | free p =>
    have hon : on_chunk (locate p cs) (fun pre _ => pred_allocated pre) := hadm
    cases hl : locate p cs with
    | none => rw [hl] at hon; exact False.elim hon
    | some r =>
      obtain ⟨pre, a, after⟩ := r
      rw [hl] at hon
      have hpa : pred_allocated pre := hon
      obtain ⟨rfl, rfl⟩ := locate_some p cs pre after a hl
      obtain ⟨st3, hfr, hwf, hn⟩ := free_step st pre after a h hnaf hpa
      unfold step at hst
      simp only [hfr, bind_ok, pure_ok, Except.ok.injEq, Prod.mk.injEq] at hst
      obtain ⟨rfl, -⟩ := hst
      exact ⟨_, hwf, hn⟩
  | realloc p n =>
    obtain ⟨hint, hor⟩ := hadm
    unfold step at hst
    rcases hor with rfl | hon
    · exact realloc_null_step st cs n st2 q h hnaf hint hst
    · cases hl : locate p cs with
      | none => rw [hl] at hon; exact False.elim hon
      | some r =>
        obtain ⟨pre, a, after⟩ := r
        rw [hl] at hon
        obtain ⟨rfl, rfl⟩ := locate_some p cs pre after a hl
        exact realloc_step st pre after a n st2 q h hnaf hint hon.1 hon.2 hst

theorem run_keeps_no_adjacent_free : ∀ (calls : List Call) (st : Heap) (cs : List Chunk)
    (st2 : Heap) (ps : List Nat), WF st cs → no_adjacent_free cs → admissible_run st calls →
    run st calls = .ok (st2, ps) → ∃ cs2, WF st2 cs2 ∧ no_adjacent_free cs2
  | [], st, cs, st2, ps, h, hnaf, _, hrun => by
    unfold run at hrun
    simp only [pure_ok, Except.ok.injEq, Prod.mk.injEq] at hrun
    obtain ⟨rfl, -⟩ := hrun
    exact ⟨cs, h, hnaf⟩
  | c :: rest, st, cs, st2, ps, h, hnaf, hadm, hrun => by
    unfold admissible_run at hadm
    obtain ⟨hadm1, hadm2⟩ := hadm
    rw [live_chunks_wf st cs h] at hadm1
    unfold run at hrun
    cases hs : step st c with
    | error e => rw [hs, bind_error] at hrun; cases hrun
    | ok r =>
      obtain ⟨st1, q⟩ := r
      rw [hs] at hadm2
      obtain ⟨cs1, hwf1, hn1⟩ := call_step st cs c st1 q h hnaf hadm1 hs
      rw [hs, bind_ok] at hrun
      cases hr : run st1 rest with
      | error e => rw [hr, bind_error] at hrun; cases hrun
      | ok rs =>
        obtain ⟨st3, qs⟩ := rs
        rw [hr, bind_ok] at hrun
        simp only [pure_ok, Except.ok.injEq, Prod.mk.injEq] at hrun
        obtain ⟨rfl, -⟩ := hrun
        exact run_keeps_no_adjacent_free rest st1 cs1 st3 qs hwf1 hn1 hadm2 hr

theorem mm_init_wf (st0 st : Heap) (hs : store_ok st0) (hinit : mm_init st0 = .ok (st, 0)) :
    WF st [] := by
  unfold mm_init at hinit
  rw [if_pos (by decide)] at hinit
  have hsb : mem_sbrk st0 0 = ({ st0 with size := st0.size + 0 }, st0.lo + st0.size) := by
    unfold mem_sbrk
    rw [if_pos ⟨le_refl _, by simpa using hs.2.2.2.1⟩]
    rfl
  rw [hsb] at hinit
  simp only at hinit
  by_cases hz : mem_heapsize { st0 with size := st0.size + 0 } = 0
  · rw [if_pos hz] at hinit
    simp only [Except.ok.injEq, Prod.mk.injEq, and_true] at hinit
    subst hinit
    unfold mem_heapsize at hz
    simp only at hz
    refine ⟨?_, ?_⟩
    · obtain ⟨h0, h1, h2, h3, h4⟩ := hs
      exact ⟨h0, h1, h2, by simp only; omega, h4⟩
    · simp only [Seg]; omega
  · rw [if_neg hz] at hinit
    simp only [Except.ok.injEq, Prod.mk.injEq] at hinit
    omega

/-! ## Claims -/

/-- C1 fails on the code. After `mm_init` on an empty heap and the calls
`p = mm_malloc(32)`, `mm_malloc(0)`, `mm_realloc(p, 15)` the checker still
passes, but one more `mm_malloc(0)` leaves a heap on which the walk of
`mm_checkheap` adds up 48 bytes while `mem_heapsize()` is 64, so its final
assertion fails (whichever of the two conventions `mem_heap_hi` follows). -/
theorem checkheap_assertion_fails :
    (session 1 [.malloc 32, .malloc 0, .realloc 4112 15, .malloc 0]).map Prod.snd
        = .ok [4112, 4160, 4112, 4143] ∧
      (session 1 [.malloc 32, .malloc 0, .realloc 4112 15] >>= fun r => mm_checkheap r.1)
        = .ok ⟨2, 1, 47, 17⟩ ∧
      (session 1 [.malloc 32, .malloc 0, .realloc 4112 15, .malloc 0] >>= fun r =>
          live_chunks r.1)
        = .ok [⟨4096, 31, true⟩, ⟨4127, 16, true⟩, ⟨4143, 1, false⟩] ∧
      (session 1 [.malloc 32, .malloc 0, .realloc 4112 15, .malloc 0]).map
          (fun r => mem_heapsize r.1) = .ok 64 ∧
      (session 1 [.malloc 32, .malloc 0, .realloc 4112 15, .malloc 0] >>= fun r =>
          mm_checkheap r.1) = .error .assertion ∧
      (session 0 [.malloc 32, .malloc 0, .realloc 4112 15, .malloc 0] >>= fun r =>
          mm_checkheap r.1) = .error .assertion := by
  decide

/-- C2 fails on the code. After `p = mm_malloc(48)` and `mm_realloc(p, 1)` the
call `mm_malloc(0)` returns the address 4129, which is 33 bytes above the
heap's low address 4096: not a multiple of 16. -/
theorem malloc_result_unaligned :
    (session 1 [.malloc 48, .realloc 4112 1, .malloc 0]).map Prod.snd
        = .ok [4112, 4112, 4129] ∧
      (session 0 [.malloc 48, .realloc 4112 1, .malloc 0]).map Prod.snd
        = .ok [4112, 4112, 4129] ∧
      mem_heap_lo (empty_heap 1) = 4096 ∧ (4129 - 4096) % ALIGNMENT = 1 := by
  decide

/-- C3: in every heap state (with room for one header between the heap's
largest extent and the end of the address space), when
`hdr_size + align(n)` does not overflow and `mm_malloc(n)` returns a pointer,
the header in front of the returned payload is marked allocated and holds the
size `hdr_size + align(n)`; hence the payload capacity `size - hdr_size` is at
least `n` and the `n` bytes from the returned pointer end at or before the
address `header + size` of the next chunk's header. -/
theorem malloc_chunk_size (st st2 : Heap) (n p : Nat)
    (hsp : st.lo + st.limit + hdr_size ≤ WORD)
    (hsz : st.size ≤ st.limit) (hn : hdr_size + (n + 15) / 16 * 16 < WORD)
    (h : mm_malloc st n = .ok (st2, p)) :
    load_size st2 (payload2header p) = .ok (hdr_size + align n) ∧
      load_allocated st2 (payload2header p) = .ok true ∧
      n ≤ hdr_size + align n - hdr_size ∧
      p + n ≤ payload2header p + (hdr_size + align n) := by
  obtain ⟨st1, q, hic, hp, e1, e2, e3⟩ := mm_malloc_inv st st2 n p hsz h
  obtain ⟨hin, rfl⟩ := init_chunk_inv _ _ _ _ _ hic
  have hcs : chunk_size n = hdr_size + align n := by
    unfold chunk_size align hdr_size WORD at *; omega
  have hal : n ≤ align n := by unfold align hdr_size WORD at *; omega
  have hq : q + hdr_size < WORD := by
    unfold in_heap at hin; unfold hdr_size WORD at *; omega
  have hph : payload2header p = q := by
    rw [hp, Nat.mod_eq_of_lt hq]; exact payload2header_add q hq
  have hpq : p = q + hdr_size := by rw [hp, Nat.mod_eq_of_lt hq]
  have hat := hdr_at_put_hdr st1.mem q (chunk_size n) true (chunk_size_lt n)
  have hin8 : ∀ m2 : Nat → Nat, in_heap { st1 with mem := m2 } q 8 := by
    intro m2; unfold in_heap at *; simp only; omega
  have hin1 : ∀ m2 : Nat → Nat, in_heap { st1 with mem := m2 } (q + 8) 1 := by
    intro m2; unfold in_heap at *; simp only; omega
  rw [hph, load_size_ok _ _ (hin8 _), load_allocated_ok _ _ (hin1 _)]
  refine ⟨?_, ?_, by omega, by omega⟩
  · rw [← hcs]; exact congrArg Except.ok hat.1
  · exact congrArg Except.ok hat.2

/-- Witness for C3: the first `mm_malloc(100)` on an empty heap. -/
theorem malloc_chunk_size_witness :
    load_size (state_of (mm_malloc (empty_heap 1) 100)) (payload2header 4112)
        = .ok (hdr_size + align 100) ∧
      load_allocated (state_of (mm_malloc (empty_heap 1) 100)) (payload2header 4112)
        = .ok true ∧
      100 ≤ hdr_size + align 100 - hdr_size ∧
      4112 + 100 ≤ payload2header 4112 + (hdr_size + align 100) :=
  malloc_chunk_size (empty_heap 1) (state_of (mm_malloc (empty_heap 1) 100)) 100 4112
    (by decide) (by decide) (by decide) (by rfl)

/-- C4: in a well-formed heap with live chunks `cs`, if some free chunk `d` has
at least the chunk size computed for `n`, then `mm_malloc(n)` returns the
payload of a free chunk `c` of `cs` that is large enough and has the lowest
address among all such chunks, and the heap size is unchanged. In particular,
from an empty well-formed heap whose store grants 352 bytes, after
`p = mm_malloc(100)`, `mm_malloc(200)`, `mm_free(p)` the call `mm_malloc(50)`
returns `p` again and leaves the heap size as it was. -/
theorem first_fit_reuse (st : Heap) (cs : List Chunk) (n : Nat) (d : Chunk) (st0 : Heap)
    (h : WF st cs) (hd : d ∈ cs) (hfree : d.allocated = false)
    (hsz : chunk_size n ≤ d.size) (h0 : WF st0 []) (hl : 352 ≤ st0.limit) :
    (∃ c st2, c ∈ cs ∧ c.allocated = false ∧ chunk_size n ≤ c.size ∧
        (∀ e ∈ cs, e.allocated = false → chunk_size n ≤ e.size → c.addr ≤ e.addr) ∧
        mm_malloc st n = .ok (st2, c.addr + hdr_size) ∧
        mem_heapsize st2 = mem_heapsize st) ∧
      (∃ s1 s2 s3 s4 p q, mm_malloc st0 100 = .ok (s1, p) ∧ mm_malloc s1 200 = .ok (s2, q) ∧
        mm_free s2 p = .ok s3 ∧ mm_malloc s3 50 = .ok (s4, p) ∧
        mem_heapsize s4 = mem_heapsize s3 ∧ mem_heapsize s3 = 352) := by
  constructor
  · have hfit : fits (chunk_size n) d = true := by simp [fits, hfree, hsz]
    obtain ⟨pre, c, post, hcs, hc, hpre, hlow⟩ := first_fit_lowest st cs _ d h hd hfit
    subst hcs
    obtain ⟨st2, hm, hsame, -⟩ := mm_malloc_fit st n pre post c h hc hpre
    simp only [fits, Bool.and_eq_true, Bool.not_eq_true', decide_eq_true_eq] at hc
    refine ⟨c, st2, by simp, hc.1, hc.2, ?_, hm, hsame.2.1⟩
    intro e he hef hes
    exact hlow e he (by simp [fits, hef, hes])
  · have hz := wf_nil_size st0 h0
    have c100 : chunk_size 100 = 128 := by decide
    have c200 : chunk_size 200 = 224 := by decide
    have c50 : chunk_size 50 = 80 := by decide
    obtain ⟨s1, hm1, e1, e2, e3, e4, -, hwf1⟩ :=
      mm_malloc_grow st0 100 [] h0 (by simp) (by decide) (by rw [c100]; omega)
    obtain ⟨s2, hm2, f1, f2, f3, f4, -, hwf2⟩ :=
      mm_malloc_grow s1 200 _ hwf1 (by simp [fits]) (by decide) (by rw [c200, e2, e3, c100]; omega)
    simp only [List.nil_append, List.singleton_append] at hwf2
    obtain ⟨s3, hfr, hsame3, hwf3, -, -⟩ :=
      mm_free_wf s2 [] [⟨s1.lo + s1.size, chunk_size 200, true⟩]
        ⟨st0.lo + st0.size, chunk_size 100, true⟩ hwf2
    simp only [List.nil_append, List.takeWhile_cons, is_free, Bool.not_true,
      Bool.false_eq_true, if_false, List.dropWhile_cons, total, List.map_nil, List.sum_nil,
      Nat.add_zero] at hwf3 hfr
    obtain ⟨s4, hm4, hsame4, -⟩ :=
      mm_malloc_fit s3 50 [] [⟨s1.lo + s1.size, chunk_size 200, true⟩]
        ⟨st0.lo + st0.size, chunk_size 100, false⟩ hwf3 (by simp [fits, c50, c100]) (by simp)
    refine ⟨s1, s2, s3, s4, _, _, hm1, hm2, hfr, hm4, hsame4.2.1, ?_⟩
    unfold mem_heapsize
    rw [hsame3.2.1, f2, e2, c100, c200, hz]

/-- Witness for C4: the heap reached by `p = mm_malloc(100)`, `mm_malloc(200)`,
`mm_free(p)` from an empty heap, and a request of 50 bytes. -/
theorem first_fit_reuse_witness :
    (∃ c st2, c ∈ [(⟨4096, 128, false⟩ : Chunk), ⟨4224, 224, true⟩] ∧ c.allocated = false ∧
        chunk_size 50 ≤ c.size ∧
        (∀ e ∈ [(⟨4096, 128, false⟩ : Chunk), ⟨4224, 224, true⟩],
          e.allocated = false → chunk_size 50 ≤ e.size → c.addr ≤ e.addr) ∧
        mm_malloc (state_of (session 1 [.malloc 100, .malloc 200, .free 4112])) 50
          = .ok (st2, c.addr + hdr_size) ∧
        mem_heapsize st2
          = mem_heapsize (state_of (session 1 [.malloc 100, .malloc 200, .free 4112]))) ∧
      (∃ s1 s2 s3 s4 p q, mm_malloc (empty_heap 1) 100 = .ok (s1, p) ∧
        mm_malloc s1 200 = .ok (s2, q) ∧ mm_free s2 p = .ok s3 ∧
        mm_malloc s3 50 = .ok (s4, p) ∧ mem_heapsize s4 = mem_heapsize s3 ∧
        mem_heapsize s3 = 352) :=
  first_fit_reuse (state_of (session 1 [.malloc 100, .malloc 200, .free 4112]))
    [⟨4096, 128, false⟩, ⟨4224, 224, true⟩] 50 ⟨4096, 128, false⟩ (empty_heap 1)
    (by decide) (by decide) (by decide) (by decide) (by decide) (by decide)

/-- C5 fails on the code. On an empty well-formed heap no free chunk fits a
request of 4294967296 bytes and the store accepts the call it receives, but
`ask_os_for_chunk` passes the chunk size `hdr_size + align(n)` = 4294967312 to
`mem_sbrk`, whose parameter is an `int`: the store is asked for 16 bytes. The
heap grows by 16 bytes, not by 4294967312, while the header of the new chunk
records 4294967312 bytes, and the final assertion of `mm_checkheap` fails on the
heap that is left. -/
theorem growth_truncated_to_int :
    WF (empty_heap 1) [] ∧
      (mem_sbrk (empty_heap 1) (to_int (chunk_size 4294967296))).2 ≠ SBRK_FAILED ∧
      hdr_size + align 4294967296 = 4294967312 ∧
      to_int (chunk_size 4294967296) = 16 ∧
      (mm_malloc (empty_heap 1) 4294967296).map (fun r => (mem_heapsize r.1, r.2))
        = .ok (16, 4112) ∧
      mem_heapsize (empty_heap 1) = 0 ∧
      (mm_malloc (empty_heap 1) 4294967296 >>= fun r => load_size r.1 4096)
        = .ok 4294967312 ∧
      (mm_malloc (empty_heap 1) 4294967296 >>= fun r => mm_checkheap r.1)
        = .error .assertion := by
  decide

/-- Growth inside the range of `int`: in a well-formed heap with live chunks
`cs`, for a request whose chunk size `hdr_size + align(n)` is below `2 ^ 31`, if
no free chunk is large enough and the store accepts the request, then
`mm_malloc(n)` grows the heap by exactly `hdr_size + align(n)` bytes and returns
the payload of a new allocated chunk of that size at the previous end of the
heap; the live chunks are then `cs` followed by the new chunk, so every earlier
chunk keeps its size and its allocation flag. -/
theorem malloc_grows_heap (st : Heap) (cs : List Chunk) (n : Nat) (h : WF st cs)
    (hnofit : ∀ d ∈ cs, d.allocated = false → d.size < hdr_size + align n)
    (hint : hdr_size + align n < 2147483648)
    (hacc : (mem_sbrk st (to_int (chunk_size n))).2 ≠ SBRK_FAILED) :
    ∃ st2, mm_malloc st n = .ok (st2, mem_heap_lo st + mem_heapsize st + hdr_size) ∧
      mem_heapsize st2 = mem_heapsize st + (hdr_size + align n) ∧
      mem_heap_lo st2 = mem_heap_lo st ∧
      WF st2 (cs ++ [⟨mem_heap_lo st + mem_heapsize st, hdr_size + align n, true⟩]) ∧
      live_chunks st2
        = .ok (cs ++ [⟨mem_heap_lo st + mem_heapsize st, hdr_size + align n, true⟩]) ∧
      (∀ c ∈ cs, load_size st2 c.addr = .ok c.size ∧
        load_allocated st2 c.addr = .ok c.allocated) := by
  have hcs : chunk_size n = hdr_size + align n := by
    unfold chunk_size; apply Nat.mod_eq_of_lt; unfold WORD; omega
  have hl : st.size + chunk_size n ≤ st.limit := by
    by_contra hcon
    apply hacc
    unfold mem_sbrk
    rw [to_int_small _ (by omega), if_neg]
    simp only [Int.toNat_ofNat]
    omega
  obtain ⟨st2, hm, e1, e2, e3, e4, hframe, hwf⟩ :=
    mm_malloc_grow st n cs h
      (fun d hd => by
        cases hda : d.allocated
        · have := hnofit d hd hda
          simp [fits, hda, hcs]; omega
        · simp [fits, hda])
      hint hl
  rw [hcs] at hwf e2
  refine ⟨st2, hm, e2, e1, hwf, live_chunks_wf _ _ hwf, ?_⟩
  intro c hc
  obtain ⟨h1, h2, h3, h4⟩ := seg_mem _ _ _ _ hwf.2 c (List.mem_append_left _ hc)
  have hin8 : in_heap st2 c.addr 8 := by unfold in_heap; omega
  have hin1 : in_heap st2 (c.addr + 8) 1 := by unfold in_heap; omega
  rw [load_size_ok _ _ hin8, load_allocated_ok _ _ hin1, h4.1, h4.2]
  exact ⟨rfl, rfl⟩

/-- Growth inside the range of `int`, on the heap holding one allocated chunk of
128 bytes and a request of 200 bytes. -/
theorem malloc_grows_heap_witness :
    ∃ st2, mm_malloc (state_of (session 1 [.malloc 100])) 200
        = .ok (st2, mem_heap_lo (state_of (session 1 [.malloc 100]))
            + mem_heapsize (state_of (session 1 [.malloc 100])) + hdr_size) ∧
      mem_heapsize st2
        = mem_heapsize (state_of (session 1 [.malloc 100])) + (hdr_size + align 200) ∧
      mem_heap_lo st2 = mem_heap_lo (state_of (session 1 [.malloc 100])) ∧
      WF st2 ([(⟨4096, 128, true⟩ : Chunk)] ++
        [⟨mem_heap_lo (state_of (session 1 [.malloc 100]))
          + mem_heapsize (state_of (session 1 [.malloc 100])), hdr_size + align 200, true⟩]) ∧
      live_chunks st2 = .ok ([(⟨4096, 128, true⟩ : Chunk)] ++
        [⟨mem_heap_lo (state_of (session 1 [.malloc 100]))
          + mem_heapsize (state_of (session 1 [.malloc 100])), hdr_size + align 200, true⟩]) ∧
      (∀ c ∈ [(⟨4096, 128, true⟩ : Chunk)], load_size st2 c.addr = .ok c.size ∧
        load_allocated st2 c.addr = .ok c.allocated) :=
  malloc_grows_heap (state_of (session 1 [.malloc 100])) [⟨4096, 128, true⟩] 200
    (by decide) (by decide) (by decide) (by decide)

/-- C6 fails on the code. On an empty heap whose store refuses every request no
free chunk fits and `mem_sbrk` reports failure, but `mm_malloc(1)` does not test
that result: `ask_os_for_chunk` hands it to `init_chunk`, which writes a header
through it, an access outside the heap. No null pointer is returned. -/
theorem malloc_exhaustion_faults :
    first_fit exhausted_heap (chunk_size 1) = .ok NULL ∧
      (mem_sbrk exhausted_heap (to_int (chunk_size 1))).2 = SBRK_FAILED ∧
      (ask_os_for_chunk exhausted_heap (chunk_size 1)).map Prod.snd = .error .fault ∧
      (mm_malloc exhausted_heap 1).map Prod.snd = .error .fault := by
  decide

/-- C7: in a well-formed heap with live chunks `pre ++ a :: after` (with `a`
allocated, or free already), `mm_free` of the payload of `a` succeeds and leaves
a well-formed heap whose live chunks (the ones the traversal reaches) are `pre`, then `a` as a
free chunk whose size is its old size plus the sizes of the maximal run of free
chunks that followed it, then the chunks after that run. Every chunk of the run
has size 0 afterwards and its address is not the address of any live chunk, and
the live chunk right after `a`, if any, is allocated. In particular, from an
empty well-formed heap, after allocating `A`, `B` and `C` (three requests whose
chunk sizes are below `2 ^ 31` and which the store grants) and freeing `B` and
then `A`, the checker reports one free chunk of size `size(A) + size(B)` and one
allocated chunk. -/
theorem free_coalesces_forward (st : Heap) (pre after : List Chunk) (a : Chunk) (st0 : Heap)
    (nA nB nC : Nat) (h : WF st (pre ++ a :: after)) (h0 : WF st0 []) (hA : hdr_size + align nA < 2147483648)
    (hB : hdr_size + align nB < 2147483648) (hC : hdr_size + align nC < 2147483648)
    (hl : chunk_size nA + chunk_size nB + chunk_size nC ≤ st0.limit) :
    (∃ st2, mm_free st (a.addr + hdr_size) = .ok st2 ∧
        live_chunks st2 = .ok (pre ++ ⟨a.addr, a.size + total (after.takeWhile is_free), false⟩
          :: after.dropWhile is_free) ∧
        WF st2 (pre ++ ⟨a.addr, a.size + total (after.takeWhile is_free), false⟩
          :: after.dropWhile is_free) ∧
        mem_heapsize st2 = mem_heapsize st ∧
        (∀ r ∈ after.takeWhile is_free, r.allocated = false ∧ load_size st2 r.addr = .ok 0 ∧
          ∀ c ∈ pre ++ ⟨a.addr, a.size + total (after.takeWhile is_free), false⟩
            :: after.dropWhile is_free, c.addr ≠ r.addr) ∧
        (∀ d, (after.dropWhile is_free).head? = some d → d.allocated = true)) ∧
      (∃ s1 s2 s3 s4 s5 pA pB pC, mm_malloc st0 nA = .ok (s1, pA) ∧
        mm_malloc s1 nB = .ok (s2, pB) ∧ mm_malloc s2 nC = .ok (s3, pC) ∧
        mm_free s3 pB = .ok s4 ∧ mm_free s4 pA = .ok s5 ∧
        mm_checkheap s5 = .ok ⟨1, 1, chunk_size nC, chunk_size nA + chunk_size nB⟩) := by
  constructor
  · obtain ⟨st2, hfr, hsame, hwf, hzero, -⟩ := mm_free_wf st pre after a h
    refine ⟨st2, hfr, live_chunks_wf _ _ hwf, hwf, hsame.2.1, ?_, head_dropWhile_allocated after⟩
    intro r hr
    obtain ⟨hr1, hr2, hr3⟩ := merged_not_reached st pre after a h r hr
    have hin : in_heap st2 r.addr 8 := by
      unfold in_heap; rw [hsame.1, hsame.2.1]; omega
    have hfree : is_free r = true := List.mem_takeWhile_imp hr
    refine ⟨by simpa [is_free] using hfree, ?_, hr3⟩
    rw [load_size_ok _ _ hin, hzero r hr]
  · have hz := wf_nil_size st0 h0
    obtain ⟨s1, hm1, e1, e2, e3, e4, -, hwf1⟩ :=
      mm_malloc_grow st0 nA [] h0 (by simp) hA (by omega)
    obtain ⟨s2, hm2, f1, f2, f3, f4, -, hwf2⟩ :=
      mm_malloc_grow s1 nB _ hwf1 (by simp [fits]) hB (by omega)
    obtain ⟨s3, hm3, g1, g2, g3, g4, -, hwf3⟩ :=
      mm_malloc_grow s2 nC _ hwf2 (by simp [fits]) hC (by omega)
    simp only [List.nil_append, List.singleton_append, List.cons_append] at hwf3
    obtain ⟨s4, hfr4, hsame4, hwf4, -, -⟩ :=
      mm_free_wf s3 [⟨st0.lo + st0.size, chunk_size nA, true⟩]
        [⟨s2.lo + s2.size, chunk_size nC, true⟩] ⟨s1.lo + s1.size, chunk_size nB, true⟩ hwf3
    simp only [List.singleton_append, List.takeWhile_cons, is_free, Bool.not_true,
      Bool.false_eq_true, if_false, List.dropWhile_cons, total, List.map_nil, List.sum_nil,
      Nat.add_zero] at hwf4 hfr4
    obtain ⟨s5, hfr5, hsame5, hwf5, -, -⟩ :=
      mm_free_wf s4 [] [⟨s1.lo + s1.size, chunk_size nB, false⟩,
        ⟨s2.lo + s2.size, chunk_size nC, true⟩] ⟨st0.lo + st0.size, chunk_size nA, true⟩ hwf4
    simp only [List.nil_append, List.takeWhile_cons, is_free, Bool.not_true, Bool.not_false,
      Bool.false_eq_true, if_false, if_true, List.dropWhile_cons, total, List.map_nil,
      List.map_cons, List.sum_cons, List.sum_nil, Nat.add_zero, List.takeWhile_nil] at hwf5 hfr5
    refine ⟨s1, s2, s3, s4, s5, _, _, _, hm1, hm2, hm3, hfr4, hfr5, ?_⟩
    rw [mm_checkheap_wf _ _ hwf5]
    simp [census, tally]

/-- Witness for C7: the heap reached by three allocations of 16 bytes and
`mm_free` of the second; the chunk freed is the first. -/
theorem free_coalesces_forward_witness :
    (∃ st2, mm_free (state_of (session 1 [.malloc 16, .malloc 16, .malloc 16, .free 4144]))
          ((⟨4096, 32, true⟩ : Chunk).addr + hdr_size) = .ok st2 ∧
        live_chunks st2 = .ok ([] ++ ⟨(⟨4096, 32, true⟩ : Chunk).addr,
            (⟨4096, 32, true⟩ : Chunk).size + total (List.takeWhile is_free
              [⟨4128, 32, false⟩, ⟨4160, 32, true⟩]), false⟩
          :: List.dropWhile is_free [⟨4128, 32, false⟩, ⟨4160, 32, true⟩]) ∧
        WF st2 ([] ++ ⟨(⟨4096, 32, true⟩ : Chunk).addr,
            (⟨4096, 32, true⟩ : Chunk).size + total (List.takeWhile is_free
              [⟨4128, 32, false⟩, ⟨4160, 32, true⟩]), false⟩
          :: List.dropWhile is_free [⟨4128, 32, false⟩, ⟨4160, 32, true⟩]) ∧
        mem_heapsize st2
          = mem_heapsize (state_of (session 1 [.malloc 16, .malloc 16, .malloc 16, .free 4144])) ∧
        (∀ r ∈ List.takeWhile is_free [(⟨4128, 32, false⟩ : Chunk), ⟨4160, 32, true⟩],
          r.allocated = false ∧ load_size st2 r.addr = .ok 0 ∧
          ∀ c ∈ [] ++ ⟨(⟨4096, 32, true⟩ : Chunk).addr,
              (⟨4096, 32, true⟩ : Chunk).size + total (List.takeWhile is_free
                [⟨4128, 32, false⟩, ⟨4160, 32, true⟩]), false⟩
            :: List.dropWhile is_free [⟨4128, 32, false⟩, ⟨4160, 32, true⟩], c.addr ≠ r.addr) ∧
        (∀ d, (List.dropWhile is_free [(⟨4128, 32, false⟩ : Chunk), ⟨4160, 32, true⟩]).head?
          = some d → d.allocated = true)) ∧
      (∃ s1 s2 s3 s4 s5 pA pB pC, mm_malloc (empty_heap 1) 100 = .ok (s1, pA) ∧
        mm_malloc s1 200 = .ok (s2, pB) ∧ mm_malloc s2 300 = .ok (s3, pC) ∧
        mm_free s3 pB = .ok s4 ∧ mm_free s4 pA = .ok s5 ∧
        mm_checkheap s5 = .ok ⟨1, 1, chunk_size 300, chunk_size 100 + chunk_size 200⟩) :=
  free_coalesces_forward (state_of (session 1 [.malloc 16, .malloc 16, .malloc 16, .free 4144]))
    [] [⟨4128, 32, false⟩, ⟨4160, 32, true⟩] ⟨4096, 32, true⟩ (empty_heap 1) 100 200 300
    (by decide) (by decide) (by decide) (by decide) (by decide) (by decide)

/-- C8 fails on the code. After three allocations of 16 bytes, freeing the first
and then the second leaves the first two live chunks both free and adjacent:
`mm_free` merges a chunk only with the free chunks after it. The first four
calls are admissible; the fifth frees a chunk while the live chunk right before
it is free. -/
theorem adjacent_free_chunks_remain :
    (session 1 [.malloc 16, .malloc 16, .malloc 16, .free 4112, .free 4144]).map Prod.snd
        = .ok [4112, 4144, 4176, NULL, NULL] ∧
      (session 1 [.malloc 16, .malloc 16, .malloc 16, .free 4112, .free 4144] >>= fun r =>
          live_chunks r.1)
        = .ok [⟨4096, 32, false⟩, ⟨4128, 32, false⟩, ⟨4160, 32, true⟩] ∧
      ¬ no_adjacent_free [⟨4096, 32, false⟩, ⟨4128, 32, false⟩, ⟨4160, 32, true⟩] ∧
      admissible_run (empty_heap 1) [.malloc 16, .malloc 16, .malloc 16, .free 4112] ∧
      ¬ admissible_run (empty_heap 1)
        [.malloc 16, .malloc 16, .malloc 16, .free 4112, .free 4144] := by
  decide

/-- C8, amended: start from an empty heap on which `mm_init` has returned 0 and
run any sequence of `mm_malloc` / `mm_free` / `mm_realloc` calls to completion.
If every call is admissible in the heap it is made in (`admissible_run`: every
pointer freed or reallocated is the payload of a live chunk, or null for
`mm_realloc`; no chunk is freed, by `mm_free` or inside `mm_realloc`, while the
live chunk right before it is free; chunk sizes are in the range of `int`, and
`mm_realloc` shrinks in place only to multiples of 16), then the heap reached is
well formed and no two adjacent live chunks, a chunk and its `next_chunk`
successor, are both free. -/
theorem no_adjacent_free_kept (st0 st1 : Heap) (calls : List Call) (st : Heap) (ps : List Nat)
    (hs : store_ok st0) (hinit : mm_init st0 = .ok (st1, 0))
    (hadm : admissible_run st1 calls) (hrun : run st1 calls = .ok (st, ps)) :
    ∃ cs, live_chunks st = .ok cs ∧ WF st cs ∧ no_adjacent_free cs := by
  obtain ⟨cs, hwf, hn⟩ := run_keeps_no_adjacent_free calls st1 [] st ps
    (mm_init_wf st0 st1 hs hinit) trivial hadm hrun
  exact ⟨cs, live_chunks_wf st cs hwf, hwf, hn⟩

/-- Witness for C8 as amended: three allocations of 16 bytes, `mm_free` of the
second and then of the first (which merges the two), an allocation of 100 bytes
that grows the heap, `mm_realloc` of it down to 32 bytes and up to 200 bytes,
and `mm_realloc(NULL, 0)`. -/
theorem no_adjacent_free_kept_witness :
    ∃ cs, live_chunks (state_of (run (empty_heap 1)
        [.malloc 16, .malloc 16, .malloc 16, .free 4144, .free 4112, .malloc 100,
          .realloc 4208 32, .realloc 4208 200, .realloc NULL 0])) = .ok cs ∧
      WF (state_of (run (empty_heap 1)
        [.malloc 16, .malloc 16, .malloc 16, .free 4144, .free 4112, .malloc 100,
          .realloc 4208 32, .realloc 4208 200, .realloc NULL 0])) cs ∧
      no_adjacent_free cs :=
  no_adjacent_free_kept (empty_heap 1) (empty_heap 1)
    [.malloc 16, .malloc 16, .malloc 16, .free 4144, .free 4112, .malloc 100,
      .realloc 4208 32, .realloc 4208 200, .realloc NULL 0]
    (state_of (run (empty_heap 1)
      [.malloc 16, .malloc 16, .malloc 16, .free 4144, .free 4112, .malloc 100,
        .realloc 4208 32, .realloc 4208 200, .realloc NULL 0]))
    [4112, 4144, 4176, NULL, NULL, 4208, 4208, 4336, 4112]
    (by decide) rfl (by decide) rfl

/-- C9 fails on the code. After `p = mm_malloc(48)` and `mm_realloc(p, 1)` the
walk from the heap's lowest address reaches a chunk of 17 bytes and a chunk of
47 bytes, neither a multiple of 16: `mm_realloc` splits at `size + hdr_size`
without rounding `size` up. -/
theorem realloc_leaves_unaligned_sizes :
    (session 1 [.malloc 48, .realloc 4112 1]).map Prod.snd = .ok [4112, 4112] ∧
      (session 1 [.malloc 48, .realloc 4112 1] >>= fun r => live_chunks r.1)
        = .ok [⟨4096, 17, true⟩, ⟨4113, 47, false⟩] ∧
      (session 0 [.malloc 48, .realloc 4112 1] >>= fun r => live_chunks r.1)
        = .ok [⟨4096, 17, true⟩, ⟨4113, 47, false⟩] ∧
      17 % ALIGNMENT = 1 ∧ 47 % ALIGNMENT = 15 := by
  decide

/-- C10 fails on the code for `s = 0`. On an empty heap `mm_malloc(0)` and
`mm_realloc(NULL, 0)` return the same pointer, but `mm_malloc` leaves the chunk
allocated while `mm_realloc` goes on to the test `!size` and frees the chunk it
has just obtained. -/
theorem realloc_null_zero_differs :
    (mm_malloc (empty_heap 1) 0).map Prod.snd = .ok 4112 ∧
      (mm_realloc (empty_heap 1) NULL 0).map Prod.snd = .ok 4112 ∧
      (mm_malloc (empty_heap 1) 0 >>= fun r => live_chunks r.1) = .ok [⟨4096, 16, true⟩] ∧
      (mm_realloc (empty_heap 1) NULL 0 >>= fun r => live_chunks r.1)
        = .ok [⟨4096, 16, false⟩] ∧
      (mm_malloc (empty_heap 1) 0 >>= fun r => load_allocated r.1 (payload2header r.2))
        = .ok true ∧
      (mm_realloc (empty_heap 1) NULL 0 >>= fun r => load_allocated r.1 (payload2header r.2))
        = .ok false := by
  decide

/-- C11 fails on the code: after `p = mm_malloc(16)` the call `mm_realloc(p, 0)`
returns `p` itself (4112), not the null pointer. -/
theorem realloc_zero_returns_pointer :
    (session 1 [.malloc 16, .realloc 4112 0]).map Prod.snd = .ok [4112, 4112] ∧
      (session 0 [.malloc 16, .realloc 4112 0]).map Prod.snd = .ok [4112, 4112] ∧
      (4112 : Nat) ≠ NULL := by
  decide

/-- C11, amended: in a well-formed heap, for the payload pointer `ptr` of a live
allocated chunk, `mm_free(ptr)` succeeds and `mm_realloc(ptr, 0)` leaves the
heap in exactly the state `mm_free(ptr)` leaves it; the value it returns is
`ptr` itself. -/
theorem realloc_zero_is_free (st : Heap) (pre after : List Chunk) (a : Chunk)
    (h : WF st (pre ++ a :: after)) (hal : a.allocated = true) :
    ∃ st2, mm_free st (a.addr + hdr_size) = .ok st2 ∧
      mm_realloc st (a.addr + hdr_size) 0 = .ok (st2, a.addr + hdr_size) := by
  obtain ⟨st2, hfr, -⟩ := mm_free_wf st pre after a h
  obtain ⟨hpreseg, hh, h16, hm16, hpost, hlo, hend, ha16⟩ := wf_split st pre after a h
  have hs := h.1
  have hlim := hs.2.2.1
  have hszl := hs.2.2.2.1
  have hin : in_heap st a.addr 8 := by unfold in_heap; omega
  have hin1 : in_heap st (a.addr + 8) 1 := by unfold in_heap; omega
  have hne : ¬ (a.addr + hdr_size = NULL) := by unfold NULL hdr_size; omega
  refine ⟨st2, hfr, ?_⟩
  unfold mm_realloc
  simp only [if_neg hne, pure_ok, bind_ok,
    payload2header_add a.addr (by unfold WORD hdr_size at *; omega),
    load_size_ok st _ hin, load_allocated_ok st _ hin1, hh.2, hal, Bool.not_true,
    Bool.false_eq_true, if_false, if_true, hfr]

/-- Witness for C11 as amended: the heap holding one allocated chunk of 32
bytes. -/
theorem realloc_zero_is_free_witness :
    ∃ st2, mm_free (state_of (session 1 [.malloc 16])) ((⟨4096, 32, true⟩ : Chunk).addr + hdr_size)
        = .ok st2 ∧
      mm_realloc (state_of (session 1 [.malloc 16])) ((⟨4096, 32, true⟩ : Chunk).addr + hdr_size) 0
        = .ok (st2, (⟨4096, 32, true⟩ : Chunk).addr + hdr_size) :=
  realloc_zero_is_free (state_of (session 1 [.malloc 16])) [] [] ⟨4096, 32, true⟩
    (by decide) (by decide)

/-- C12 fails on the code. In a heap whose payload bytes are all 255, after
`p = mm_malloc(32)` the call `mm_realloc(p, 18446744073709551615)` computes
`size + hdr_size` as 15, takes the shrink branch, and `split` writes a header at
offset 15 of the chunk: the call returns `p`, and the first eight payload bytes
are 0 instead of 255. Also, with ordinary sizes, growing the last chunk of the
heap into an earlier free chunk copies `size` bytes from the old payload, which
reads past the end of the heap. -/
theorem realloc_loses_content :
    (stale_session [.malloc 32]).map (fun r => (r.2, bytes_at r.1 4112 32))
        = .ok ([4112], List.replicate 32 255) ∧
      (stale_session [.malloc 32, .realloc 4112 18446744073709551615]).map
          (fun r => (r.2, bytes_at r.1 4112 32))
        = .ok ([4112, 4112], List.replicate 8 0 ++ List.replicate 24 255) ∧
      (18446744073709551615 + hdr_size) % WORD = 15 ∧
      (session 1 [.malloc 64, .malloc 16, .free 4112] >>= fun r => live_chunks r.1)
        = .ok [⟨4096, 80, false⟩, ⟨4176, 32, true⟩] ∧
      (session 1 [.malloc 64, .malloc 16, .free 4112, .realloc 4192 48]).map Prod.snd
        = .error .fault := by
  decide

/-- C13: in a well-formed heap with live chunks `pre ++ a :: after`, where `a` is
allocated, for every `n > 0` with `hdr_size + n` strictly smaller than the
payload capacity `a.size - hdr_size`, the call `mm_realloc(ptr, n)` on the
payload pointer of `a` returns `ptr` itself. Afterwards the walk reaches `pre`,
then the chunk at the address of `a`, still allocated, with `n + hdr_size` bytes,
then right after it a free chunk made of the cut-off tail and of the maximal run
of free chunks that followed `a`, then the remaining chunks, the first of which
(if any) is allocated. The sum of the live chunk sizes and the heap size are
unchanged. -/
theorem realloc_shrinks_in_place (st : Heap) (pre after : List Chunk) (a : Chunk) (n : Nat)
    (h : WF st (pre ++ a :: after)) (hal : a.allocated = true) (hn : 0 < n)
    (hlt : hdr_size + n < a.size - hdr_size) :
    ∃ st2, mm_realloc st (a.addr + hdr_size) n = .ok (st2, a.addr + hdr_size) ∧
      live_chunks st2 = .ok (pre ++ ⟨a.addr, n + hdr_size, true⟩ ::
        ⟨a.addr + (n + hdr_size),
          a.size - (n + hdr_size) + total (after.takeWhile is_free), false⟩ ::
        after.dropWhile is_free) ∧
      (∀ d, (after.dropWhile is_free).head? = some d → d.allocated = true) ∧
      total (pre ++ ⟨a.addr, n + hdr_size, true⟩ ::
        ⟨a.addr + (n + hdr_size),
          a.size - (n + hdr_size) + total (after.takeWhile is_free), false⟩ ::
        after.dropWhile is_free) = total (pre ++ a :: after) ∧
      mem_heapsize st2 = mem_heapsize st ∧ mem_heap_lo st2 = mem_heap_lo st := by
  obtain ⟨st2, hre, hsame, htile, -⟩ :=
    mm_realloc_shrink st pre after a n h hal hn (by omega)
  have hs2 := store_ok_same st st2 h.1 hsame
  rw [← hsame.1, ← hsame.2.1] at htile
  have htile2 := htile
  rw [hsame.1, hsame.2.1] at htile
  refine ⟨st2, hre, live_chunks_tile st2 _ hs2 htile2, head_dropWhile_allocated after, ?_,
    hsame.2.1, hsame.1⟩
  have e1 := tile_end _ _ _ _ htile
  have e2 := seg_end _ _ _ _ h.2
  omega

/-- Witness for C13: the heap holding one allocated chunk of 128 bytes, shrunk
to 10 bytes. -/
theorem realloc_shrinks_in_place_witness :
    ∃ st2, mm_realloc (state_of (session 1 [.malloc 100]))
        ((⟨4096, 128, true⟩ : Chunk).addr + hdr_size) 10
          = .ok (st2, (⟨4096, 128, true⟩ : Chunk).addr + hdr_size) ∧
      live_chunks st2 = .ok ([] ++ ⟨(⟨4096, 128, true⟩ : Chunk).addr, 10 + hdr_size, true⟩ ::
        ⟨(⟨4096, 128, true⟩ : Chunk).addr + (10 + hdr_size),
          (⟨4096, 128, true⟩ : Chunk).size - (10 + hdr_size)
            + total (List.takeWhile is_free []), false⟩ ::
        List.dropWhile is_free []) ∧
      (∀ d, (List.dropWhile is_free ([] : List Chunk)).head? = some d → d.allocated = true) ∧
      total ([] ++ ⟨(⟨4096, 128, true⟩ : Chunk).addr, 10 + hdr_size, true⟩ ::
        ⟨(⟨4096, 128, true⟩ : Chunk).addr + (10 + hdr_size),
          (⟨4096, 128, true⟩ : Chunk).size - (10 + hdr_size)
            + total (List.takeWhile is_free []), false⟩ ::
        List.dropWhile is_free []) = total ([] ++ (⟨4096, 128, true⟩ : Chunk) :: []) ∧
      mem_heapsize st2 = mem_heapsize (state_of (session 1 [.malloc 100])) ∧
      mem_heap_lo st2 = mem_heap_lo (state_of (session 1 [.malloc 100])) :=
  realloc_shrinks_in_place (state_of (session 1 [.malloc 100])) [] [] ⟨4096, 128, true⟩ 10
    (by decide) (by decide) (by decide) (by decide)

/-- C14 fails on the code. `mm_free(NULL)` computes the header address
`NULL - hdr_size` and reads `h->size` there, outside the heap, on an empty heap
and on a heap holding a chunk alike. -/
theorem free_null_faults :
    payload2header NULL = 18446744073709551600 ∧
      (mm_free (empty_heap 1) NULL).map mem_heapsize = .error .fault ∧
      load_size (empty_heap 1) (payload2header NULL) = .error .fault ∧
      (session 1 [.malloc 16, .free NULL]).map Prod.snd = .error .fault := by
  decide

/-- C17 fails on the code. After `p = mm_malloc(48)`, `mm_realloc(p, 1)` and
`mm_malloc(16)` the last live chunk has a size of 15 bytes, less than the header
size 16, and its header, at address 4145, would end beyond the heap's end
4160. -/
theorem chunk_smaller_than_header :
    (session 1 [.malloc 48, .realloc 4112 1, .malloc 16]).map Prod.snd
        = .ok [4112, 4112, 4129] ∧
      (session 1 [.malloc 48, .realloc 4112 1, .malloc 16] >>= fun r => live_chunks r.1)
        = .ok [⟨4096, 17, true⟩, ⟨4113, 32, true⟩, ⟨4145, 15, false⟩] ∧
      (session 1 [.malloc 48, .realloc 4112 1, .malloc 16]).map
          (fun r => mem_heap_lo r.1 + mem_heapsize r.1) = .ok 4160 ∧
      15 < hdr_size ∧ 4160 < 4145 + hdr_size := by
  decide

/-- C18 fails on the code. After `p = mm_malloc(32)`, `mm_malloc(0)`,
`mm_realloc(p, 15)` and `mm_malloc(0)` the live chunk at address 4143 has size
1; the address after it, 4144, is below the heap's end 4160 and holds a header
whose size is 0, so `next_chunk` stops there. -/
theorem traversal_stops_at_zero_size :
    (session 1 [.malloc 32, .malloc 0, .realloc 4112 15, .malloc 0] >>= fun r =>
          live_chunks r.1)
        = .ok [⟨4096, 31, true⟩, ⟨4127, 16, true⟩, ⟨4143, 1, false⟩] ∧
      (session 1 [.malloc 32, .malloc 0, .realloc 4112 15, .malloc 0] >>= fun r =>
          load_size r.1 (4143 + 1)) = .ok 0 ∧
      (session 1 [.malloc 32, .malloc 0, .realloc 4112 15, .malloc 0]).map
          (fun r => (mem_heap_hi r.1, mem_heap_lo r.1 + mem_heapsize r.1)) = .ok (4159, 4160) ∧
      (session 1 [.malloc 32, .malloc 0, .realloc 4112 15, .malloc 0] >>= fun r =>
          next_chunk r.1 4143) = .ok NULL := by
  decide

/-- C16 fails on the code. In the well-formed heap reached by `p = mm_malloc(100)`,
`mm_malloc(200)`, `mm_free(p)` the first live chunk `f` is free with 128 bytes.
For `n = 18446744073709551600` the sum `hdr_size + align(n)` is computed in
`size_t` and wraps to `csz = 0`; first fit selects `f`, whose size exceeds `csz`,
and `split` writes the remainder header at `f + 0`, that is over `f` itself,
before `mm_malloc` stores size 0 there. The call returns the payload of `f`, yet
no free chunk of `f.size - csz` = 128 bytes starts at `f + csz`: the header at
4096 is allocated with size 0, the walk from the heap's lowest address no longer
reaches the 128 bytes, and the final assertion of `mm_checkheap` fails. -/
theorem malloc_overflow_leaves_empty_header :
    WF (state_of (session 1 [.malloc 100, .malloc 200, .free 4112]))
        [⟨4096, 128, false⟩, ⟨4224, 224, true⟩] ∧
      chunk_size 18446744073709551600 = 0 ∧
      first_fit (state_of (session 1 [.malloc 100, .malloc 200, .free 4112]))
        (chunk_size 18446744073709551600) = .ok 4096 ∧
      (session 1 [.malloc 100, .malloc 200, .free 4112, .malloc 18446744073709551600]).map
          Prod.snd = .ok [4112, 4240, NULL, 4112] ∧
      (session 1 [.malloc 100, .malloc 200, .free 4112, .malloc 18446744073709551600]
          >>= fun r => load_size r.1 4096) = .ok 0 ∧
      (session 1 [.malloc 100, .malloc 200, .free 4112, .malloc 18446744073709551600]
          >>= fun r => load_allocated r.1 4096) = .ok true ∧
      (session 1 [.malloc 100, .malloc 200, .free 4112, .malloc 18446744073709551600]
          >>= fun r => live_chunks r.1) = .ok [⟨4224, 224, true⟩] ∧
      (session 1 [.malloc 100, .malloc 200, .free 4112, .malloc 18446744073709551600]
          >>= fun r => mm_checkheap r.1) = .error .assertion := by
  decide

/-- Split on allocate where the chunk size does not overflow: in a well-formed
heap with live chunks `pre ++ f :: post`, for a request with
`hdr_size + align(n)` below `2 ^ 64`, where `f` is free, has at least
`csz = chunk_size n` bytes and no free chunk of `pre` has that many (so first fit
selects `f`), `mm_malloc(n)` returns the payload of `f` without growing the heap.
If `f.size > csz`, the live chunks afterwards are `pre`, an allocated chunk of
exactly `csz` bytes at the address of `f`, a free chunk of `f.size - csz` bytes
right after it, and `post`. If `f.size = csz`, they are `pre`, the chunk of `f`
marked allocated, and `post`: no chunk is created. -/
theorem split_on_allocate (st : Heap) (pre post : List Chunk) (f : Chunk) (n : Nat)
    (h : WF st (pre ++ f :: post)) (hfree : f.allocated = false)
    (hno : hdr_size + align n < WORD)
    (hfit : chunk_size n ≤ f.size)
    (hfirst : ∀ d ∈ pre, d.allocated = false → d.size < chunk_size n) :
    ∃ st2, mm_malloc st n = .ok (st2, f.addr + hdr_size) ∧
      mem_heapsize st2 = mem_heapsize st ∧
      (chunk_size n < f.size →
        WF st2 (pre ++ ⟨f.addr, chunk_size n, true⟩ ::
          ⟨f.addr + chunk_size n, f.size - chunk_size n, false⟩ :: post) ∧
        live_chunks st2 = .ok (pre ++ ⟨f.addr, chunk_size n, true⟩ ::
          ⟨f.addr + chunk_size n, f.size - chunk_size n, false⟩ :: post)) ∧
      (f.size = chunk_size n →
        WF st2 (pre ++ ⟨f.addr, chunk_size n, true⟩ :: post) ∧
        live_chunks st2 = .ok (pre ++ ⟨f.addr, chunk_size n, true⟩ :: post)) := by
  have hcs : chunk_size n = hdr_size + align n := by
    unfold chunk_size; exact Nat.mod_eq_of_lt hno
  have hc16 : 16 ≤ chunk_size n := by rw [hcs]; unfold hdr_size; omega
  obtain ⟨st2, hm, hsame, -, -, hwf⟩ :=
    mm_malloc_fit st n pre post f h (by simp [fits, hfree, hfit])
      (fun d hd => by
        cases hda : d.allocated
        · have := hfirst d hd hda
          simp [fits, hda]; omega
        · simp [fits, hda])
  have hwf2 := hwf hc16
  refine ⟨st2, hm, hsame.2.1, ?_, ?_⟩
  · intro hgt
    have hne : ¬ (f.size = chunk_size n) := by omega
    rw [if_neg hne] at hwf2
    exact ⟨hwf2, live_chunks_wf _ _ hwf2⟩
  · intro heq
    rw [if_pos heq] at hwf2
    exact ⟨hwf2, live_chunks_wf _ _ hwf2⟩

/-- Split on allocate on the heap reached by `p = mm_malloc(100)`,
`mm_malloc(200)`, `mm_free(p)` from an empty heap, with a request of 50 bytes,
which splits the free chunk of 128 bytes into 80 and 48. -/
theorem split_on_allocate_witness :
    ∃ st2, mm_malloc (state_of (session 1 [.malloc 100, .malloc 200, .free 4112])) 50
        = .ok (st2, (⟨4096, 128, false⟩ : Chunk).addr + hdr_size) ∧
      mem_heapsize st2
        = mem_heapsize (state_of (session 1 [.malloc 100, .malloc 200, .free 4112])) ∧
      (chunk_size 50 < (⟨4096, 128, false⟩ : Chunk).size →
        WF st2 ([] ++ ⟨(⟨4096, 128, false⟩ : Chunk).addr, chunk_size 50, true⟩ ::
          ⟨(⟨4096, 128, false⟩ : Chunk).addr + chunk_size 50,
            (⟨4096, 128, false⟩ : Chunk).size - chunk_size 50, false⟩ ::
          [⟨4224, 224, true⟩]) ∧
        live_chunks st2
          = .ok ([] ++ ⟨(⟨4096, 128, false⟩ : Chunk).addr, chunk_size 50, true⟩ ::
          ⟨(⟨4096, 128, false⟩ : Chunk).addr + chunk_size 50,
            (⟨4096, 128, false⟩ : Chunk).size - chunk_size 50, false⟩ ::
          [⟨4224, 224, true⟩])) ∧
      ((⟨4096, 128, false⟩ : Chunk).size = chunk_size 50 →
        WF st2 ([] ++ ⟨(⟨4096, 128, false⟩ : Chunk).addr, chunk_size 50, true⟩ ::
          [⟨4224, 224, true⟩]) ∧
        live_chunks st2
          = .ok ([] ++ ⟨(⟨4096, 128, false⟩ : Chunk).addr, chunk_size 50, true⟩ ::
          [⟨4224, 224, true⟩])) :=
  split_on_allocate (state_of (session 1 [.malloc 100, .malloc 200, .free 4112])) []
    [⟨4224, 224, true⟩] ⟨4096, 128, false⟩ 50 (by decide) (by decide) (by decide) (by decide)
    (by decide)

/-- C19: on a well-formed heap with live chunks `cs` (which are exactly the
chunks the walk from the heap's lowest address reaches), `mm_checkheap` returns
the number and the total size of the allocated chunks of `cs` and the number and
the total size of its free chunks; every live chunk is counted, although the
loop stops as soon as the running total reaches `mem_heapsize()`. The checker
only loads from memory: it has no way to change the state. -/
theorem checkheap_census (st : Heap) (cs : List Chunk) (h : WF st cs) :
    live_chunks st = .ok cs ∧
      mm_checkheap st =
        .ok ⟨(cs.filter (fun c => c.allocated)).length, (cs.filter is_free).length,
          total (cs.filter (fun c => c.allocated)), total (cs.filter is_free)⟩ ∧
      total (cs.filter (fun c => c.allocated)) + total (cs.filter is_free)
        = mem_heapsize st := by
  refine ⟨live_chunks_wf st cs h, ?_, ?_⟩
  · rw [mm_checkheap_wf st cs h, census_eq]
  · have hsum := foldl_tally_sum cs ⟨0, 0, 0, 0⟩
    rw [foldl_tally_eq] at hsum
    have hend := seg_end _ _ _ _ h.2
    simp only [Nat.zero_add] at hsum
    unfold mem_heapsize
    omega

/-- Witness for C19: the heap reached by three allocations of 16 bytes and
`mm_free` of the second. -/
theorem checkheap_census_witness :
    live_chunks (state_of (session 1 [.malloc 16, .malloc 16, .malloc 16, .free 4144]))
        = .ok [⟨4096, 32, true⟩, ⟨4128, 32, false⟩, ⟨4160, 32, true⟩] ∧
      mm_checkheap (state_of (session 1 [.malloc 16, .malloc 16, .malloc 16, .free 4144])) =
        .ok ⟨(List.filter (fun c => c.allocated)
              [(⟨4096, 32, true⟩ : Chunk), ⟨4128, 32, false⟩, ⟨4160, 32, true⟩]).length,
          (List.filter is_free
              [(⟨4096, 32, true⟩ : Chunk), ⟨4128, 32, false⟩, ⟨4160, 32, true⟩]).length,
          total (List.filter (fun c => c.allocated)
              [(⟨4096, 32, true⟩ : Chunk), ⟨4128, 32, false⟩, ⟨4160, 32, true⟩]),
          total (List.filter is_free
              [(⟨4096, 32, true⟩ : Chunk), ⟨4128, 32, false⟩, ⟨4160, 32, true⟩])⟩ ∧
      total (List.filter (fun c => c.allocated)
            [(⟨4096, 32, true⟩ : Chunk), ⟨4128, 32, false⟩, ⟨4160, 32, true⟩])
          + total (List.filter is_free
            [(⟨4096, 32, true⟩ : Chunk), ⟨4128, 32, false⟩, ⟨4160, 32, true⟩])
        = mem_heapsize (state_of (session 1 [.malloc 16, .malloc 16, .malloc 16, .free 4144])) :=
  checkheap_census (state_of (session 1 [.malloc 16, .malloc 16, .malloc 16, .free 4144]))
    [⟨4096, 32, true⟩, ⟨4128, 32, false⟩, ⟨4160, 32, true⟩] (by decide)

/-- C15: in a well-formed heap, for the payload pointer of a live chunk `a`,
`mm_free` succeeds and a second `mm_free` of the same pointer right after it leaves
exactly the state the first one left; the sum of the sizes of the live chunks
and the heap size are what they were before the first call. And in any heap
state, `mm_free` of a pointer whose header holds size 0 returns with the state
unchanged. -/
theorem double_free_harmless (st : Heap) (pre after : List Chunk) (a : Chunk) (st0 : Heap)
    (p0 : Nat) (h : WF st (pre ++ a :: after))
    (hz : load_size st0 (payload2header p0) = .ok 0) :
    (∃ st1 cs1, mm_free st (a.addr + hdr_size) = .ok st1 ∧
        mm_free st1 (a.addr + hdr_size) = .ok st1 ∧ live_chunks st1 = .ok cs1 ∧
        total cs1 = total (pre ++ a :: after) ∧ mem_heapsize st1 = mem_heapsize st) ∧
      mm_free st0 p0 = .ok st0 := by
  constructor
  · obtain ⟨st1, hfr1, hfr2, hwf1, hsame⟩ := mm_free_twice st pre after a h
    refine ⟨st1, _, hfr1, hfr2, live_chunks_wf _ _ hwf1, ?_, hsame.2.1⟩
    have e1 := seg_end _ _ _ _ hwf1.2
    have e2 := seg_end _ _ _ _ h.2
    rw [hsame.1, hsame.2.1] at e1
    omega
  · unfold mm_free
    simp only [hz, bind_ok, if_true, pure_ok]

/-- Witness for C15: the heap reached by three allocations of 16 bytes and
`mm_free` of the second, where the first chunk is freed twice; and the heap
after that, where the pointer of the second chunk leads to a header of size
0. -/
theorem double_free_harmless_witness :
    (∃ st1 cs1,
        mm_free (state_of (session 1 [.malloc 16, .malloc 16, .malloc 16, .free 4144]))
          ((⟨4096, 32, true⟩ : Chunk).addr + hdr_size) = .ok st1 ∧
        mm_free st1 ((⟨4096, 32, true⟩ : Chunk).addr + hdr_size) = .ok st1 ∧
        live_chunks st1 = .ok cs1 ∧
        total cs1 = total ([] ++ (⟨4096, 32, true⟩ : Chunk) ::
          [⟨4128, 32, false⟩, ⟨4160, 32, true⟩]) ∧
        mem_heapsize st1
          = mem_heapsize (state_of (session 1 [.malloc 16, .malloc 16, .malloc 16, .free 4144]))) ∧
      mm_free (state_of (session 1 [.malloc 16, .malloc 16, .malloc 16, .free 4144, .free 4112]))
          4144
        = .ok (state_of (session 1 [.malloc 16, .malloc 16, .malloc 16, .free 4144, .free 4112])) :=
  double_free_harmless (state_of (session 1 [.malloc 16, .malloc 16, .malloc 16, .free 4144]))
    [] [⟨4128, 32, false⟩, ⟨4160, 32, true⟩] ⟨4096, 32, true⟩
    (state_of (session 1 [.malloc 16, .malloc 16, .malloc 16, .free 4144, .free 4112])) 4144
    (by decide) (by decide)

/-- C20: in every heap state over a sound store, with arbitrary memory contents
as long as no address in the heap plus the size read there wraps around, the
walks of `first_fit`, `coalesce` and `mm_checkheap` come to an end within their
step bounds, and so does `next_chunk`, the scan for a null argument included.
Every header `next_chunk(h)` returns lies at a strictly higher address than
`h`, below the heap's high address, and holds a non-zero size; and `next_chunk`
returns null when `h + h->size` is at or beyond the high address. -/
theorem traversals_terminate (st : Heap) (csz h : Nat) (hs : store_ok st) (hw : no_wrap st) :
    halts (first_fit st csz) ∧ halts (coalesce st h) ∧ halts (mm_checkheap st) ∧
      halts (next_chunk st h) ∧ halts (next_chunk st NULL) ∧
      (∀ q, next_chunk st h = .ok q → q ≠ NULL →
        h < q ∧ q < mem_heap_hi st ∧ ∃ sz, load_size st q = .ok sz ∧ sz ≠ 0) ∧
      (∀ hsz, h ≠ NULL → load_size st h = .ok hsz → mem_heap_hi st ≤ h + hsz →
        next_chunk st h = .ok NULL) := by
  refine ⟨first_fit_halts st hs hw csz, coalesce_halts st hs hw h, mm_checkheap_halts st hs hw,
    next_chunk_halts st hs h, next_chunk_halts st hs NULL, ?_, ?_⟩
  · intro q hq hne
    obtain ⟨h1, h2, h3, h4⟩ := next_chunk_result st hs hw h q hq hne
    exact ⟨h1, h4, _, load_size_ok st q h2, h3⟩
  · intro hsz hn hl hhi
    obtain ⟨hin, rfl⟩ := load_size_inv _ _ _ hl
    have hwrap : h + rd64 st.mem h < WORD := by
      unfold in_heap at hin
      have := hw (h - st.lo) (by omega)
      have e : st.lo + (h - st.lo) = h := by omega
      rw [e] at this
      exact this
    unfold next_chunk
    rw [if_neg hn, hl, bind_ok]
    simp only [Nat.mod_eq_of_lt hwrap]
    rw [if_pos hhi]
    rfl

/-- Witness for C20: the heap left by `p = mm_malloc(32)`, `mm_malloc(0)`,
`mm_realloc(p, 15)`, `mm_malloc(0)`, which is not well formed, and its chunk at
address 4143. -/
theorem traversals_terminate_witness :
    halts (first_fit
        (state_of (session 1 [.malloc 32, .malloc 0, .realloc 4112 15, .malloc 0])) 16) ∧
      halts (coalesce
        (state_of (session 1 [.malloc 32, .malloc 0, .realloc 4112 15, .malloc 0])) 4143) ∧
      halts (mm_checkheap
        (state_of (session 1 [.malloc 32, .malloc 0, .realloc 4112 15, .malloc 0]))) ∧
      halts (next_chunk
        (state_of (session 1 [.malloc 32, .malloc 0, .realloc 4112 15, .malloc 0])) 4143) ∧
      halts (next_chunk
        (state_of (session 1 [.malloc 32, .malloc 0, .realloc 4112 15, .malloc 0])) NULL) ∧
      (∀ q, next_chunk
          (state_of (session 1 [.malloc 32, .malloc 0, .realloc 4112 15, .malloc 0])) 4143
            = .ok q → q ≠ NULL →
        4143 < q ∧
        q < mem_heap_hi
          (state_of (session 1 [.malloc 32, .malloc 0, .realloc 4112 15, .malloc 0])) ∧
        ∃ sz, load_size
          (state_of (session 1 [.malloc 32, .malloc 0, .realloc 4112 15, .malloc 0])) q
            = .ok sz ∧ sz ≠ 0) ∧
      (∀ hsz, 4143 ≠ NULL →
        load_size (state_of (session 1 [.malloc 32, .malloc 0, .realloc 4112 15, .malloc 0]))
          4143 = .ok hsz →
        mem_heap_hi (state_of (session 1 [.malloc 32, .malloc 0, .realloc 4112 15, .malloc 0]))
          ≤ 4143 + hsz →
        next_chunk (state_of (session 1 [.malloc 32, .malloc 0, .realloc 4112 15, .malloc 0]))
          4143 = .ok NULL) :=
  traversals_terminate
    (state_of (session 1 [.malloc 32, .malloc 0, .realloc 4112 15, .malloc 0])) 16 4143
    (by decide) (by decide)
